import Mathlib

/-! ArduinoReader (lib/lattepandaups.js): a shallow embedding.

The telemetry pipeline of the LattePanda UPS reader: the line parser
(`parseData`), the battery percentage estimator
(`calculateBatteryPercentage`), the one-second sampling tick with its rolling
window (`tick`, `keepArrayLength`, `averageBatteryVoltage`) and the snapshot
normalizer (`convertDataUnits`).

Conventions of the embedding.

* A JavaScript string is a list of characters (`Str`).  The text reaches the
  reader through `Buffer.toString()`, which yields well-formed Unicode text.
* A JavaScript number is an IEEE-754 binary64 value (`JSNum`): NaN, the two
  infinities, negative zero, or a finite rational.  Every arithmetic operation
  computes the exact rational result and rounds it to the nearest binary64
  value, ties to even.
* A JavaScript object used as a dictionary is the list of its own properties in
  property order (`Obj`): array-index keys in ascending numeric order, then the
  other keys in insertion order.  An assignment to the key `__proto__` goes to
  the accessor inherited from `Object.prototype`, which ignores a string or a
  number, and creates no property.
* Where the identity of an object matters (the object that `convertDataUnits`
  creates and returns), the objects live in a store and are named by references
  (`Store`, `Reader`, `convertDataUnitsIn`).
-/

namespace ArduinoReader

/-! ## Strings -/

/-- A JavaScript string. -/
abbrev Str := List Char

/-- The code points that `String.prototype.trim` strips and that `\s` matches:
ECMAScript WhiteSpace and LineTerminator. -/
def isWhiteSpace (c : Char) : Bool :=
  let n := c.toNat
  n == 0x09 || n == 0x0A || n == 0x0B || n == 0x0C || n == 0x0D || n == 0x20 ||
  n == 0xA0 || n == 0x1680 || (0x2000 ≤ n && n ≤ 0x200A) || n == 0x2028 ||
  n == 0x2029 || n == 0x202F || n == 0x205F || n == 0x3000 || n == 0xFEFF

/-- The class `\d`: an ASCII decimal digit. -/
def isDigit (c : Char) : Bool := 48 ≤ c.toNat && c.toNat ≤ 57

/-- The class `[a-zA-Z]`. -/
def isAsciiLetter (c : Char) : Bool :=
  (65 ≤ c.toNat && c.toNat ≤ 90) || (97 ≤ c.toNat && c.toNat ≤ 122)

/-- The method `String.prototype.trim`. -/
def trim (s : Str) : Str :=
  ((s.dropWhile isWhiteSpace).reverse.dropWhile isWhiteSpace).reverse

/-- The method `String.prototype.split` with a one-character separator: the
pieces between the separators, `[""]` for the empty string. -/
def split (sep : Char) : Str → List Str
  | [] => [[]]
  | c :: cs =>
    if c = sep then [] :: split sep cs
    else
      match split sep cs with
      | [] => [[c]]
      | p :: ps => (c :: p) :: ps

/-- The call `s.replace(pat, '')` with a non-empty string pattern: the first
occurrence of `pat` is removed. -/
def removeFirst (pat : Str) : Str → Str
  | [] => []
  | c :: cs =>
    if pat.isPrefixOf (c :: cs) then (c :: cs).drop pat.length
    else c :: removeFirst pat cs

/-- The call `s.replace(/\s+/g, '_')`: every maximal run of white space
becomes one underscore. -/
def replaceSpaceRuns : Str → Str
  | [] => []
  | c :: cs =>
    if isWhiteSpace c then
      match cs with
      | [] => ['_']
      | d :: _ => if isWhiteSpace d then replaceSpaceRuns cs else '_' :: replaceSpaceRuns cs
    else c :: replaceSpaceRuns cs

/-- The method `String.prototype.toLowerCase`.  On ASCII text it maps `A`-`Z`
to `a`-`z`; on text with other characters the result is given by the Unicode
case tables of the host, the parameter `uni`. -/
def toLowerCase (uni : Str → Str) (s : Str) : Str :=
  if s.all (fun c => c.toNat < 128) then s.map Char.toLower else uni s

/-! ## Numbers -/

/-- A JavaScript number.  `fin q` is the finite value `q` (`fin 0` is `+0`). -/
inductive JSNum where
  | nan : JSNum
  | posInf : JSNum
  | negInf : JSNum
  | negZero : JSNum
  | fin (q : ℚ) : JSNum
  deriving DecidableEq

namespace JSNum

/-- The sign bit. -/
def isNeg : JSNum → Bool
  | negInf => true
  | negZero => true
  | fin q => decide (q < 0)
  | _ => false

/-- Whether the number is one of the two infinities. -/
def isInf : JSNum → Bool
  | posInf => true
  | negInf => true
  | _ => false

/-- Whether the number is `+0` or `-0`. -/
def isZero : JSNum → Bool
  | negZero => true
  | fin q => decide (q = 0)
  | _ => false

/-- The mathematical value of a finite number (`0` for the others). -/
def toRat : JSNum → ℚ
  | fin q => q
  | _ => 0

/-- Whether the number is finite: neither NaN nor an infinity. -/
def isFinite : JSNum → Bool
  | negZero => true
  | fin _ => true
  | _ => false

/-- The zero of the given sign. -/
def zero (neg : Bool) : JSNum := if neg then negZero else fin 0

/-- The infinity of the given sign. -/
def infinity (neg : Bool) : JSNum := if neg then negInf else posInf

/-- The power `2 ^ e` as a rational. -/
def pow2 (e : Int) : ℚ :=
  if 0 ≤ e then ((2 ^ e.toNat : Nat) : ℚ) else 1 / ((2 ^ (-e).toNat : Nat) : ℚ)

/-- The binary logarithm of `n` rounded down (`0` for `n = 0`), by halving at
most `fuel` times. -/
def log2Aux : Nat → Nat → Nat
  | 0, _ => 0
  | fuel + 1, n => if n < 2 then 0 else log2Aux fuel (n / 2) + 1

/-- The binary logarithm of `n` rounded down (`0` for `n = 0`). -/
def log2 (n : Nat) : Nat := log2Aux n n

/-- The exponent `e` with `2 ^ e ≤ a < 2 ^ (e + 1)`, for `a > 0`. -/
def floorLog2 (a : ℚ) : Int :=
  let e0 : Int := (log2 a.num.natAbs : Int) - (log2 a.den : Int)
  if pow2 e0 ≤ a then e0 else e0 - 1

/-- The integer nearest to `x ≥ 0`, the even one of two equally near. -/
def roundHalfEven (x : ℚ) : Int :=
  let f := ⌊x⌋
  let r := x - f
  if r < 1 / 2 then f
  else if 1 / 2 < r then f + 1
  else if f % 2 = 0 then f else f + 1

/-- The binary64 value nearest to `a > 0` (53-bit significand, least exponent
`-1022`, ties to even); `none` when the result overflows. -/
def roundMag (a : ℚ) : Option ℚ :=
  let e := max (floorLog2 a) (-1022)
  let ulp := pow2 (e - 52)
  let r := (roundHalfEven (a / ulp) : ℚ) * ulp
  if r < pow2 1024 then some r else none

/-- The number for the exact result `q`: rounded to nearest; an overflow gives
an infinity, an underflow a zero of the sign of `q`, and an exact zero takes the
sign `negZ`. -/
def ofRat (negZ : Bool) (q : ℚ) : JSNum :=
  if q = 0 then zero negZ
  else
    match roundMag |q| with
    | none => infinity (decide (q < 0))
    | some r => if r = 0 then zero (decide (q < 0)) else fin (if q < 0 then -r else r)

/-- Unary minus. -/
def neg : JSNum → JSNum
  | nan => nan
  | posInf => negInf
  | negInf => posInf
  | negZero => fin 0
  | fin q => if q = 0 then negZero else fin (-q)

/-- The operator `+`  on numbers. -/
def add (x y : JSNum) : JSNum :=
  match x, y with
  | nan, _ => nan
  | _, nan => nan
  | posInf, negInf => nan
  | negInf, posInf => nan
  | posInf, _ => posInf
  | negInf, _ => negInf
  | _, posInf => posInf
  | _, negInf => negInf
  | x, y => ofRat (x.isNeg && y.isNeg) (x.toRat + y.toRat)

/-- The operator `-`  on numbers. -/
def sub (x y : JSNum) : JSNum := add x (neg y)

/-- The operator `*`  on numbers. -/
def mul (x y : JSNum) : JSNum :=
  match x, y with
  | nan, _ => nan
  | _, nan => nan
  | x, y =>
    if x.isInf || y.isInf then
      if x.isZero || y.isZero then nan else infinity (xor x.isNeg y.isNeg)
    else ofRat (xor x.isNeg y.isNeg) (x.toRat * y.toRat)

/-- The operator `/`  on numbers. -/
def div (x y : JSNum) : JSNum :=
  match x, y with
  | nan, _ => nan
  | _, nan => nan
  | x, y =>
    if x.isInf then
      if y.isInf then nan else infinity (xor x.isNeg y.isNeg)
    else if y.isInf then zero (xor x.isNeg y.isNeg)
    else if y.isZero then
      if x.isZero then nan else infinity (xor x.isNeg y.isNeg)
    else ofRat (xor x.isNeg y.isNeg) (x.toRat / y.toRat)

/-- The order of the numbers other than NaN, with `-0` below `+0` (the order
that `Math.min` and `Math.max` use). -/
def below (x y : JSNum) : Bool :=
  match x, y with
  | nan, _ => false
  | _, nan => false
  | negInf, negInf => false
  | negInf, _ => true
  | _, negInf => false
  | posInf, _ => false
  | _, posInf => true
  | negZero, negZero => false
  | negZero, fin q => decide (0 ≤ q)
  | fin p, negZero => decide (p < 0)
  | fin p, fin q => decide (p < q)

/-- The function `Math.min` of two arguments. -/
def min (x y : JSNum) : JSNum :=
  match x, y with
  | nan, _ => nan
  | _, nan => nan
  | x, y => if below y x then y else x

/-- The function `Math.max` of two arguments. -/
def max (x y : JSNum) : JSNum :=
  match x, y with
  | nan, _ => nan
  | _, nan => nan
  | x, y => if below x y then y else x

/-- The power `10 ^ e` as a rational. -/
def pow10 (e : Int) : ℚ :=
  if 0 ≤ e then ((10 ^ e.toNat : Nat) : ℚ) else 1 / ((10 ^ (-e).toNat : Nat) : ℚ)

end JSNum

open JSNum

/-! ## Conversions between strings and numbers -/

/-- The value of a character as a digit: `0`-`9`, then `a`-`z` or `A`-`Z` for
ten to thirty-five; thirty-six for any other character. -/
def digitValue (c : Char) : Nat :=
  if isDigit c then c.toNat - 48
  else if 97 ≤ c.toNat && c.toNat ≤ 122 then c.toNat - 87
  else if 65 ≤ c.toNat && c.toNat ≤ 90 then c.toNat - 55
  else 36

/-- Whether the character is a digit of the given radix. -/
def isRadixDigit (radix : Nat) (c : Char) : Bool := digitValue c < radix

/-- The integer that a run of digits denotes in the given radix. -/
def digitsValue (radix : Nat) (ds : Str) : Nat :=
  ds.foldl (fun acc c => acc * radix + digitValue c) 0

/-- The decimal digits of a natural number. -/
def natDigits (n : Nat) : Str := Nat.toDigits 10 n

/-- An optional sign at the start of a text: whether it is `-`, and the text
after the sign. -/
def readSign (s : Str) : Bool × Str :=
  match s with
  | '-' :: t => (true, t)
  | '+' :: t => (false, t)
  | _ => (false, s)

/-- The global function `parseInt` with one argument.  The argument is first
converted to a string (`undefined`, the value of a missing property, becomes
the text "undefined"); leading white space, a sign and a `0x` mark are
skipped, the longest run of digits is read, and an empty run gives NaN. -/
def parseInt (input : Option Str) : JSNum :=
  let s := (input.getD "undefined".toList).dropWhile isWhiteSpace
  let sign := readSign s
  let radix : Nat × Str :=
    match sign.2 with
    | '0' :: 'x' :: t => (16, t)
    | '0' :: 'X' :: t => (16, t)
    | _ => (10, sign.2)
  let z := radix.2.takeWhile (isRadixDigit radix.1)
  if z = [] then nan
  else ofRat sign.1 (if sign.1 then -(digitsValue radix.1 z : ℚ) else (digitsValue radix.1 z : ℚ))

/-- The exponent part `e±ddd` at the start of `s`, if there is one: its value
and the rest of the text. -/
def exponentPart (s : Str) : Int × Str :=
  match s with
  | [] => (0, [])
  | c :: r =>
    if c = 'e' ∨ c = 'E' then
      let sign : Int × Str :=
        match r with
        | '+' :: t => (1, t)
        | '-' :: t => (-1, t)
        | _ => (1, r)
      let ds := sign.2.takeWhile isDigit
      if ds = [] then (0, s) else (sign.1 * (digitsValue 10 ds : Int), sign.2.dropWhile isDigit)
    else (0, s)

/-- The longest StrUnsignedDecimalLiteral at the start of `s`: its value
(`none` for `Infinity`) and the rest of the text. -/
def unsignedDecimalLiteral (s : Str) : Option (Option ℚ × Str) :=
  if "Infinity".toList.isPrefixOf s then some (none, s.drop 8)
  else
    let ip := s.takeWhile isDigit
    let r := s.dropWhile isDigit
    let frac : Str × Str :=
      match r with
      | '.' :: t => (t.takeWhile isDigit, t.dropWhile isDigit)
      | _ => ([], r)
    if ip = [] ∧ frac.1 = [] then none
    else
      let ex := exponentPart frac.2
      some (some ((digitsValue 10 (ip ++ frac.1) : ℚ) * pow10 (ex.1 - (frac.1.length : Int))), ex.2)

/-- The longest StrDecimalLiteral at the start of `s`: the number it denotes
and the rest of the text. -/
def strDecimalLiteral (s : Str) : Option (JSNum × Str) :=
  let sign := readSign s
  match unsignedDecimalLiteral sign.2 with
  | none => none
  | some (none, rest) => some (infinity sign.1, rest)
  | some (some q, rest) => some (ofRat sign.1 (if sign.1 then -q else q), rest)

/-- The global function `parseFloat`: the number of the longest decimal literal
after the leading white space, NaN if there is none. -/
def parseFloat (input : Option Str) : JSNum :=
  match strDecimalLiteral ((input.getD "undefined".toList).dropWhile isWhiteSpace) with
  | none => nan
  | some (x, _) => x

/-- A binary, octal or hexadecimal integer literal `0b…`, `0o…`, `0x…` that
makes up the whole text. -/
def nonDecimalLiteral (t : Str) : Option JSNum :=
  match t with
  | '0' :: c :: ds =>
    let radix : Nat :=
      if c = 'x' ∨ c = 'X' then 16
      else if c = 'o' ∨ c = 'O' then 8
      else if c = 'b' ∨ c = 'B' then 2
      else 0
    if radix ≠ 0 ∧ ds ≠ [] ∧ ds.all (isRadixDigit radix) = true then
      some (ofRat false (digitsValue radix ds : ℚ))
    else none
  | _ => none

/-- The call `Number(s)` on a string: white space is trimmed; the empty text
is `+0`; a numeric literal that makes up the whole text gives its number; any
other text gives NaN. -/
def toNumber (s : Str) : JSNum :=
  let t := trim s
  if t = [] then fin 0
  else
    match nonDecimalLiteral t with
    | some x => x
    | none =>
      match strDecimalLiteral t with
      | some (x, []) => x
      | _ => nan

/-- The text of a number `a ≥ 10 ^ 21` (`Number::toString`): the shortest
decimal significand that reads back as `a`, in exponent form. -/
def toStringLarge (a : ℚ) : Str :=
  let big := ⌊a⌋.toNat
  let n := (natDigits big).length
  if ofRat false ((10 ^ n : Nat) : ℚ) = fin a then '1' :: 'e' :: '+' :: natDigits n
  else
    let pick (k : Nat) : Option (Nat × Nat) :=
      let scale := 10 ^ (n - k)
      let lo := big / scale
      let hi := lo + 1
      let okLo : Bool := ofRat false ((lo * scale : Nat) : ℚ) = fin a
      let okHi : Bool := hi < 10 ^ k ∧ ofRat false ((hi * scale : Nat) : ℚ) = fin a
      if okLo && okHi then
        let dLo := a - ((lo * scale : Nat) : ℚ)
        let dHi := ((hi * scale : Nat) : ℚ) - a
        if dLo < dHi then some (k, lo)
        else if dHi < dLo then some (k, hi)
        else if lo % 2 = 0 then some (k, lo) else some (k, hi)
      else if okLo then some (k, lo)
      else if okHi then some (k, hi)
      else none
    match (List.range 21).findSome? (fun i => pick (i + 1)) with
    | none => []
    | some (k, s) =>
      let ds := natDigits s
      (if k = 1 then ds else ds.take 1 ++ '.' :: ds.drop 1) ++ 'e' :: '+' :: natDigits (n - 1)

/-- The digits of `Number.prototype.toFixed` for a magnitude `a ≥ 0`: the
integer `n` nearest to `a * 10 ^ f` (the larger of two equally near) written
with `f` digits after the point. -/
def toFixedMag (f : Nat) (a : ℚ) : Str :=
  if (10 : ℚ) ^ 21 ≤ a then toStringLarge a
  else
    let n := ⌊a * (10 : ℚ) ^ f + 1 / 2⌋.toNat
    let m := natDigits n
    if f = 0 then m
    else
      let m := if m.length ≤ f then List.replicate (f + 1 - m.length) '0' ++ m else m
      m.take (m.length - f) ++ '.' :: m.drop (m.length - f)

/-- The method `Number.prototype.toFixed`. -/
def toFixed (f : Nat) : JSNum → Str
  | nan => "NaN".toList
  | posInf => "Infinity".toList
  | negInf => "-Infinity".toList
  | negZero => toFixedMag f 0
  | fin q => if q < 0 then '-' :: toFixedMag f (-q) else toFixedMag f q

/-! ## Objects used as dictionaries -/

/-- The own properties of an object, in property order. -/
abbrev Obj (α : Type) := List (Str × α)

/-- The number of an array-index key: a canonical decimal numeral below
`2 ^ 32 - 1`. -/
def arrayIndex (k : Str) : Option Nat :=
  if k ≠ [] ∧ k.all isDigit = true ∧ (k.head? ≠ some '0' ∨ k.length = 1) ∧
      digitsValue 10 k < 4294967295 then
    some (digitsValue 10 k)
  else none

namespace Obj

variable {α : Type}

/-- The read `o[k]`: the value of the own property `k`, `none` for
`undefined`. -/
def get : Obj α → Str → Option α
  | [], _ => none
  | (k1, v) :: o, k => if k1 = k then some v else get o k

/-- The new value of an existing property, at the place of the old one. -/
def replace : Obj α → Str → α → Obj α
  | [], _, _ => []
  | (k1, v1) :: o, k, v => if k1 = k then (k, v) :: o else (k1, v1) :: replace o k v

/-- A new array-index property, placed after the smaller indices. -/
def insertIndexed (n : Nat) (k : Str) (v : α) : Obj α → Obj α
  | [] => [(k, v)]
  | (k1, v1) :: o =>
    match arrayIndex k1 with
    | some m => if m < n then (k1, v1) :: insertIndexed n k v o else (k, v) :: (k1, v1) :: o
    | none => (k, v) :: (k1, v1) :: o

/-- The assignment `o[k] = v` of a string or a number to an object created
by `{}`. -/
def set (o : Obj α) (k : Str) (v : α) : Obj α :=
  if k = "__proto__".toList then o
  else if (get o k).isSome then replace o k v
  else
    match arrayIndex k with
    | some n => insertIndexed n k v o
    | none => o ++ [(k, v)]

/-- The own property keys, in property order. -/
def keys (o : Obj α) : List Str := o.map Prod.fst

end Obj

/-! ## The reader -/

/-- The fields of an `ArduinoReader` that the telemetry pipeline uses. -/
structure State where
  /-- The latest-state mapping `this.latestData`. -/
  latestData : Obj Str
  /-- The voltage history window `this.lastBatteryVoltage`, in mV. -/
  lastBatteryVoltage : List JSNum

/-- The state that the constructor sets up. -/
def State.init : State := { latestData := [], lastBatteryVoltage := [] }

/-- The field `this.emptyVoltage`, in mV. -/
def emptyVoltage : JSNum := fin 9600

/-- The field `this.fullVoltage`, in mV. -/
def fullVoltage : JSNum := fin 12000

/-- The literal `0.1` of `calculateBatteryPercentage`. -/
def internalResistance : JSNum := ofRat false (1 / 10)

/-- The private method `#averageBatteryVoltage`. -/
def averageBatteryVoltage (lastBatteryVoltage : List JSNum) : Str :=
  let sum := lastBatteryVoltage.foldl add (fin 0)
  toFixed 0 (div sum (fin lastBatteryVoltage.length)) ++ "mV".toList

/-- The private method `#keepArrayLength`: one `shift()` when the window is
longer than `length`. -/
def keepArrayLength (length : Nat) (lastBatteryVoltage : List JSNum) : List JSNum :=
  if lastBatteryVoltage.length > length then lastBatteryVoltage.tail else lastBatteryVoltage

/-- The sample that the sampling tick reads from a `Battery voltage` value. -/
def sampleOf (v : Str) : JSNum := toNumber (trim (removeFirst "mV".toList v))

/-- The callback of the `setInterval` in the constructor: the sampling tick. -/
def tick (s : State) : State :=
  let pushed :=
    match Obj.get s.latestData "Battery voltage".toList with
    | some v => s.lastBatteryVoltage ++ [sampleOf v]
    | none => s.lastBatteryVoltage
  let kept := keepArrayLength 60 pushed
  { latestData :=
      Obj.set s.latestData "Battery voltage average".toList (averageBatteryVoltage kept)
    lastBatteryVoltage := kept }

/-- The percentage before clamping, from the two parsed readings. -/
def rawPercentage (batteryVoltage dischargeCurrent : JSNum) : JSNum :=
  let voltageSag := mul internalResistance dischargeCurrent
  let adjustedVoltage := sub batteryVoltage voltageSag
  mul (div (sub adjustedVoltage emptyVoltage) (sub fullVoltage emptyVoltage)) (fin 100)

/-- The method `calculateBatteryPercentage`. -/
def calculateBatteryPercentage (s : State) : State :=
  let batteryVoltage := parseInt (Obj.get s.latestData "Battery voltage".toList)
  let dischargeCurrent := parseInt (Obj.get s.latestData "Battery discharge current".toList)
  let percentage := rawPercentage batteryVoltage dischargeCurrent
  let percentage := JSNum.max (fin 0) (JSNum.min (fin 100) percentage)
  { s with latestData := Obj.set s.latestData "iRemaining_real".toList (toFixed 2 percentage) }

/-- The body of the `forEach` in `parseData`: one line applied to the
mapping. -/
def parseLine (latestData : Obj Str) (line : Str) : Obj Str :=
  if (trim line).length > 0 then
    match split '=' line with
    | [key, value] => Obj.set latestData (trim key) (trim value)
    | _ => latestData
  else latestData

/-- The method `parseData`. -/
def parseData (s : State) (dataString : Str) : State :=
  calculateBatteryPercentage
    { s with latestData := (split '\n' dataString).foldl parseLine s.latestData }

/-! ## The snapshot normalizer -/

/-- A value of the snapshot: a number or a string. -/
inductive JSVal where
  | num (x : JSNum) : JSVal
  | str (s : Str) : JSVal
  deriving DecidableEq

/-- The exception that a property read on `null` raises. -/
inductive JSError where
  | typeError : JSError
  deriving DecidableEq

deriving instance DecidableEq for Except

/-- A match of `/(-?\d+\.?\d*)\s*([a-zA-Z]*)/` that takes the digits at the
start of `t`, after the sign `sign` already read: the matched text and the two
groups. -/
def matchDigits (sign t : Str) : Option (List Str) :=
  let ds := t.takeWhile isDigit
  if ds = [] then none
  else
    let r := t.dropWhile isDigit
    let dot : Str × Str :=
      match r with
      | '.' :: r1 => (['.'], r1)
      | _ => ([], r)
    let fs := dot.2.takeWhile isDigit
    let r2 := dot.2.dropWhile isDigit
    let ws := r2.takeWhile isWhiteSpace
    let unit := (r2.dropWhile isWhiteSpace).takeWhile isAsciiLetter
    let g1 := sign ++ ds ++ dot.1 ++ fs
    some [g1 ++ ws ++ unit, g1, unit]

/-- A match of the pattern at the start of `s`: the optional `-` is tried
first, then the match without it. -/
def matchHere (s : Str) : Option (List Str) :=
  match s with
  | '-' :: t =>
    match matchDigits ['-'] t with
    | some m => some m
    | none => matchDigits [] s
  | _ => matchDigits [] s

/-- The call `value.match(/(-?\d+\.?\d*)\s*([a-zA-Z]*)/)`: the leftmost match,
`none` for `null`. -/
def regexMatch : Str → Option (List Str)
  | [] => matchHere []
  | c :: cs =>
    match matchHere (c :: cs) with
    | some m => some m
    | none => regexMatch cs

/-- The read `matches.length`, which raises on `null`. -/
def lengthOf (m : Option (List Str)) : Except JSError Nat :=
  match m with
  | none => throw JSError.typeError
  | some l => pure l.length

/-- The read `matches[i]`, which raises on `null` and is `undefined` (`none`)
past the end. -/
def elementOf (m : Option (List Str)) (i : Nat) : Except JSError (Option Str) :=
  match m with
  | none => throw JSError.typeError
  | some l => pure (l.get? i)

/-- The body of the loop of `convertDataUnits`: the output key and value of one
property. -/
def convertEntry (uni : Str → Str) (key value : Str) : Except JSError (Str × JSVal) := do
  let formattedKey := replaceSpaceRuns (toLowerCase uni key)
  let matched := regexMatch value
  let test ← (if matched.isSome then (fun n => decide (n = 3)) <$> lengthOf matched else pure false)
  if test then
    let numValue := parseFloat (← elementOf matched 1)
    let unit ← elementOf matched 2
    let newKey :=
      match unit with
      | some (c :: u) => formattedKey ++ '_' :: toLowerCase uni (c :: u)
      | _ => formattedKey
    pure (newKey, JSVal.num numValue)
  else
    pure (formattedKey, JSVal.str value)

/-- The method `convertDataUnits`: the loop over the properties of
`this.latestData` in property order. -/
def convertDataUnits (uni : Str → Str) (s : State) : Except JSError (Obj JSVal) :=
  s.latestData.foldlM
    (fun convertedData e => do
      let r ← convertEntry uni e.1 e.2
      pure (Obj.set convertedData r.1 r.2))
    []

/-! ## Notions used in the statements -/

/-- The text that `calculateBatteryPercentage` stores for a mapping. -/
def storedPercentage (latestData : Obj Str) : Str :=
  toFixed 2
    (JSNum.max (fin 0)
      (JSNum.min (fin 100)
        (rawPercentage (parseInt (Obj.get latestData "Battery voltage".toList))
          (parseInt (Obj.get latestData "Battery discharge current".toList)))))

/-- The percentage formula `(V - 0.1 * I - 9600) / (12000 - 9600) * 100` in exact
rational arithmetic, to compare with `rawPercentage`, which rounds every
operation to binary64. -/
def exactPercentage (V I : Int) : ℚ :=
  ((V : ℚ) - 1 / 10 * (I : ℚ) - 9600) / (12000 - 9600) * 100

/-- Two mappings with the same keys and the same value at every key. -/
def SameEntries (a b : Obj Str) : Prop := ∀ k, Obj.get a k = Obj.get b k

/-- Two mappings that agree at every key other than `iRemaining_real`. -/
def AgreeOffPercentage (a b : Obj Str) : Prop :=
  ∀ k, k ≠ "iRemaining_real".toList → Obj.get a k = Obj.get b k

/-- The lines of a chunk that `parseData` discards: each line that is not
blank has no `=` or at least two. -/
def OnlyMalformedLines (chunk : Str) : Prop :=
  ∀ line ∈ split '\n' chunk, trim line ≠ [] → line.count '=' = 0 ∨ 2 ≤ line.count '='

instance (chunk : Str) : Decidable (OnlyMalformedLines chunk) := by
  unfold OnlyMalformedLines
  infer_instance

/-- The key under which `convertDataUnits` stores one property: the formatted
key, followed by `_` and the lower-case unit when the match has a unit. -/
def outputKey (uni : Str → Str) (key value : Str) : Str :=
  match regexMatch value with
  | some [_, _, c :: u] => replaceSpaceRuns (toLowerCase uni key) ++ '_' :: toLowerCase uni (c :: u)
  | _ => replaceSpaceRuns (toLowerCase uni key)

/-- The value that `convertDataUnits` stores for one property: the number of
the first group when the pattern matches, the untouched string otherwise. -/
def outputValue (value : Str) : JSVal :=
  match regexMatch value with
  | some [_, g1, _] => JSVal.num (parseFloat (some g1))
  | _ => JSVal.str value

/-- The snapshot as a fold without exceptions: every property assigned in
property order. -/
def snapshot (uni : Str → Str) (latestData : Obj Str) : Obj JSVal :=
  latestData.foldl (fun acc e => Obj.set acc (outputKey uni e.1 e.2) (outputValue e.2)) []

/-- A value that is, as a whole string, an optional `-`, one or more digits, an
optional decimal fraction (`.` and digits), optional white space and a
non-empty alphabetic unit. -/
structure NumberWithUnit (value sign ds frac ws unit : Str) : Prop where
  value_eq : value = sign ++ (ds ++ (frac ++ (ws ++ unit)))
  sign_ok : sign = [] ∨ sign = ['-']
  ds_ne : ds ≠ []
  ds_ok : ∀ c ∈ ds, isDigit c = true
  frac_ok : frac = [] ∨ (frac.take 1 = ['.'] ∧ ∀ c ∈ frac.drop 1, isDigit c = true)
  ws_ok : ∀ c ∈ ws, isWhiteSpace c = true
  unit_ne : unit ≠ []
  unit_ok : ∀ c ∈ unit, isAsciiLetter c = true

/-- The rational that a numeral `sign ds frac` denotes: the digits of `ds` and
of the fraction read in base ten, scaled by the length of the fraction. -/
def numeralValue (sign ds frac : Str) : ℚ :=
  (if sign = ['-'] then -1 else 1) *
    ((digitsValue 10 (ds ++ frac.drop 1) : ℚ) / (10 : ℚ) ^ (frac.drop 1).length)

/-- The JavaScript number that a numeral `sign ds frac` denotes: the binary64
value nearest to its rational, `-0` for a negative zero. -/
def numeralNumber (sign ds frac : Str) : JSNum :=
  ofRat (decide (sign = ['-'])) (numeralValue sign ds frac)

/-- The numeral of `n` hundredths with exactly two decimal places: the digits
of `n / 100`, a point, and the two digits of `n % 100`. -/
def twoDecimals (n : Nat) : Str :=
  natDigits (n / 100) ++ ['.', Nat.digitChar (n / 10 % 10), Nat.digitChar (n % 10)]

/-- A number that is a finite integer: the reading `z`, or `-0` for zero. -/
def IsInteger (x : JSNum) (z : Int) : Prop :=
  x = fin (z : ℚ) ∨ (x = negZero ∧ z = 0)

/-- What happens to a reader: a chunk arrives, or the one-second timer
fires. -/
inductive Event where
  | chunk (dataString : Str) : Event
  | tick : Event
  deriving DecidableEq

/-- The effect of one event on the reader. -/
def step (s : State) : Event → State
  | Event.chunk dataString => parseData s dataString
  | Event.tick => tick s

/-- The effect of a sequence of events, in order. -/
def run (s : State) (events : List Event) : State := events.foldl step s

/-- The samples that the ticks of a run append to the window, in arrival
order: one for each tick that finds a `Battery voltage` reading. -/
def appended (s : State) : List Event → List JSNum
  | [] => []
  | Event.chunk dataString :: events => appended (parseData s dataString) events
  | Event.tick :: events =>
    (match Obj.get s.latestData "Battery voltage".toList with
      | some v => [sampleOf v]
      | none => []) ++ appended (tick s) events

/-- Every tick of the run finds a `Battery voltage` reading, so it appends one
sample. -/
def EveryTickAppends (s : State) : List Event → Prop
  | [] => True
  | Event.chunk dataString :: events => EveryTickAppends (parseData s dataString) events
  | Event.tick :: events =>
    Obj.get s.latestData "Battery voltage".toList ≠ none ∧ EveryTickAppends (tick s) events

/-- The number of ticks of a run. -/
def tickCount (events : List Event) : Nat := events.count Event.tick

/-- Whether every tick of a run appends a sample can be computed. -/
def decEveryTickAppends : (s : State) → (events : List Event) →
    Decidable (EveryTickAppends s events)
  | _, [] => isTrue trivial
  | s, Event.chunk dataString :: events => decEveryTickAppends (parseData s dataString) events
  | s, Event.tick :: events =>
    @instDecidableAnd _ _ inferInstance (decEveryTickAppends (tick s) events)

instance (s : State) (events : List Event) : Decidable (EveryTickAppends s events) :=
  decEveryTickAppends s events

/-- A reader with the reading `11800mV` and the empty window. -/
def readerWithReading : State :=
  { latestData := [("Battery voltage".toList, "11800mV".toList)], lastBatteryVoltage := [] }

/-- A reader with the reading `12000mV` and the window 11800, 11900. -/
def readerWithWindow : State :=
  { latestData := [("Battery voltage".toList, "12000mV".toList)],
    lastBatteryVoltage := [fin 11800, fin 11900] }

/-- The key and the value that a line with exactly one `=` assigns, both
trimmed; `none` for any other line. -/
def lineEntry (line : Str) : Option (Str × Str) :=
  match split '=' line with
  | [key, value] => some (trim key, trim value)
  | _ => none

/-- The trimmed value of the last line, among `lines`, that has exactly one `=`
and whose trimmed key is `k`. -/
def lastValueFor (k : Str) (lines : List Str) : Option Str :=
  (((lines.filterMap lineEntry).filter (fun e => decide (e.1 = k))).getLast?).map Prod.snd

/-- Whether a text starts with an integer: after the leading white space and an
optional sign comes a decimal digit. -/
def startsWithInteger (v : Str) : Bool :=
  match (readSign (v.dropWhile isWhiteSpace)).2 with
  | c :: _ => isDigit c
  | [] => false

/-- The field `k` of a mapping is missing or does not start with an integer. -/
def LacksInteger (d : Obj Str) (k : Str) : Prop :=
  match Obj.get d k with
  | none => True
  | some v => startsWithInteger v = false

instance (d : Obj Str) (k : Str) : Decidable (LacksInteger d k) := by
  unfold LacksInteger
  split <;> infer_instance

/-- The first numeral of a text `value`: the text `pre` before it holds no
digit; `sign` is the `-` immediately before the first run of digits `ds`, if
there is one; `frac` is the fraction that follows the digits (a point and the
digits after it); `ws` is the white space after the numeral; `unit` is the run
of letters after the white space, and `rest` is what follows. -/
structure FirstNumeral (value pre sign ds frac ws unit rest : Str) : Prop where
  value_eq : value = pre ++ (sign ++ (ds ++ (frac ++ (ws ++ (unit ++ rest)))))
  pre_ok : ∀ c ∈ pre, isDigit c = false
  sign_ok : sign = ['-'] ∨ (sign = [] ∧ pre.getLast? ≠ some '-')
  ds_ne : ds ≠ []
  ds_ok : ∀ c ∈ ds, isDigit c = true
  frac_ok : (frac = [] ∧ ∀ c ∈ (ws ++ (unit ++ rest)).take 1, c ≠ '.') ∨
    (frac.take 1 = ['.'] ∧ ∀ c ∈ frac.drop 1, isDigit c = true)
  frac_max : ∀ c ∈ (ws ++ (unit ++ rest)).take 1, isDigit c = false
  ws_ok : ∀ c ∈ ws, isWhiteSpace c = true
  ws_max : ∀ c ∈ (unit ++ rest).take 1, isWhiteSpace c = false
  unit_ok : ∀ c ∈ unit, isAsciiLetter c = true
  unit_max : ∀ c ∈ rest.take 1, isAsciiLetter c = false

/-! ## The snapshot normalizer in a store of objects -/

/-- A store of objects.  A reference is a position in the store: the object
that `{}` creates gets the next free position. -/
abbrev Store := List (Obj JSVal)

namespace Store

/-- The expression `{}`: the reference of a new empty object, and the store
with that object. -/
def create (σ : Store) : Nat × Store := (σ.length, σ ++ [[]])

/-- The object behind a reference. -/
def object (σ : Store) (r : Nat) : Obj JSVal := σ.getD r []

/-- The assignment `o[k] = v` through the reference `r` of `o`. -/
def assign (σ : Store) (r : Nat) (k : Str) (v : JSVal) : Store :=
  σ.set r (Obj.set (object σ r) k v)

end Store

/-- A reader in a store: `this.latestData` is a reference to an object of the
store, `this.lastBatteryVoltage` holds the samples. -/
structure Reader where
  /-- The objects created so far. -/
  store : Store
  /-- The reference that `this.latestData` holds. -/
  latestData : Nat
  /-- The samples of the window. -/
  lastBatteryVoltage : List JSNum
  deriving DecidableEq

/-- The reader of a state, in a store that holds its mapping alone. -/
def Reader.ofState (s : State) : Reader :=
  { store := [s.latestData.map (fun e => (e.1, JSVal.str e.2))]
    latestData := 0
    lastBatteryVoltage := s.lastBatteryVoltage }

/-- One turn of the loop of `convertDataUnits` in a store: the value of `key`
is read from `this.latestData`, and the output is assigned to the object
`convertedData`.  The call `value.match` raises when the value is not a
string. -/
def convertStep (uni : Str → Str) (latestData convertedData : Nat) (σ : Store) (key : Str) :
    Except JSError Store :=
  match Obj.get (σ.object latestData) key with
  | some (JSVal.str value) => do
    let r ← convertEntry uni key value
    pure (σ.assign convertedData r.1 r.2)
  | _ => throw JSError.typeError

/-- The method `convertDataUnits` on a reader in a store: `convertedData` is a
new object, the loop visits the keys of `this.latestData` in property order,
and the method returns the reference `convertedData`. -/
def convertDataUnitsIn (uni : Str → Str) (m : Reader) : Except JSError (Nat × Reader) := do
  let created := m.store.create
  let σ ← (Obj.keys (created.2.object m.latestData)).foldlM
    (convertStep uni m.latestData created.1) created.2
  pure (created.1, { m with store := σ })

/-- Whether a value is a string. -/
def JSVal.isStr : JSVal → Bool
  | JSVal.str _ => true
  | JSVal.num _ => false

/-- The reference `this.latestData` is an object of the store, and every value
of that object is a string. -/
def HoldsStrings (m : Reader) : Prop :=
  m.latestData < m.store.length ∧ ∀ e ∈ m.store.object m.latestData, e.2.isStr = true

instance (m : Reader) : Decidable (HoldsStrings m) := by
  unfold HoldsStrings
  infer_instance

/-! ## Notions used for the order of the numbers -/

/-- The binary64 rounding of a magnitude `a > 0` before the overflow test of
`roundMag`: the nearest multiple of the unit of the binade of `a`. -/
def roundCore (a : ℚ) : ℚ :=
  (roundHalfEven (a / pow2 (max (floorLog2 a) (-1022) - 52)) : ℚ) *
    pow2 (max (floorLog2 a) (-1022) - 52)

/-- The value of a number on the rational line, an infinity placed at
`2 ^ 1024`, beyond every binary64 value (`0` for NaN). -/
def clip : JSNum → ℚ
  | posInf => pow2 1024
  | negInf => -pow2 1024
  | x => x.toRat

/-- A number other than NaN whose magnitude, when it is finite, is below
`2 ^ 1024`: what the arithmetic operations return. -/
def InRange (x : JSNum) : Prop :=
  x ≠ nan ∧ |x.toRat| < pow2 1024

/-- A reader with the two readings `v` and `i` and the empty window. -/
def readerWithReadings (v i : Str) : State :=
  { latestData := [("Battery voltage".toList, v), ("Battery discharge current".toList, i)],
    lastBatteryVoltage := [] }

/-! ## The text of a number and the rendering of a snapshot -/

/-- The decimal logarithm of `n` rounded down (`0` for `n = 0`), by dividing by
ten at most `fuel` times. -/
def log10Aux : Nat → Nat → Nat
  | 0, _ => 0
  | fuel + 1, n => if n < 10 then 0 else log10Aux fuel (n / 10) + 1

/-- The decimal logarithm of `n` rounded down (`0` for `n = 0`). -/
def log10 (n : Nat) : Nat := log10Aux n n

/-- The decimal exponent `n` of `a > 0`: `10 ^ (n - 1) ≤ a < 10 ^ n`. -/
def decimalExponent (a : ℚ) : Int :=
  let e0 : Int := (log10 a.num.natAbs : Int) - (log10 a.den : Int)
  if pow10 e0 ≤ a then e0 + 1 else e0

/-- A significand `s` of `k` digits with `s * 10 ^ (n - k)` reading back as `a`,
if there is one: the multiple of `10 ^ (n - k)` just below `a` or the one just
above, the nearer one when both read back as `a`. -/
def pickDigits (a : ℚ) (n : Int) (k : Nat) : Option Nat :=
  let scale := pow10 (n - k)
  let lo := ⌊a / scale⌋.toNat
  let hi := lo + 1
  let okLo : Bool := ofRat false ((lo : ℚ) * scale) = fin a
  let okHi : Bool := hi < 10 ^ k ∧ ofRat false ((hi : ℚ) * scale) = fin a
  if okLo && okHi then
    let dLo := a - (lo : ℚ) * scale
    let dHi := (hi : ℚ) * scale - a
    if dLo < dHi then some lo
    else if dHi < dLo then some hi
    else if lo % 2 = 0 then some lo else some hi
  else if okLo then some lo
  else if okHi then some hi
  else none

/-- The least number of digits `k`, from `k` on and among `fuel` values, with a
significand that reads back as `a`, and that significand. -/
def searchDigits (a : ℚ) (n : Int) : Nat → Nat → Option (Nat × Nat)
  | 0, _ => none
  | fuel + 1, k =>
    match pickDigits a n k with
    | some s => some (k, s)
    | none => searchDigits a n fuel (k + 1)

/-- The integers `k`, `s`, `n` of `Number::toString` for `a > 0`: `s` has `k`
digits, `s * 10 ^ (n - k)` reads back as `a`, and `k` is as small as possible.
When the power of ten just above `a` reads back as `a`, the digits are `1` with
the next exponent.  The search for `k` ends at the latest at the length of the
exact decimal expansion of `a`, which is below the bound for every binary64
value. -/
def shortestDigits (a : ℚ) : Option (Nat × Nat × Int) :=
  let n := decimalExponent a
  if ofRat false (pow10 n) = fin a then some (1, 1, n + 1)
  else (searchDigits a n 1100 1).map (fun r => (r.1, r.2, n))

/-- The text of a magnitude `a > 0` (`Number::toString`): plain decimal
notation when the decimal exponent `n` has `-6 < n ≤ 21`, exponent notation
otherwise. -/
def toStringMag (a : ℚ) : Str :=
  match shortestDigits a with
  | none => []
  | some (k, s, n) =>
    let ds := natDigits s
    if (k : Int) ≤ n ∧ n ≤ 21 then ds ++ List.replicate (n - k).toNat '0'
    else if 0 < n ∧ n ≤ 21 then ds.take n.toNat ++ '.' :: ds.drop n.toNat
    else if -6 < n ∧ n ≤ 0 then '0' :: '.' :: (List.replicate (-n).toNat '0' ++ ds)
    else
      let es := (if n - 1 < 0 then '-' else '+') :: natDigits (n - 1).natAbs
      if k = 1 then ds ++ 'e' :: es else ds.take 1 ++ '.' :: (ds.drop 1 ++ 'e' :: es)

/-- The conversion of a number to a string (`Number::toString`, radix 10). -/
def numberToString : JSNum → Str
  | nan => "NaN".toList
  | posInf => "Infinity".toList
  | negInf => "-Infinity".toList
  | negZero => "0".toList
  | fin q =>
    if q = 0 then "0".toList
    else if q < 0 then '-' :: toStringMag (-q)
    else toStringMag q

/-- The equality of numbers (`==`): `+0` and `-0` are equal, NaN equals
nothing. -/
def numEq (x y : JSNum) : Bool :=
  decide (x ≠ nan) && decide (y ≠ nan) && (decide (x = y) || (x.isZero && y.isZero))

/-- A number that `Number::toString` writes in plain decimal notation with
digits alone: a zero, or a finite number of magnitude at least `10 ^ (-6)` and
below `10 ^ 21`. -/
def InPlainRange (x : JSNum) : Prop :=
  x.isFinite = true ∧
    (x.toRat = 0 ∨ (1 / (10 : ℚ) ^ (6 : Nat) ≤ |x.toRat| ∧ |x.toRat| < (10 : ℚ) ^ (21 : Nat)))

instance (x : JSNum) : Decidable (InPlainRange x) := by
  unfold InPlainRange
  infer_instance

/-- Whether a text is a plain number without a unit: an optional `-`, one or
more digits, and an optional fraction (a point and digits), as a whole. -/
def isPlainNumber (v : Str) : Bool :=
  let t := match v with
    | '-' :: t => t
    | _ => v
  let r := t.dropWhile isDigit
  !(t.takeWhile isDigit).isEmpty &&
    (r.isEmpty || (r.take 1 == ['.'] && (r.drop 1).all isDigit))

/-- A key that is already normalized: lower case, and no white space. -/
def IsNormalizedKey (uni : Str → Str) (k : Str) : Prop :=
  toLowerCase uni k = k ∧ ∀ c ∈ k, isWhiteSpace c = false

instance (uni : Str → Str) (k : Str) : Decidable (IsNormalizedKey uni k) := by
  unfold IsNormalizedKey
  infer_instance

/-- The string rendering of a value: the text of a number (`String(x)`), the
string itself. -/
def renderValue : JSVal → Str
  | JSVal.num x => numberToString x
  | JSVal.str t => t

/-- The string rendering of a snapshot: the same keys, every value rendered. -/
def render (o : Obj JSVal) : Obj Str := o.map (fun e => (e.1, renderValue e.2))

/-- A plain numeral: an optional `-`, digits and an optional fraction. -/
def PlainNumeral (v sign ds frac : Str) : Prop :=
  v = sign ++ (ds ++ frac) ∧ (sign = [] ∨ sign = ['-']) ∧ ds ≠ [] ∧
    (∀ c ∈ ds, isDigit c = true) ∧
    (frac = [] ∨ (frac.take 1 = ['.'] ∧ ∀ c ∈ frac.drop 1, isDigit c = true))

/-- Two snapshots with the same keys and numerically equal numbers. -/
def SameNumbers (a b : Obj JSVal) : Prop :=
  ∀ k, match Obj.get a k, Obj.get b k with
    | some (JSVal.num x), some (JSVal.num y) => numEq x y = true
    | none, none => True
    | _, _ => False

/-- A reader with one entry and the empty window. -/
def readerWithEntry (k v : Str) : State := { latestData := [(k, v)], lastBatteryVoltage := [] }

/-- A reader whose keys are normalized and whose values are plain numbers. -/
def readerWithNumbers : State :=
  { latestData := [("battery_voltage".toList, "11800".toList), ("temp".toList, "-23.5".toList)],
    lastBatteryVoltage := [] }

/-! ## Facts about dictionaries -/

namespace Obj

variable {α : Type}

theorem get_replace (o : Obj α) (k k1 : Str) (v : α) (h : (get o k).isSome = true) :
    get (replace o k v) k1 = if k = k1 then some v else get o k1 := by
  induction o with
  | nil => simp [get] at h
  | cons e o ih =>
    obtain ⟨k0, v0⟩ := e
    by_cases h0 : k0 = k
    · subst h0
      by_cases h3 : k0 = k1 <;> simp [replace, get, h3]
    · have h2 : (get o k).isSome = true := by simpa [get, h0] using h
      simp only [replace, get, h0, if_false, ih h2]
      by_cases h3 : k0 = k1
      · subst h3
        simp [Ne.symm h0]
      · simp [h3]

theorem get_insertIndexed (n : Nat) (o : Obj α) (k k1 : Str) (v : α) (h : get o k = none) :
    get (insertIndexed n k v o) k1 = if k = k1 then some v else get o k1 := by
  induction o with
  | nil => simp [insertIndexed, get]
  | cons e o ih =>
    obtain ⟨k0, v0⟩ := e
    have h0 : k0 ≠ k := by
      intro hk
      simp [get, hk] at h
    have h2 : get o k = none := by simpa [get, h0] using h
    simp only [insertIndexed]
    cases arrayIndex k0 with
    | none => simp [get]
    | some m =>
      by_cases hm : m < n
      · simp only [hm, if_true, get, ih h2]
        by_cases h3 : k0 = k1
        · subst h3
          simp [Ne.symm h0]
        · simp [h3]
      · simp [hm, get]

theorem get_append_new (o : Obj α) (k k1 : Str) (v : α) (h : get o k = none) :
    get (o ++ [(k, v)]) k1 = if k = k1 then some v else get o k1 := by
  induction o with
  | nil => simp [get]
  | cons e o ih =>
    obtain ⟨k0, v0⟩ := e
    have h0 : k0 ≠ k := by
      intro hk
      simp [get, hk] at h
    have h2 : get o k = none := by simpa [get, h0] using h
    rw [List.cons_append]
    simp only [get, ih h2]
    by_cases h3 : k0 = k1
    · subst h3
      simp [Ne.symm h0]
    · simp [h3]

/-- Reading after an assignment: the assigned key reads the new value, unless
it is `__proto__`; every other key reads what it read before. -/
theorem get_set (o : Obj α) (k k1 : Str) (v : α) :
    get (set o k v) k1 =
      if k = k1 ∧ k ≠ "__proto__".toList then some v else get o k1 := by
  unfold set
  by_cases hp : k = "__proto__".toList
  · simp [hp]
  · simp only [hp, if_false, ne_eq, not_false_eq_true, and_true]
    by_cases hs : (get o k).isSome = true
    · simp only [hs, if_true]
      exact get_replace o k k1 v hs
    · have hn : get o k = none := by
        cases hg : get o k with
        | none => rfl
        | some x => simp [hg] at hs
      simp only [hs]
      cases arrayIndex k with
      | none => exact get_append_new o k k1 v hn
      | some n => exact get_insertIndexed n o k k1 v hn

theorem get_set_of_ne (o : Obj α) (k k1 : Str) (v : α) (h : k ≠ k1) :
    get (set o k v) k1 = get o k1 := by
  rw [get_set]
  simp [h]

end Obj

/-! ## Facts about `split` -/

theorem split_ne_nil (sep : Char) (s : Str) : split sep s ≠ [] := by
  cases s with
  | nil => simp [split]
  | cons c cs =>
    simp only [split]
    split_ifs
    · simp
    · cases split sep cs <;> simp

theorem split_length (sep : Char) (s : Str) : (split sep s).length = s.count sep + 1 := by
  induction s with
  | nil => simp [split]
  | cons c cs ih =>
    simp only [split]
    by_cases h : c = sep
    · subst h
      simp [ih]
    · have hc : (c :: cs).count sep = cs.count sep := by
        simp [List.count_cons, h]
      rw [if_neg h, hc, ← ih]
      cases hs : split sep cs with
      | nil => exact absurd hs (split_ne_nil sep cs)
      | cons p ps => simp

theorem split_append_sep (sep : Char) (a b : Str) :
    split sep (a ++ sep :: b) = split sep a ++ split sep b := by
  induction a with
  | nil => simp [split]
  | cons c cs ih =>
    rw [List.cons_append]
    simp only [split, ih]
    by_cases h : c = sep
    · simp [h]
    · simp only [h, if_false]
      cases hs : split sep cs with
      | nil => exact absurd hs (split_ne_nil sep cs)
      | cons p ps => simp

/-! ## Facts about `parseData` and `calculateBatteryPercentage` -/

theorem parseLine_of_count_ne_one (d : Obj Str) (line : Str) (h : line.count '=' ≠ 1) :
    parseLine d line = d := by
  unfold parseLine
  split_ifs
  · split
    · rename_i key value heq
      have hl := split_length '=' line
      rw [heq] at hl
      simp at hl
      omega
    · rfl
  · rfl

theorem foldl_parseLine_malformed (d : Obj Str) (lines : List Str)
    (h : ∀ line ∈ lines, trim line ≠ [] → line.count '=' = 0 ∨ 2 ≤ line.count '=') :
    lines.foldl parseLine d = d := by
  induction lines generalizing d with
  | nil => rfl
  | cons l ls ih =>
    have hl : parseLine d l = d := by
      by_cases hb : trim l = []
      · simp [parseLine, hb]
      · have := h l (List.mem_cons_self _ _) hb
        exact parseLine_of_count_ne_one d l (by omega)
    rw [List.foldl_cons, hl]
    exact ih d (fun line hm => h line (List.mem_cons_of_mem _ hm))

theorem calculateBatteryPercentage_latestData (s : State) :
    (calculateBatteryPercentage s).latestData =
      Obj.set s.latestData "iRemaining_real".toList (storedPercentage s.latestData) := rfl

theorem get_calculateBatteryPercentage (s : State) (k : Str) :
    Obj.get (calculateBatteryPercentage s).latestData k =
      if k = "iRemaining_real".toList then some (storedPercentage s.latestData)
      else Obj.get s.latestData k := by
  rw [calculateBatteryPercentage_latestData, Obj.get_set]
  have hp : "iRemaining_real".toList ≠ "__proto__".toList := by decide
  by_cases hk : k = "iRemaining_real".toList
  · subst hk
    rw [if_pos ⟨rfl, hp⟩, if_pos rfl]
  · rw [if_neg (fun h => hk h.1.symm), if_neg hk]

theorem parseData_latestData (s : State) (dataString : Str) :
    (parseData s dataString).latestData =
      Obj.set ((split '\n' dataString).foldl parseLine s.latestData) "iRemaining_real".toList
        (storedPercentage ((split '\n' dataString).foldl parseLine s.latestData)) := rfl

theorem parseData_lastBatteryVoltage (s : State) (dataString : Str) :
    (parseData s dataString).lastBatteryVoltage = s.lastBatteryVoltage := rfl

theorem parseLine_agreeOff (a b : Obj Str) (line : Str) (h : AgreeOffPercentage a b) :
    AgreeOffPercentage (parseLine a line) (parseLine b line) := by
  unfold parseLine
  split_ifs
  · split
    · intro k hk
      rw [Obj.get_set, Obj.get_set, h k hk]
    · exact h
  · exact h

theorem foldl_parseLine_agreeOff (lines : List Str) (a b : Obj Str)
    (h : AgreeOffPercentage a b) :
    AgreeOffPercentage (lines.foldl parseLine a) (lines.foldl parseLine b) := by
  induction lines generalizing a b with
  | nil => exact h
  | cons l ls ih => exact ih _ _ (parseLine_agreeOff a b l h)

theorem calculateBatteryPercentage_agreeOff (s : State) :
    AgreeOffPercentage (calculateBatteryPercentage s).latestData s.latestData := by
  intro k hk
  rw [get_calculateBatteryPercentage, if_neg hk]

theorem storedPercentage_congr (a b : Obj Str) (h : AgreeOffPercentage a b) :
    storedPercentage a = storedPercentage b := by
  unfold storedPercentage
  rw [h "Battery voltage".toList (by decide), h "Battery discharge current".toList (by decide)]

theorem calculateBatteryPercentage_sameEntries (s t : State)
    (h : AgreeOffPercentage s.latestData t.latestData) :
    SameEntries (calculateBatteryPercentage s).latestData
      (calculateBatteryPercentage t).latestData := by
  intro k
  rw [get_calculateBatteryPercentage, get_calculateBatteryPercentage,
    storedPercentage_congr _ _ h]
  by_cases hk : k = "iRemaining_real".toList
  · rw [if_pos hk, if_pos hk]
  · rw [if_neg hk, if_neg hk]
    exact h k hk

theorem split_intercalate (l : Str) (ls : List Str) :
    split '\n' (List.intercalate ['\n'] (l :: ls)) =
      split '\n' l ++ (ls.map (split '\n')).flatten := by
  induction ls generalizing l with
  | nil => simp [List.intercalate]
  | cons m ms ih =>
    have h : List.intercalate ['\n'] (l :: m :: ms) =
        l ++ '\n' :: List.intercalate ['\n'] (m :: ms) := by
      simp [List.intercalate, List.intersperse]
    rw [h, split_append_sep, ih m]
    simp

theorem foldl_parseData_agreeOff (lines : List Str) (s : State) :
    AgreeOffPercentage (lines.foldl parseData s).latestData
      ((lines.map (split '\n')).flatten.foldl parseLine s.latestData) := by
  induction lines generalizing s with
  | nil => intro k _; rfl
  | cons l ls ih =>
    rw [List.foldl_cons, List.map_cons, List.flatten_cons, List.foldl_append]
    intro k hk
    rw [ih (parseData s l) k hk]
    exact foldl_parseLine_agreeOff _ _ _ (calculateBatteryPercentage_agreeOff _) k hk

/-- Chunking invariance for any non-empty sequence of chunks: one call on the
chunks joined by newlines and one call per chunk end in the same entries. -/
theorem parseData_join_sameEntries (s : State) (lines : List Str) (hne : lines ≠ []) :
    SameEntries (parseData s (List.intercalate ['\n'] lines)).latestData
      (lines.foldl parseData s).latestData := by
  obtain ⟨front, last, rfl⟩ : ∃ front last, lines = front ++ [last] :=
    ⟨lines.dropLast, lines.getLast hne, (List.dropLast_append_getLast hne).symm⟩
  have hsplit : split '\n' (List.intercalate ['\n'] (front ++ [last])) =
      (front.map (split '\n')).flatten ++ split '\n' last := by
    cases front with
    | nil => simp [List.intercalate]
    | cons f fs =>
      rw [List.cons_append, split_intercalate]
      simp
  rw [List.foldl_append, List.foldl_cons, List.foldl_nil]
  unfold parseData
  rw [hsplit, List.foldl_append]
  apply calculateBatteryPercentage_sameEntries
  apply foldl_parseLine_agreeOff
  intro k hk
  exact (foldl_parseData_agreeOff front s k hk).symm

/-! ## Facts about characters and runs -/

theorem not_isDigit_of_isWhiteSpace (c : Char) (h : isWhiteSpace c = true) :
    isDigit c = false := by
  simp only [isWhiteSpace, Bool.or_eq_true, Bool.and_eq_true, beq_iff_eq, decide_eq_true_eq] at h
  simp only [isDigit, Bool.and_eq_false_imp, decide_eq_true_eq, decide_eq_false_iff_not]
  omega

theorem not_isDigit_of_isAsciiLetter (c : Char) (h : isAsciiLetter c = true) :
    isDigit c = false := by
  simp only [isAsciiLetter, Bool.or_eq_true, Bool.and_eq_true, decide_eq_true_eq] at h
  simp only [isDigit, Bool.and_eq_false_imp, decide_eq_true_eq, decide_eq_false_iff_not]
  omega

theorem not_isWhiteSpace_of_isAsciiLetter (c : Char) (h : isAsciiLetter c = true) :
    isWhiteSpace c = false := by
  simp only [isAsciiLetter, Bool.or_eq_true, Bool.and_eq_true, decide_eq_true_eq] at h
  by_contra hw
  rw [Bool.not_eq_false] at hw
  simp only [isWhiteSpace, Bool.or_eq_true, Bool.and_eq_true, beq_iff_eq, decide_eq_true_eq] at hw
  omega

theorem takeWhile_append_stop (p : Char → Bool) (xs rest : Str)
    (h1 : ∀ c ∈ xs, p c = true) (h2 : ∀ c, rest.head? = some c → p c = false) :
    (xs ++ rest).takeWhile p = xs := by
  induction xs with
  | nil =>
    cases rest with
    | nil => rfl
    | cons c r => simp [List.takeWhile, h2 c rfl]
  | cons x xs ih =>
    rw [List.cons_append, List.takeWhile_cons, h1 x (List.mem_cons_self _ _)]
    simp only [if_true]
    rw [ih (fun c hc => h1 c (List.mem_cons_of_mem _ hc))]

theorem dropWhile_append_stop (p : Char → Bool) (xs rest : Str)
    (h1 : ∀ c ∈ xs, p c = true) (h2 : ∀ c, rest.head? = some c → p c = false) :
    (xs ++ rest).dropWhile p = rest := by
  induction xs with
  | nil =>
    cases rest with
    | nil => rfl
    | cons c r => simp [List.dropWhile, h2 c rfl]
  | cons x xs ih =>
    rw [List.cons_append, List.dropWhile_cons, h1 x (List.mem_cons_self _ _)]
    simp only [if_true]
    rw [ih (fun c hc => h1 c (List.mem_cons_of_mem _ hc))]

theorem takeWhile_all (p : Char → Bool) (xs : Str) (h : ∀ c ∈ xs, p c = true) :
    xs.takeWhile p = xs := by
  have := takeWhile_append_stop p xs [] h (by simp)
  simpa using this

theorem dropWhile_all (p : Char → Bool) (xs : Str) (h : ∀ c ∈ xs, p c = true) :
    xs.dropWhile p = [] := by
  have := dropWhile_append_stop p xs [] h (by simp)
  simpa using this

theorem matchDigits_numberWithUnit (sg ds frac ws unit : Str) (hne : ds ≠ [])
    (hds : ∀ c ∈ ds, isDigit c = true)
    (hfrac : frac = [] ∨ (frac.take 1 = ['.'] ∧ ∀ c ∈ frac.drop 1, isDigit c = true))
    (hws : ∀ c ∈ ws, isWhiteSpace c = true) (hune : unit ≠ [])
    (hunit : ∀ c ∈ unit, isAsciiLetter c = true) :
    matchDigits sg (ds ++ (frac ++ (ws ++ unit))) =
      some [sg ++ (ds ++ (frac ++ (ws ++ unit))), sg ++ (ds ++ frac), unit] := by
  obtain ⟨u, us, rfl⟩ : ∃ u us, unit = u :: us := List.exists_cons_of_ne_nil hune
  have hu : isAsciiLetter u = true := hunit u (List.mem_cons_self _ _)
  -- the text after the white space starts with a letter
  have hstopW : ∀ c, (u :: us).head? = some c → isWhiteSpace c = false := by
    intro c hc
    simp only [List.head?_cons, Option.some.injEq] at hc
    subst hc
    exact not_isWhiteSpace_of_isAsciiLetter _ hu
  -- the text after the fraction starts with no digit
  have hstopD : ∀ c, (ws ++ u :: us).head? = some c → isDigit c = false := by
    intro c hc
    cases ws with
    | nil =>
      simp only [List.nil_append, List.head?_cons, Option.some.injEq] at hc
      subst hc
      exact not_isDigit_of_isAsciiLetter _ hu
    | cons w ws1 =>
      simp only [List.cons_append, List.head?_cons, Option.some.injEq] at hc
      subst hc
      exact not_isDigit_of_isWhiteSpace _ (hws _ (List.mem_cons_self _ _))
  have hW1 := takeWhile_append_stop isWhiteSpace ws (u :: us) hws hstopW
  have hW2 := dropWhile_append_stop isWhiteSpace ws (u :: us) hws hstopW
  have hU := takeWhile_all isAsciiLetter (u :: us) hunit
  rcases hfrac with rfl | ⟨hdot, hfs⟩
  · have hT := takeWhile_append_stop isDigit ds (ws ++ u :: us) hds hstopD
    have hD := dropWhile_append_stop isDigit ds (ws ++ u :: us) hds hstopD
    have hT0 : (ws ++ u :: us).takeWhile isDigit = [] := by
      simpa using takeWhile_append_stop isDigit [] (ws ++ u :: us) (by simp) hstopD
    have hD0 : (ws ++ u :: us).dropWhile isDigit = ws ++ u :: us := by
      simpa using dropWhile_append_stop isDigit [] (ws ++ u :: us) (by simp) hstopD
    have hnodot : ∀ r1, ws ++ u :: us ≠ '.' :: r1 := by
      intro r1 hr
      cases ws with
      | nil =>
        simp only [List.nil_append, List.cons.injEq] at hr
        rw [hr.1] at hu
        exact absurd hu (by decide)
      | cons w ws1 =>
        simp only [List.cons_append, List.cons.injEq] at hr
        have hw := hws w (List.mem_cons_self _ _)
        rw [hr.1] at hw
        exact absurd hw (by decide)
    unfold matchDigits
    simp only [List.nil_append, hT, hD, hne, if_false]
    simp [hT0, hD0, hW1, hW2, hU]
  · obtain ⟨f, fr, rfl⟩ : ∃ f fr, frac = f :: fr := by
      cases frac with
      | nil => simp at hdot
      | cons f fr => exact ⟨f, fr, rfl⟩
    have hf : f = '.' := by simpa using hdot
    subst hf
    simp only [List.drop_succ_cons, List.drop_zero] at hfs
    have hstop1 : ∀ c, ('.' :: fr ++ (ws ++ u :: us)).head? = some c → isDigit c = false := by
      intro c hc
      simp only [List.cons_append, List.head?_cons, Option.some.injEq] at hc
      subst hc
      decide
    have hT := takeWhile_append_stop isDigit ds ('.' :: fr ++ (ws ++ u :: us)) hds hstop1
    have hD := dropWhile_append_stop isDigit ds ('.' :: fr ++ (ws ++ u :: us)) hds hstop1
    have hT2 := takeWhile_append_stop isDigit fr (ws ++ u :: us) hfs hstopD
    have hD2 := dropWhile_append_stop isDigit fr (ws ++ u :: us) hfs hstopD
    unfold matchDigits
    simp only [hT, hD, hne, if_false]
    simp [hT2, hD2, hW1, hW2, hU]

theorem matchDigits_length (sg t : Str) (m : List Str) (h : matchDigits sg t = some m) :
    ∃ w g u, m = [w, g, u] ∧ ∀ c ∈ u, isAsciiLetter c = true := by
  unfold matchDigits at h
  simp only at h
  split_ifs at h
  simp only [Option.some.injEq] at h
  exact ⟨_, _, _, h.symm, fun c hc => List.mem_takeWhile_imp hc⟩

theorem matchHere_length (s : Str) (m : List Str) (h : matchHere s = some m) :
    ∃ w g u, m = [w, g, u] ∧ ∀ c ∈ u, isAsciiLetter c = true := by
  unfold matchHere at h
  split at h
  · split at h
    · rename_i m1 hm
      simp only [Option.some.injEq] at h
      subst h
      exact matchDigits_length _ _ _ hm
    · exact matchDigits_length _ _ _ h
  · exact matchDigits_length _ _ _ h

theorem regexMatch_length (s : Str) (m : List Str) (h : regexMatch s = some m) :
    ∃ w g u, m = [w, g, u] ∧ ∀ c ∈ u, isAsciiLetter c = true := by
  induction s with
  | nil => exact matchHere_length _ _ h
  | cons c cs ih =>
    unfold regexMatch at h
    split at h
    · rename_i m1 hm
      simp only [Option.some.injEq] at h
      subst h
      exact matchHere_length _ _ hm
    · exact ih h

theorem regexMatch_numberWithUnit (value sign ds frac ws unit : Str)
    (h : NumberWithUnit value sign ds frac ws unit) :
    regexMatch value = some [value, sign ++ (ds ++ frac), unit] := by
  obtain ⟨hv, hsign, hne, hds, hfrac, hws, hune, hunit⟩ := h
  have hm := fun sg => matchDigits_numberWithUnit sg ds frac ws unit hne hds hfrac hws hune hunit
  rcases hsign with rfl | rfl
  · obtain ⟨d, ds1, rfl⟩ : ∃ d ds1, ds = d :: ds1 := List.exists_cons_of_ne_nil hne
    have hd : d ≠ '-' := by
      intro hd
      have := hds d (List.mem_cons_self _ _)
      rw [hd] at this
      exact absurd this (by decide)
    have hh : matchHere (d :: ds1 ++ (frac ++ (ws ++ unit))) =
        matchDigits [] (d :: ds1 ++ (frac ++ (ws ++ unit))) := by
      rw [List.cons_append]
      unfold matchHere
      split
      · rename_i t heq
        simp only [List.cons.injEq] at heq
        exact absurd heq.1 hd
      · rfl
    rw [hv, List.nil_append]
    have h2 := hm []
    rw [List.nil_append, List.nil_append] at h2
    rw [← hh] at h2
    rw [List.cons_append] at h2 ⊢
    unfold regexMatch
    rw [h2]
    rfl
  · rw [hv]
    have h2 := hm ['-']
    show regexMatch ('-' :: (ds ++ (frac ++ (ws ++ unit)))) = _
    unfold regexMatch
    unfold matchHere
    simp only [h2]

/-! ## Facts about `convertDataUnits` -/

/-- The loop body raises nothing: it yields the output key and value. -/
theorem convertEntry_eq (uni : Str → Str) (key value : Str) :
    convertEntry uni key value = Except.ok (outputKey uni key value, outputValue value) := by
  unfold convertEntry outputKey outputValue
  cases hm : regexMatch value with
  | none => rfl
  | some m =>
    obtain ⟨w, g, u, rfl, _⟩ := regexMatch_length value m hm
    cases u with
    | nil => rfl
    | cons c u1 => rfl

theorem foldlM_convert (uni : Str → Str) (d : Obj Str) (acc : Obj JSVal) :
    d.foldlM
      (fun convertedData e => do
        let r ← convertEntry uni e.1 e.2
        pure (Obj.set convertedData r.1 r.2))
      acc =
    Except.ok
      (d.foldl (fun acc e => Obj.set acc (outputKey uni e.1 e.2) (outputValue e.2)) acc) := by
  induction d generalizing acc with
  | nil => rfl
  | cons e d ih =>
    rw [List.foldlM_cons, List.foldl_cons, convertEntry_eq]
    exact ih _

/-- The snapshot is the fold of the assignments: `convertDataUnits` returns
normally on every state. -/
theorem convertDataUnits_eq (uni : Str → Str) (s : State) :
    convertDataUnits uni s = Except.ok (snapshot uni s.latestData) :=
  foldlM_convert uni s.latestData []

/-! ## Counting the properties of a dictionary -/

namespace Obj

variable {α : Type}

theorem length_replace (o : Obj α) (k : Str) (v : α) : (replace o k v).length = o.length := by
  induction o with
  | nil => rfl
  | cons e o ih =>
    obtain ⟨k0, v0⟩ := e
    simp only [replace]
    split_ifs
    · rfl
    · simp [ih]

theorem length_insertIndexed (n : Nat) (o : Obj α) (k : Str) (v : α) :
    (insertIndexed n k v o).length = o.length + 1 := by
  induction o with
  | nil => rfl
  | cons e o ih =>
    obtain ⟨k0, v0⟩ := e
    simp only [insertIndexed]
    split
    · split_ifs
      · simp [ih]
      · rfl
    · rfl

theorem length_set_new (o : Obj α) (k : Str) (v : α) (hp : k ≠ "__proto__".toList)
    (hn : get o k = none) : (set o k v).length = o.length + 1 := by
  unfold set
  rw [if_neg hp, hn]
  simp only [Option.isSome_none, Bool.false_eq_true, if_false]
  cases arrayIndex k with
  | none => simp
  | some n => exact length_insertIndexed n o k v

theorem length_set_old (o : Obj α) (k : Str) (v : α)
    (h : k = "__proto__".toList ∨ get o k ≠ none) : (set o k v).length = o.length := by
  unfold set
  by_cases hp : k = "__proto__".toList
  · rw [if_pos hp]
  · rw [if_neg hp]
    have hn : get o k ≠ none := h.resolve_left hp
    cases hg : get o k with
    | none => exact absurd hg hn
    | some x => simp [length_replace]

theorem keys_replace (o : Obj α) (k : Str) (v : α) : keys (replace o k v) = keys o := by
  induction o with
  | nil => rfl
  | cons e o ih =>
    obtain ⟨k0, v0⟩ := e
    simp only [replace]
    split_ifs with h
    · simp [keys, h]
    · simp only [keys, List.map_cons] at ih ⊢
      rw [ih]

theorem keys_insertIndexed (n : Nat) (o : Obj α) (k : Str) (v : α) :
    (keys (insertIndexed n k v o)).Perm (k :: keys o) := by
  induction o with
  | nil => simp [insertIndexed, keys]
  | cons e o ih =>
    obtain ⟨k0, v0⟩ := e
    simp only [insertIndexed]
    split
    · split_ifs
      · simp only [keys, List.map_cons] at ih ⊢
        exact (List.Perm.cons k0 ih).trans (List.Perm.swap k k0 _)
      · simp [keys]
    · simp [keys]

theorem not_mem_keys_iff (o : Obj α) (k : Str) : k ∉ keys o ↔ get o k = none := by
  induction o with
  | nil => simp [keys, get]
  | cons e o ih =>
    obtain ⟨k0, v0⟩ := e
    show k ∉ k0 :: keys o ↔ (if k0 = k then some v0 else get o k) = none
    by_cases h : k0 = k
    · rw [if_pos h]
      constructor
      · intro hn
        exact absurd (h ▸ List.mem_cons_self _ _) hn
      · intro hn
        cases hn
    · rw [if_neg h, List.mem_cons, not_or]
      constructor
      · exact fun hn => ih.1 hn.2
      · exact fun hn => ⟨Ne.symm h, ih.2 hn⟩

theorem nodup_keys_set (o : Obj α) (k : Str) (v : α) (h : (keys o).Nodup) :
    (keys (set o k v)).Nodup := by
  unfold set
  split_ifs with hp hs
  · exact h
  · rw [keys_replace]
    exact h
  · have hn : get o k = none := by
      cases hg : get o k with
      | none => rfl
      | some x => simp [hg] at hs
    have hk : k ∉ keys o := (not_mem_keys_iff o k).2 hn
    cases arrayIndex k with
    | none =>
      simp only [keys, List.map_append, List.map_cons, List.map_nil]
      exact List.Nodup.append h (List.nodup_singleton k) (by
        intro a ha hb
        simp only [List.mem_singleton] at hb
        subst hb
        exact hk ha)
    | some n =>
      exact (keys_insertIndexed n o k v).nodup_iff.2 (List.nodup_cons.2 ⟨hk, h⟩)

end Obj

section Fold

variable {β : Type} (f : Str × Str → Str) (g : Str × Str → β)

theorem foldl_set_get_of_ne (es : List (Str × Str)) (acc : Obj β) (K : Str)
    (h : ∀ e ∈ es, f e ≠ K) :
    Obj.get (es.foldl (fun acc e => Obj.set acc (f e) (g e)) acc) K = Obj.get acc K := by
  induction es generalizing acc with
  | nil => rfl
  | cons e es ih =>
    rw [List.foldl_cons, ih _ (fun e1 h1 => h e1 (List.mem_cons_of_mem _ h1)),
      Obj.get_set_of_ne _ _ _ _ (h e (List.mem_cons_self _ _))]

theorem foldl_set_get_last (front back : List (Str × Str)) (e : Str × Str) (acc : Obj β)
    (hp : f e ≠ "__proto__".toList) (h : ∀ e1 ∈ back, f e1 ≠ f e) :
    Obj.get ((front ++ e :: back).foldl (fun acc e => Obj.set acc (f e) (g e)) acc) (f e) =
      some (g e) := by
  rw [List.foldl_append, List.foldl_cons, foldl_set_get_of_ne f g back _ _ h, Obj.get_set,
    if_pos ⟨rfl, hp⟩]

theorem foldl_set_nodup_keys (es : List (Str × Str)) (acc : Obj β)
    (h : (Obj.keys acc).Nodup) :
    (Obj.keys (es.foldl (fun acc e => Obj.set acc (f e) (g e)) acc)).Nodup := by
  induction es generalizing acc with
  | nil => exact h
  | cons e es ih => exact ih _ (Obj.nodup_keys_set acc _ _ h)

theorem foldl_set_length_le (es : List (Str × Str)) (acc : Obj β) :
    (es.foldl (fun acc e => Obj.set acc (f e) (g e)) acc).length ≤ acc.length + es.length := by
  induction es generalizing acc with
  | nil => simp
  | cons e es ih =>
    rw [List.foldl_cons, List.length_cons]
    have h1 := ih (Obj.set acc (f e) (g e))
    by_cases hc : f e ≠ "__proto__".toList ∧ Obj.get acc (f e) = none
    · have h2 := Obj.length_set_new acc (f e) (g e) hc.1 hc.2
      omega
    · have h2 := Obj.length_set_old acc (f e) (g e) (by
        by_cases hp : f e = "__proto__".toList
        · exact Or.inl hp
        · exact Or.inr (fun hn => hc ⟨hp, hn⟩))
      omega

theorem foldl_set_length_eq_iff (es : List (Str × Str)) (acc : Obj β) :
    (es.foldl (fun acc e => Obj.set acc (f e) (g e)) acc).length = acc.length + es.length ↔
      (es.map f).Nodup ∧ "__proto__".toList ∉ es.map f ∧ ∀ e ∈ es, Obj.get acc (f e) = none := by
  induction es generalizing acc with
  | nil => simp
  | cons e es ih =>
    rw [List.foldl_cons, List.length_cons]
    have h1 := foldl_set_length_le f g es (Obj.set acc (f e) (g e))
    have h3 := ih (Obj.set acc (f e) (g e))
    by_cases hc : f e ≠ "__proto__".toList ∧ Obj.get acc (f e) = none
    · have h2 := Obj.length_set_new acc (f e) (g e) hc.1 hc.2
      have h4 : (es.foldl (fun acc e => Obj.set acc (f e) (g e)) (Obj.set acc (f e) (g e))).length
            = acc.length + (es.length + 1) ↔
          (es.foldl (fun acc e => Obj.set acc (f e) (g e)) (Obj.set acc (f e) (g e))).length
            = (Obj.set acc (f e) (g e)).length + es.length := by
        rw [h2]
        omega
      rw [h4, h3]
      simp only [List.map_cons, List.nodup_cons, List.mem_cons, not_or, List.mem_map,
        not_exists, not_and]
      constructor
      · rintro ⟨hn, hpr, hget⟩
        have hne : ∀ e1 ∈ es, f e1 ≠ f e := by
          intro e1 he1 heq
          have := hget e1 he1
          rw [Obj.get_set, heq, if_pos ⟨rfl, hc.1⟩] at this
          exact absurd this (by simp)
        refine ⟨⟨fun e1 he1 => hne e1 he1, hn⟩, ⟨Ne.symm hc.1, hpr⟩, ?_⟩
        intro e1 he1
        rcases he1 with rfl | he1
        · exact hc.2
        · have := hget e1 he1
          rwa [Obj.get_set_of_ne _ _ _ _ (Ne.symm (hne e1 he1))] at this
      · rintro ⟨⟨hne, hn⟩, ⟨_, hpr⟩, hget⟩
        refine ⟨hn, hpr, ?_⟩
        intro e1 he1
        rw [Obj.get_set_of_ne _ _ _ _ (Ne.symm (hne e1 he1))]
        exact hget e1 (Or.inr he1)
    · have h2 := Obj.length_set_old acc (f e) (g e) (by
        by_cases hp : f e = "__proto__".toList
        · exact Or.inl hp
        · exact Or.inr (fun hn => hc ⟨hp, hn⟩))
      constructor
      · intro h
        omega
      · rintro ⟨_, hpr, hget⟩
        exfalso
        apply hc
        refine ⟨?_, hget e (List.mem_cons_self _ _)⟩
        intro hp
        exact hpr (by simp [hp])

end Fold

theorem matchDigits_none_of_no_digit (sg t : Str) (h : ∀ c ∈ t, isDigit c = false) :
    matchDigits sg t = none := by
  have ht : t.takeWhile isDigit = [] := by
    cases t with
    | nil => rfl
    | cons c cs => simp [List.takeWhile, h c (List.mem_cons_self _ _)]
  unfold matchDigits
  simp [ht]

theorem matchHere_none_of_no_digit (s : Str) (h : ∀ c ∈ s, isDigit c = false) :
    matchHere s = none := by
  unfold matchHere
  split
  · rename_i t
    rw [matchDigits_none_of_no_digit _ t (fun c hc => h c (List.mem_cons_of_mem _ hc))]
    exact matchDigits_none_of_no_digit _ _ h
  · exact matchDigits_none_of_no_digit _ _ h

/-- A value without a decimal digit does not match the pattern. -/
theorem regexMatch_none_of_no_digit (s : Str) (h : ∀ c ∈ s, isDigit c = false) :
    regexMatch s = none := by
  induction s with
  | nil => exact matchHere_none_of_no_digit [] h
  | cons c cs ih =>
    unfold regexMatch
    rw [matchHere_none_of_no_digit _ h]
    exact ih (fun d hd => h d (List.mem_cons_of_mem _ hd))

/-- A value without a decimal digit is kept as it is. -/
theorem convertEntry_of_no_digit (uni : Str → Str) (key value : Str)
    (h : ∀ c ∈ value, isDigit c = false) :
    convertEntry uni key value =
      Except.ok (replaceSpaceRuns (toLowerCase uni key), JSVal.str value) := by
  rw [convertEntry_eq, outputKey, outputValue, regexMatch_none_of_no_digit value h]

/-! ## Facts about `parseFloat` on a numeral -/

theorem pow10_neg_natCast (n : Nat) : pow10 (0 - (n : Int)) = 1 / (10 : ℚ) ^ n := by
  unfold pow10
  by_cases hn : n = 0
  · subst hn
    simp
  · have h : ¬ (0 : Int) ≤ 0 - (n : Int) := by omega
    rw [if_neg h]
    have h2 : (-(0 - (n : Int))).toNat = n := by omega
    rw [h2]
    push_cast
    rfl

theorem not_isWhiteSpace_of_isDigit (c : Char) (h : isDigit c = true) :
    isWhiteSpace c = false := by
  by_contra hw
  rw [Bool.not_eq_false] at hw
  rw [not_isDigit_of_isWhiteSpace c hw] at h
  exact absurd h (by decide)

theorem unsignedDecimalLiteral_numeral (ds frac : Str) (hne : ds ≠ [])
    (hds : ∀ c ∈ ds, isDigit c = true)
    (hfrac : frac = [] ∨ (frac.take 1 = ['.'] ∧ ∀ c ∈ frac.drop 1, isDigit c = true)) :
    unsignedDecimalLiteral (ds ++ frac) =
      some (some ((digitsValue 10 (ds ++ frac.drop 1) : ℚ) / (10 : ℚ) ^ (frac.drop 1).length),
        []) := by
  obtain ⟨d, ds1, rfl⟩ : ∃ d ds1, ds = d :: ds1 := List.exists_cons_of_ne_nil hne
  have hd : isDigit d = true := hds d (List.mem_cons_self _ _)
  have hI : ("Infinity".toList.isPrefixOf (d :: ds1 ++ frac)) = false := by
    have : d ≠ 'I' := by
      intro h
      rw [h] at hd
      exact absurd hd (by decide)
    show (('I' :: "nfinity".toList).isPrefixOf (d :: (ds1 ++ frac))) = false
    simp [List.isPrefixOf, Ne.symm this]
  have hstop : ∀ c, frac.head? = some c → isDigit c = false := by
    intro c hc
    rcases hfrac with rfl | ⟨hdot, _⟩
    · simp at hc
    · cases frac with
      | nil => simp at hc
      | cons f fr =>
        simp only [List.head?_cons, Option.some.injEq] at hc
        simp only [List.take_succ_cons, List.take_zero, List.cons.injEq, and_true] at hdot
        rw [← hc, hdot]
        decide
  have hT := takeWhile_append_stop isDigit (d :: ds1) frac hds hstop
  have hD := dropWhile_append_stop isDigit (d :: ds1) frac hds hstop
  unfold unsignedDecimalLiteral
  rw [if_neg (by rw [hI]; simp)]
  simp only [hT, hD]
  rcases hfrac with rfl | ⟨hdot, hfs⟩
  · simp [exponentPart, pow10]
  · obtain ⟨f, fr, rfl⟩ : ∃ f fr, frac = f :: fr := by
      cases frac with
      | nil => simp at hdot
      | cons f fr => exact ⟨f, fr, rfl⟩
    have hf : f = '.' := by simpa using hdot
    subst hf
    simp only [List.drop_succ_cons, List.drop_zero] at hfs ⊢
    have hT2 := takeWhile_all isDigit fr hfs
    have hD2 := dropWhile_all isDigit fr hfs
    simp only [hT2, hD2, exponentPart]
    simp only [reduceCtorEq, false_and, if_false, Option.some.injEq, Prod.mk.injEq, and_true]
    rw [pow10_neg_natCast]
    ring

theorem readSign_of_isDigit (d : Char) (t : Str) (hd : isDigit d = true) :
    readSign (d :: t) = (false, d :: t) := by
  unfold readSign
  split
  · rename_i t1 heq
    simp only [List.cons.injEq] at heq
    rw [heq.1] at hd
    exact absurd hd (by decide)
  · rename_i t1 heq
    simp only [List.cons.injEq] at heq
    rw [heq.1] at hd
    exact absurd hd (by decide)
  · rfl

theorem parseFloat_numeral (sign ds frac : Str) (hsign : sign = [] ∨ sign = ['-'])
    (hne : ds ≠ []) (hds : ∀ c ∈ ds, isDigit c = true)
    (hfrac : frac = [] ∨ (frac.take 1 = ['.'] ∧ ∀ c ∈ frac.drop 1, isDigit c = true)) :
    parseFloat (some (sign ++ (ds ++ frac))) = numeralNumber sign ds frac := by
  have hu := unsignedDecimalLiteral_numeral ds frac hne hds hfrac
  obtain ⟨d, ds1, rfl⟩ : ∃ d ds1, ds = d :: ds1 := List.exists_cons_of_ne_nil hne
  have hd : isDigit d = true := hds d (List.mem_cons_self _ _)
  rw [List.cons_append] at hu
  rcases hsign with rfl | rfl
  · have hw : isWhiteSpace d = false := not_isWhiteSpace_of_isDigit d hd
    unfold parseFloat strDecimalLiteral
    simp only [Option.getD_some, List.nil_append, List.cons_append, List.dropWhile_cons, hw]
    simp only [Bool.false_eq_true, if_false, readSign_of_isDigit d _ hd, hu]
    simp [numeralNumber, numeralValue]
  · have hw : isWhiteSpace '-' = false := by decide
    have hs : readSign ('-' :: d :: (ds1 ++ frac)) = (true, d :: (ds1 ++ frac)) := rfl
    unfold parseFloat strDecimalLiteral
    simp only [Option.getD_some, List.cons_append, List.nil_append, List.dropWhile_cons, hw]
    simp only [Bool.false_eq_true, if_false, hs, hu]
    simp [numeralNumber, numeralValue]

/-! ## Facts about the output key -/

theorem toNat_lt_of_isAsciiLetter (c : Char) (h : isAsciiLetter c = true) : c.toNat < 128 := by
  simp only [isAsciiLetter, Bool.or_eq_true, Bool.and_eq_true, decide_eq_true_eq] at h
  omega

theorem toLower_ne_underscore (c : Char) (h : isAsciiLetter c = true) : c.toLower ≠ '_' := by
  have hc : c = Char.ofNat c.toNat := (Char.ofNat_toNat c).symm
  simp only [isAsciiLetter, Bool.or_eq_true, Bool.and_eq_true, decide_eq_true_eq] at h
  generalize c.toNat = n at hc h
  subst hc
  rcases h with ⟨h1, h2⟩ | ⟨h1, h2⟩
  · interval_cases n <;> decide
  · interval_cases n <;> decide

theorem toLowerCase_letters (uni : Str → Str) (unit : Str)
    (h : ∀ c ∈ unit, isAsciiLetter c = true) :
    toLowerCase uni unit = unit.map Char.toLower := by
  unfold toLowerCase
  rw [if_pos]
  rw [List.all_eq_true]
  intro c hc
  simpa using toNat_lt_of_isAsciiLetter c (h c hc)

theorem unitKey_ne_proto (uni : Str → Str) (fk unit : Str) (hne : unit ≠ [])
    (h : ∀ c ∈ unit, isAsciiLetter c = true) :
    fk ++ '_' :: toLowerCase uni unit ≠ "__proto__".toList := by
  intro heq
  have h1 : (fk ++ '_' :: toLowerCase uni unit).getLast? = some '_' := by
    rw [heq]
    rfl
  rw [toLowerCase_letters uni unit h] at h1
  obtain ⟨u, us, rfl⟩ : ∃ u us, unit = u :: us := List.exists_cons_of_ne_nil hne
  rw [List.getLast?_append_of_ne_nil _ (List.cons_ne_nil _ _), List.map_cons,
    List.getLast?_cons_cons, ← List.map_cons, List.getLast?_map] at h1
  cases hl : (u :: us).getLast? with
  | none => simp [hl] at h1
  | some c =>
    have hc : c ∈ u :: us := List.mem_of_getLast?_eq_some hl
    rw [hl] at h1
    simp only [Option.map_some', Option.some.injEq] at h1
    exact toLower_ne_underscore c (h c hc) h1

theorem toLowerCase_ascii (uni : Str → Str) (t : Str)
    (h : t.all (fun c => decide (c.toNat < 128)) = true) :
    toLowerCase uni t = t.map Char.toLower := by
  unfold toLowerCase
  rw [if_pos h]

/-- The case tables of the host matter only for keys with a character outside
ASCII. -/
theorem outputKey_ascii (uni : Str → Str) (key value : Str)
    (h : key.all (fun c => decide (c.toNat < 128)) = true) :
    outputKey uni key value = outputKey id key value := by
  unfold outputKey
  rw [toLowerCase_ascii uni key h, toLowerCase_ascii id key h]
  cases hm : regexMatch value with
  | none => rfl
  | some m =>
    obtain ⟨w, g, u, rfl, hu⟩ := regexMatch_length value m hm
    cases u with
    | nil => rfl
    | cons c u1 =>
      simp only
      rw [toLowerCase_letters uni _ hu, toLowerCase_letters id _ hu]

theorem snapshot_ascii_aux (uni : Str → Str) (d : Obj Str) (acc : Obj JSVal)
    (h : ∀ e ∈ d, e.1.all (fun c => decide (c.toNat < 128)) = true) :
    d.foldl (fun acc e => Obj.set acc (outputKey uni e.1 e.2) (outputValue e.2)) acc =
      d.foldl (fun acc e => Obj.set acc (outputKey id e.1 e.2) (outputValue e.2)) acc := by
  induction d generalizing acc with
  | nil => rfl
  | cons e d ih =>
    rw [List.foldl_cons, List.foldl_cons, outputKey_ascii uni e.1 e.2 (h e (List.mem_cons_self _ _))]
    exact ih _ (fun e1 h1 => h e1 (List.mem_cons_of_mem _ h1))

theorem snapshot_ascii (uni : Str → Str) (d : Obj Str)
    (h : ∀ e ∈ d, e.1.all (fun c => decide (c.toNat < 128)) = true) :
    snapshot uni d = snapshot id d :=
  snapshot_ascii_aux uni d [] h

theorem outputKey_numberWithUnit (uni : Str → Str) (key value sign ds frac ws unit : Str)
    (h : NumberWithUnit value sign ds frac ws unit) :
    outputKey uni key value =
      replaceSpaceRuns (toLowerCase uni key) ++ '_' :: toLowerCase uni unit := by
  obtain ⟨u, us, hu⟩ : ∃ u us, unit = u :: us := List.exists_cons_of_ne_nil h.unit_ne
  unfold outputKey
  rw [regexMatch_numberWithUnit value sign ds frac ws unit h, hu]

theorem outputValue_numberWithUnit (value sign ds frac ws unit : Str)
    (h : NumberWithUnit value sign ds frac ws unit) :
    outputValue value = JSVal.num (numeralNumber sign ds frac) := by
  unfold outputValue
  rw [regexMatch_numberWithUnit value sign ds frac ws unit h]
  simp only
  rw [parseFloat_numeral sign ds frac h.sign_ok h.ds_ne h.ds_ok h.frac_ok]

/-! ## Facts about decimal digits and `toFixed` -/

theorem toDigitsCore_append (b f n : Nat) (ds : List Char) :
    Nat.toDigitsCore b f n ds = Nat.toDigitsCore b f n [] ++ ds := by
  induction f generalizing n ds with
  | zero => simp [Nat.toDigitsCore]
  | succ f ih =>
    simp only [Nat.toDigitsCore]
    split_ifs
    · simp
    · rw [ih (n / b) (Nat.digitChar (n % b) :: ds), ih (n / b) [Nat.digitChar (n % b)]]
      simp

theorem toDigitsCore_fuel (b : Nat) (hb : 2 ≤ b) (n f1 f2 : Nat) (h1 : n < f1) (h2 : n < f2) :
    Nat.toDigitsCore b f1 n [] = Nat.toDigitsCore b f2 n [] := by
  induction n using Nat.strong_induction_on generalizing f1 f2 with
  | _ n ih =>
    obtain ⟨g1, rfl⟩ : ∃ g1, f1 = g1 + 1 := ⟨f1 - 1, by omega⟩
    obtain ⟨g2, rfl⟩ : ∃ g2, f2 = g2 + 1 := ⟨f2 - 1, by omega⟩
    simp only [Nat.toDigitsCore]
    by_cases h0 : n / b = 0
    · simp [h0]
    · simp only [h0, if_false]
      have hn : 0 < n := by
        rcases Nat.eq_zero_or_pos n with h | h
        · subst h
          simp at h0
        · exact h
      have hlt : n / b < n := Nat.div_lt_self hn hb
      rw [toDigitsCore_append b g1, toDigitsCore_append b g2,
        ih (n / b) hlt g1 g2 (by omega) (by omega)]

theorem natDigits_of_lt_ten (n : Nat) (h : n < 10) : natDigits n = [Nat.digitChar n] := by
  unfold natDigits Nat.toDigits
  simp only [Nat.toDigitsCore]
  have h0 : n / 10 = 0 := by omega
  have h1 : n % 10 = n := by omega
  simp [h0, h1]

theorem natDigits_of_ten_le (n : Nat) (h : 10 ≤ n) :
    natDigits n = natDigits (n / 10) ++ [Nat.digitChar (n % 10)] := by
  have h0 : n / 10 ≠ 0 := by omega
  have hl : Nat.toDigitsCore 10 (n + 1) n [] =
      Nat.toDigitsCore 10 n (n / 10) [Nat.digitChar (n % 10)] := by
    simp only [Nat.toDigitsCore, h0, if_false]
  unfold natDigits Nat.toDigits
  rw [hl, toDigitsCore_append, toDigitsCore_fuel 10 (by omega) (n / 10) n (n / 10 + 1)
    (by omega) (by omega)]

/-- The text of `toFixed(2)` for a magnitude below `10 ^ 21`: the nearest
number of hundredths, written with exactly two decimal places. -/
theorem toFixedMag_two (a : ℚ) (h : a < (10 : ℚ) ^ 21) :
    toFixedMag 2 a = twoDecimals ⌊a * (10 : ℚ) ^ 2 + 1 / 2⌋.toNat := by
  unfold toFixedMag
  rw [if_neg (not_le.2 h)]
  generalize ⌊a * (10 : ℚ) ^ 2 + 1 / 2⌋.toNat = n
  simp only [OfNat.ofNat_ne_zero, if_false]
  unfold twoDecimals
  by_cases h10 : n < 10
  · have e1 : n / 100 = 0 := by omega
    have e2 : n / 10 % 10 = 0 := by omega
    have e3 : n % 10 = n := by omega
    rw [natDigits_of_lt_ten n h10, e1, e2, e3]
    rfl
  · by_cases h100 : n < 100
    · have e1 : n / 100 = 0 := by omega
      have e2 : n / 10 % 10 = n / 10 := by omega
      rw [natDigits_of_ten_le n (by omega), natDigits_of_lt_ten (n / 10) (by omega), e1, e2]
      rfl
    · have e1 : n / 10 / 10 = n / 100 := by omega
      rw [natDigits_of_ten_le n (by omega), natDigits_of_ten_le (n / 10) (by omega), e1]
      have hlen : ¬ (natDigits (n / 100) ++ [Nat.digitChar (n / 10 % 10)] ++
          [Nat.digitChar (n % 10)]).length ≤ 2 := by
        have : 0 < (natDigits (n / 100)).length := by
          by_cases hs : n / 100 < 10
          · rw [natDigits_of_lt_ten _ hs]
            simp
          · rw [natDigits_of_ten_le _ (by omega)]
            simp
        simp only [List.length_append, List.length_singleton]
        omega
      rw [if_neg hlen]
      simp

/-! ## Facts about the arithmetic of the estimator -/

namespace JSNum

theorem ofRat_ne_nan (b : Bool) (q : ℚ) : ofRat b q ≠ nan := by
  unfold ofRat
  by_cases hq : q = 0
  · rw [if_pos hq]
    cases b <;> simp [zero]
  · rw [if_neg hq]
    split
    · unfold infinity
      split_ifs <;> simp
    · unfold zero
      split_ifs <;> simp

theorem neg_ne_nan (x : JSNum) (h : x ≠ nan) : neg x ≠ nan := by
  cases x with
  | nan => exact absurd rfl h
  | posInf => simp [neg]
  | negInf => simp [neg]
  | negZero => simp [neg]
  | fin q =>
    simp only [neg]
    split_ifs <;> simp

theorem add_fin_ne_nan (x : JSNum) (q : ℚ) (h : x ≠ nan) : add x (fin q) ≠ nan := by
  cases x with
  | nan => exact absurd rfl h
  | posInf => simp [add]
  | negInf => simp [add]
  | negZero => exact ofRat_ne_nan _ _
  | fin p => exact ofRat_ne_nan _ _

theorem add_negZero_ne_nan (x : JSNum) (h : x ≠ nan) : add x negZero ≠ nan := by
  cases x with
  | nan => exact absurd rfl h
  | posInf => simp [add]
  | negInf => simp [add]
  | negZero => exact ofRat_ne_nan _ _
  | fin p => exact ofRat_ne_nan _ _

theorem fin_add_ne_nan (q : ℚ) (y : JSNum) (h : y ≠ nan) : add (fin q) y ≠ nan := by
  cases y with
  | nan => exact absurd rfl h
  | posInf => simp [add]
  | negInf => simp [add]
  | negZero => exact ofRat_ne_nan _ _
  | fin p => exact ofRat_ne_nan _ _

theorem negZero_add_ne_nan (y : JSNum) (h : y ≠ nan) : add negZero y ≠ nan := by
  cases y with
  | nan => exact absurd rfl h
  | posInf => simp [add]
  | negInf => simp [add]
  | negZero => exact ofRat_ne_nan _ _
  | fin p => exact ofRat_ne_nan _ _

theorem sub_fin_ne_nan (x : JSNum) (q : ℚ) (h : x ≠ nan) : sub x (fin q) ≠ nan := by
  unfold sub
  simp only [neg]
  split_ifs
  · exact add_negZero_ne_nan x h
  · exact add_fin_ne_nan x _ h

theorem mul_fin_ne_nan (x : JSNum) (q : ℚ) (hq : q ≠ 0) (h : x ≠ nan) :
    mul x (fin q) ≠ nan := by
  cases x with
  | nan => exact absurd rfl h
  | posInf => simp [mul, isInf, isZero, hq, infinity]; split_ifs <;> simp
  | negInf => simp [mul, isInf, isZero, hq, infinity]; split_ifs <;> simp
  | negZero => simpa [mul, isInf] using ofRat_ne_nan _ _
  | fin p => simpa [mul, isInf] using ofRat_ne_nan _ _

theorem fin_mul_ne_nan (q : ℚ) (y : JSNum) (hy : y ≠ nan) (hi : y.isInf = false) :
    mul (fin q) y ≠ nan := by
  cases y with
  | nan => exact absurd rfl hy
  | posInf => simp [isInf] at hi
  | negInf => simp [isInf] at hi
  | negZero => simpa [mul, isInf] using ofRat_ne_nan _ _
  | fin p => simpa [mul, isInf] using ofRat_ne_nan _ _

theorem div_fin_ne_nan (x : JSNum) (q : ℚ) (hq : q ≠ 0) (h : x ≠ nan) :
    div x (fin q) ≠ nan := by
  cases x with
  | nan => exact absurd rfl h
  | posInf => simp [div, isInf, infinity]; split_ifs <;> simp
  | negInf => simp [div, isInf, infinity]; split_ifs <;> simp
  | negZero => simpa [div, isInf, isZero, hq] using ofRat_ne_nan _ _
  | fin p => simpa [div, isInf, isZero, hq] using ofRat_ne_nan _ _

/-- Clamping leaves a number of the range `[0, 100]` as it is. -/
theorem clamp_of_mem (r : ℚ) (h0 : 0 ≤ r) (h1 : r ≤ 100) :
    JSNum.max (fin 0) (JSNum.min (fin 100) (fin r)) = fin r := by
  have hmin : JSNum.min (fin 100) (fin r) = fin r := by
    simp only [JSNum.min, below]
    by_cases h : r < 100
    · simp [h]
    · have : r = 100 := le_antisymm h1 (not_lt.1 h)
      simp [this]
  rw [hmin]
  simp only [JSNum.max, below]
  by_cases h : 0 < r
  · simp [h]
  · have : r = 0 := le_antisymm (not_lt.1 h) h0
    simp [this]

/-- Clamping a number other than NaN gives a finite number of `[0, 100]`:
100 for a number above 100, 0 for a number below 0. -/
theorem clamp_spec (x : JSNum) (h : x ≠ nan) :
    ∃ p : ℚ, JSNum.max (fin 0) (JSNum.min (fin 100) x) = fin p ∧ 0 ≤ p ∧ p ≤ 100 ∧
      ((x = posInf ∨ ∃ q, x = fin q ∧ 100 < q) → p = 100) ∧
      ((x = negInf ∨ ∃ q, x = fin q ∧ q < 0) → p = 0) := by
  cases x with
  | nan => exact absurd rfl h
  | posInf =>
    refine ⟨100, by simp [JSNum.max, JSNum.min, below], by norm_num, le_refl _, fun _ => rfl, ?_⟩
    rintro (h | ⟨q, h, _⟩) <;> cases h
  | negInf =>
    refine ⟨0, by simp [JSNum.max, JSNum.min, below], le_refl _, by norm_num, ?_, fun _ => rfl⟩
    rintro (h | ⟨q, h, _⟩) <;> cases h
  | negZero =>
    refine ⟨0, by simp [JSNum.max, JSNum.min, below], le_refl _, by norm_num, ?_, ?_⟩
    · rintro (h | ⟨q, h, _⟩) <;> cases h
    · rintro (h | ⟨q, h, _⟩) <;> cases h
  | fin q =>
    by_cases h100 : q < 100
    · by_cases h0 : 0 < q
      · refine ⟨q, by simp [JSNum.max, JSNum.min, below, h100, h0], le_of_lt h0,
          le_of_lt h100, ?_, ?_⟩
        · rintro (h | ⟨q1, h, hq⟩)
          · cases h
          · cases h
            exact absurd hq (not_lt.2 (le_of_lt h100))
        · rintro (h | ⟨q1, h, hq⟩)
          · cases h
          · cases h
            exact absurd hq (not_lt.2 (le_of_lt h0))
      · refine ⟨0, by simp [JSNum.max, JSNum.min, below, h100, h0], le_refl _, by norm_num,
          ?_, fun _ => rfl⟩
        rintro (h | ⟨q1, h, hq⟩)
        · cases h
        · cases h
          exact absurd hq (not_lt.2 (le_of_lt h100))
    · refine ⟨100, by simp [JSNum.max, JSNum.min, below, h100], by norm_num, le_refl _,
        fun _ => rfl, ?_⟩
      rintro (h | ⟨q1, h, hq⟩)
      · cases h
      · cases h
        exact absurd (lt_trans hq (by norm_num : (0 : ℚ) < 100)) h100

end JSNum

theorem internalResistance_eq :
    internalResistance = fin (3602879701896397 / 36028797018963968) := by
  decide!

theorem fullVoltage_sub_emptyVoltage : sub fullVoltage emptyVoltage = fin 2400 := by
  decide!

/-- The percentage before clamping is never NaN when both readings are finite
integers. -/
theorem rawPercentage_ne_nan (x y : JSNum) (V I : Int) (hx : IsInteger x V)
    (hy : IsInteger y I) : rawPercentage x y ≠ nan := by
  have hyn : y ≠ nan := by
    rcases hy with h | ⟨h, _⟩ <;> rw [h] <;> simp
  have hyi : y.isInf = false := by
    rcases hy with h | ⟨h, _⟩ <;> rw [h] <;> rfl
  have hsag : mul internalResistance y ≠ nan := by
    rw [internalResistance_eq]
    exact fin_mul_ne_nan _ y hyn hyi
  have hadj : sub x (mul internalResistance y) ≠ nan := by
    unfold sub
    rcases hx with h | ⟨h, _⟩
    · rw [h]
      exact fin_add_ne_nan _ _ (neg_ne_nan _ hsag)
    · rw [h]
      exact negZero_add_ne_nan _ (neg_ne_nan _ hsag)
  unfold rawPercentage
  simp only [fullVoltage_sub_emptyVoltage]
  apply mul_fin_ne_nan _ _ (by norm_num)
  apply div_fin_ne_nan _ _ (by norm_num)
  exact sub_fin_ne_nan _ _ hadj

theorem toFixed_two_of_nonneg (p : ℚ) (h0 : 0 ≤ p) (h1 : p ≤ 100) :
    toFixed 2 (fin p) = twoDecimals ⌊p * (10 : ℚ) ^ 2 + 1 / 2⌋.toNat ∧
      ⌊p * (10 : ℚ) ^ 2 + 1 / 2⌋.toNat ≤ 10000 := by
  constructor
  · simp only [toFixed]
    rw [if_neg (not_lt.2 h0)]
    exact toFixedMag_two p (lt_of_le_of_lt h1 (by norm_num))
  · have h : ⌊p * (10 : ℚ) ^ 2 + 1 / 2⌋ ≤ 10000 := by
      have : p * (10 : ℚ) ^ 2 + 1 / 2 < ((10001 : Int) : ℚ) := by
        push_cast
        nlinarith
      have := Int.floor_le (p * (10 : ℚ) ^ 2 + 1 / 2)
      have h2 : ((⌊p * (10 : ℚ) ^ 2 + 1 / 2⌋ : Int) : ℚ) < ((10001 : Int) : ℚ) := by linarith
      have h3 := Int.cast_lt.1 h2
      omega
    omega

theorem get_percentage (s : State) :
    Obj.get (calculateBatteryPercentage s).latestData "iRemaining_real".toList =
      some (storedPercentage s.latestData) := by
  rw [get_calculateBatteryPercentage, if_pos rfl]

/-! ## Facts about the sampling tick -/

/-- The samples that one tick appends. -/
theorem tick_lastBatteryVoltage (s : State) :
    (tick s).lastBatteryVoltage =
      keepArrayLength 60 (s.lastBatteryVoltage ++ appended s [Event.tick]) := by
  unfold tick appended
  cases Obj.get s.latestData "Battery voltage".toList <;> simp [appended]

theorem tick_latestData (s : State) :
    (tick s).latestData =
      Obj.set s.latestData "Battery voltage average".toList
        (averageBatteryVoltage (tick s).lastBatteryVoltage) := rfl

theorem appended_tick_length_le (s : State) : (appended s [Event.tick]).length ≤ 1 := by
  unfold appended
  cases Obj.get s.latestData "Battery voltage".toList <;> simp [appended]

theorem appended_tick_cons (s : State) (events : List Event) :
    appended s (Event.tick :: events) = appended s [Event.tick] ++ appended (tick s) events := by
  simp [appended]

theorem keepArrayLength_length (w : List JSNum) (h : w.length ≤ 61) :
    (keepArrayLength 60 w).length ≤ 60 := by
  unfold keepArrayLength
  split_ifs with h1
  · rw [List.length_tail]
    omega
  · omega

/-- Trimming the window and then keeping the last 60 of what follows is keeping
the last 60. -/
theorem drop_keepArrayLength (w rest : List JSNum) (h : w.length ≤ 61) :
    (keepArrayLength 60 w ++ rest).drop ((keepArrayLength 60 w ++ rest).length - 60) =
      (w ++ rest).drop ((w ++ rest).length - 60) := by
  unfold keepArrayLength
  split_ifs with h1
  · cases w with
    | nil => simp at h1
    | cons a w1 =>
      simp only [List.length_cons] at h h1
      have hl : w1.length = 60 := by omega
      simp only [List.tail_cons, List.cons_append, List.length_append, List.length_cons, hl]
      have e1 : 60 + rest.length - 60 = rest.length := by omega
      have e2 : 60 + rest.length + 1 - 60 = rest.length + 1 := by omega
      rw [e1, e2, List.drop_succ_cons]
  · rfl

/-- From a window of at most 60 samples, a run ends with the last 60 of the
old samples followed by the appended ones. -/
theorem run_lastBatteryVoltage (events : List Event) (s : State)
    (h : s.lastBatteryVoltage.length ≤ 60) :
    (run s events).lastBatteryVoltage =
      (s.lastBatteryVoltage ++ appended s events).drop
        ((s.lastBatteryVoltage ++ appended s events).length - 60) := by
  induction events generalizing s with
  | nil =>
    have e : s.lastBatteryVoltage.length - 60 = 0 := by omega
    simp [run, appended, e]
  | cons e events ih =>
    cases e with
    | chunk dataString =>
      have h1 := ih (parseData s dataString) h
      simpa [run, step, appended, parseData_lastBatteryVoltage] using h1
    | tick =>
      have hlen : (s.lastBatteryVoltage ++ appended s [Event.tick]).length ≤ 61 := by
        have := appended_tick_length_le s
        rw [List.length_append]
        omega
      have hk : (tick s).lastBatteryVoltage.length ≤ 60 := by
        rw [tick_lastBatteryVoltage]
        exact keepArrayLength_length _ hlen
      have h1 := ih (tick s) hk
      have h2 : run s (Event.tick :: events) = run (tick s) events := rfl
      rw [h2, h1, tick_lastBatteryVoltage, drop_keepArrayLength _ _ hlen,
        appended_tick_cons s events, List.append_assoc]

theorem appended_length (events : List Event) (s : State) (h : EveryTickAppends s events) :
    (appended s events).length = tickCount events := by
  induction events generalizing s with
  | nil => rfl
  | cons e events ih =>
    cases e with
    | chunk dataString =>
      have h1 := ih (parseData s dataString) h
      simpa [appended, tickCount] using h1
    | tick =>
      obtain ⟨hv, hrest⟩ := h
      have h1 := ih (tick s) hrest
      cases hg : Obj.get s.latestData "Battery voltage".toList with
      | none => exact absurd hg hv
      | some v =>
        simp only [appended, hg, List.singleton_append, List.length_cons, h1, tickCount,
          List.count_cons_self]

/-! ## The line parser: the last occurrence of a key wins -/

theorem mem_dropWhile_of_not (p : Char → Bool) (c : Char) (l : Str) (hc : c ∈ l)
    (hp : p c = false) : c ∈ l.dropWhile p := by
  induction l with
  | nil => cases hc
  | cons x xs ih =>
    rw [List.dropWhile_cons]
    by_cases hx : p x = true
    · rw [if_pos hx]
      rcases List.mem_cons.1 hc with h | h
      · rw [h, hx] at hp
        cases hp
      · exact ih h
    · rw [if_neg hx]
      exact hc

theorem trim_ne_nil_of_mem (c : Char) (l : Str) (hc : c ∈ l) (hp : isWhiteSpace c = false) :
    trim l ≠ [] := by
  have h1 := mem_dropWhile_of_not isWhiteSpace c l hc hp
  have h2 := mem_dropWhile_of_not isWhiteSpace c _ (List.mem_reverse.2 h1) hp
  intro h
  unfold trim at h
  rw [List.reverse_eq_nil_iff] at h
  rw [h] at h2
  cases h2

theorem parseLine_eq (d : Obj Str) (line : Str) :
    parseLine d line =
      match lineEntry line with
      | some e => Obj.set d e.1 e.2
      | none => d := by
  unfold parseLine lineEntry
  rcases hs : split '=' line with _ | ⟨a, _ | ⟨b, _ | ⟨c, r⟩⟩⟩
  · simp
  · simp
  · have hcount : line.count '=' = 1 := by
      have := split_length '=' line
      rw [hs] at this
      simpa using this.symm
    have hmem : '=' ∈ line := List.count_pos_iff.1 (by omega)
    have hne := trim_ne_nil_of_mem '=' line hmem (by decide)
    have hlen : (trim line).length > 0 := List.length_pos.2 hne
    simp [hlen]
  · simp

theorem get_parseLine (d : Obj Str) (line k : Str) (hk : k ≠ "__proto__".toList) :
    Obj.get (parseLine d line) k =
      match lastValueFor k [line] with
      | some v => some v
      | none => Obj.get d k := by
  rw [parseLine_eq]
  unfold lastValueFor
  cases hl : lineEntry line with
  | none => simp [hl]
  | some e =>
    simp only [List.filterMap_cons, hl, List.filterMap_nil]
    rw [Obj.get_set]
    by_cases he : e.1 = k
    · rw [if_pos ⟨he, by rw [he]; exact hk⟩]
      simp [List.filter, he]
    · rw [if_neg (fun h => he h.1)]
      simp [List.filter, he]

theorem lastValueFor_cons (k line : Str) (lines : List Str) :
    lastValueFor k (line :: lines) =
      match lastValueFor k lines with
      | some v => some v
      | none => lastValueFor k [line] := by
  unfold lastValueFor
  cases hl : lineEntry line with
  | none =>
    simp only [List.filterMap_cons, hl, List.filterMap_nil, List.filter_nil, List.getLast?_nil,
      Option.map_none']
    cases (List.filter (fun e => decide (e.1 = k))
      (List.filterMap lineEntry lines)).getLast? <;> rfl
  | some e =>
    simp only [List.filterMap_cons, hl, List.filterMap_nil]
    by_cases he : e.1 = k
    · simp only [List.filter_cons, he, decide_True, if_true, List.filter_nil]
      cases hr : (List.filter (fun e => decide (e.1 = k)) (List.filterMap lineEntry lines)) with
      | nil => simp
      | cons x xs =>
        rw [List.getLast?_cons_cons]
        cases hg : (x :: xs).getLast? with
        | none => simp at hg
        | some y => rfl
    · simp only [List.filter_cons, he, decide_False, Bool.false_eq_true, if_false,
        List.filter_nil]
      cases hr : (List.filter (fun e => decide (e.1 = k))
        (List.filterMap lineEntry lines)).getLast? <;> rfl

theorem get_foldl_parseLine (lines : List Str) (d : Obj Str) (k : Str)
    (hk : k ≠ "__proto__".toList) :
    Obj.get (lines.foldl parseLine d) k =
      match lastValueFor k lines with
      | some v => some v
      | none => Obj.get d k := by
  induction lines generalizing d with
  | nil => rfl
  | cons l ls ih =>
    rw [List.foldl_cons, ih (parseLine d l), lastValueFor_cons, get_parseLine d l k hk]
    cases lastValueFor k ls <;> rfl

/-- Last occurrence wins, for every key other than `iRemaining_real` and
`__proto__`: after `parseData` the key holds the trimmed value of the last line
of the chunk with exactly one `=` and that trimmed key, and what it held before
when there is no such line. -/
theorem parseData_last_occurrence_wins (s : State) (chunk k : Str)
    (hr : k ≠ "iRemaining_real".toList) (hp : k ≠ "__proto__".toList) :
    Obj.get (parseData s chunk).latestData k =
      match lastValueFor k (split '\n' chunk) with
      | some v => some v
      | none => Obj.get s.latestData k := by
  rw [parseData_latestData, Obj.get_set_of_ne _ _ _ _ (Ne.symm hr)]
  exact get_foldl_parseLine _ _ k hp

/-! ## Facts about rounding to binary64 -/

theorem pow2_eq_zpow (e : Int) : pow2 e = (2 : ℚ) ^ e := by
  unfold pow2
  split_ifs with h
  · obtain ⟨n, rfl⟩ := Int.eq_ofNat_of_zero_le h
    simp
  · have h2 : 0 ≤ -e := by omega
    obtain ⟨n, hn⟩ := Int.eq_ofNat_of_zero_le h2
    have he : e = -(n : Int) := by omega
    rw [hn, he]
    simp

theorem pow2_pos (e : Int) : 0 < pow2 e := by
  rw [pow2_eq_zpow]
  positivity

theorem log2Aux_spec (fuel n : Nat) (h1 : 1 ≤ n) (h2 : n ≤ fuel) :
    2 ^ log2Aux fuel n ≤ n ∧ n < 2 ^ (log2Aux fuel n + 1) := by
  induction fuel generalizing n with
  | zero => omega
  | succ fuel ih =>
    unfold log2Aux
    by_cases hn : n < 2
    · rw [if_pos hn]
      simp
      omega
    · rw [if_neg hn]
      have h := ih (n / 2) (by omega) (by omega)
      rw [pow_succ, pow_succ]
      rw [pow_succ] at h
      omega

theorem log2_spec (n : Nat) (h : 1 ≤ n) : 2 ^ log2 n ≤ n ∧ n < 2 ^ (log2 n + 1) :=
  log2Aux_spec n n h (le_refl n)

theorem floorLog2_spec (a : ℚ) (h : 0 < a) :
    (2 : ℚ) ^ floorLog2 a ≤ a ∧ a < (2 : ℚ) ^ (floorLog2 a + 1) := by
  have hnum : 0 < a.num := Rat.num_pos.2 h
  obtain ⟨p, hp⟩ := Int.eq_ofNat_of_zero_le (le_of_lt hnum)
  obtain ⟨q, hq⟩ : ∃ q, a.den = q := ⟨_, rfl⟩
  have hp1 : 1 ≤ p := by omega
  have hq1 : 1 ≤ q := by
    rw [← hq]
    exact a.den_pos
  have hnat : a.num.natAbs = p := by omega
  have ha : a = (p : ℚ) / (q : ℚ) := by
    have h1 := Rat.num_div_den a
    rw [hp, hq] at h1
    rw [← h1]
    simp
  unfold floorLog2
  simp only [hnat, hq, pow2_eq_zpow]
  obtain ⟨hpl, hpu⟩ := log2_spec p hp1
  obtain ⟨hql, hqu⟩ := log2_spec q hq1
  generalize log2 p = lp at hpl hpu ⊢
  generalize log2 q = lq at hql hqu ⊢
  have hpl' : (2 : ℚ) ^ (lp : Int) ≤ (p : ℚ) := by
    rw [zpow_natCast]
    exact_mod_cast hpl
  have hpu' : (p : ℚ) < (2 : ℚ) ^ ((lp : Int) + 1) := by
    have h1 : (p : ℚ) < (2 : ℚ) ^ (lp + 1) := by exact_mod_cast hpu
    rw [← zpow_natCast] at h1
    exact_mod_cast h1
  have hql' : (2 : ℚ) ^ (lq : Int) ≤ (q : ℚ) := by
    rw [zpow_natCast]
    exact_mod_cast hql
  have hqu' : (q : ℚ) < (2 : ℚ) ^ ((lq : Int) + 1) := by
    have h1 : (q : ℚ) < (2 : ℚ) ^ (lq + 1) := by exact_mod_cast hqu
    rw [← zpow_natCast] at h1
    exact_mod_cast h1
  have hden : (0 : ℚ) < (q : ℚ) := by exact_mod_cast hq1
  have h2 : (2 : ℚ) ≠ 0 := by norm_num
  have hup : (p : ℚ) / (q : ℚ) < (2 : ℚ) ^ ((lp : Int) - (lq : Int) + 1) := by
    rw [div_lt_iff₀ hden]
    calc (p : ℚ) < (2 : ℚ) ^ ((lp : Int) + 1) := hpu'
      _ = (2 : ℚ) ^ ((lp : Int) - (lq : Int) + 1) * (2 : ℚ) ^ (lq : Int) := by
          rw [← zpow_add₀ h2]
          congr 1
          ring
      _ ≤ (2 : ℚ) ^ ((lp : Int) - (lq : Int) + 1) * (q : ℚ) := by
          apply mul_le_mul_of_nonneg_left hql'
          positivity
  have hlo : (2 : ℚ) ^ ((lp : Int) - (lq : Int) - 1) ≤ (p : ℚ) / (q : ℚ) := by
    rw [le_div_iff₀ hden]
    calc (2 : ℚ) ^ ((lp : Int) - (lq : Int) - 1) * (q : ℚ)
        ≤ (2 : ℚ) ^ ((lp : Int) - (lq : Int) - 1) * (2 : ℚ) ^ ((lq : Int) + 1) := by
          apply mul_le_mul_of_nonneg_left (le_of_lt hqu')
          positivity
      _ = (2 : ℚ) ^ (lp : Int) := by
          rw [← zpow_add₀ h2]
          congr 1
          ring
      _ ≤ (p : ℚ) := hpl'
  rw [← ha] at hup hlo
  split_ifs with hc
  · exact ⟨hc, hup⟩
  · refine ⟨hlo, ?_⟩
    have e1 : (lp : Int) - (lq : Int) - 1 + 1 = (lp : Int) - (lq : Int) := by ring
    rw [e1]
    exact not_le.1 hc

theorem roundHalfEven_intCast (z : Int) : roundHalfEven (z : ℚ) = z := by
  unfold roundHalfEven
  simp

theorem roundHalfEven_sub_le (x : ℚ) : |(roundHalfEven x : ℚ) - x| ≤ 1 / 2 := by
  have h1 := Int.floor_le x
  have h2 := Int.lt_floor_add_one x
  unfold roundHalfEven
  simp only
  split_ifs with ha hb hc
  · rw [abs_le]
    constructor <;> linarith
  · push_cast
    rw [abs_le]
    constructor <;> linarith
  · rw [abs_le]
    constructor <;> linarith
  · push_cast
    rw [abs_le]
    constructor <;> linarith

/-- The error of rounding a magnitude: at most half a unit in the last place. -/
theorem roundMag_error (a r : ℚ) (h : roundMag a = some r) :
    |r - a| ≤ (2 : ℚ) ^ (Max.max (floorLog2 a) (-1022) - 52) / 2 := by
  unfold roundMag at h
  simp only [pow2_eq_zpow] at h
  split_ifs at h
  simp only [Option.some.injEq] at h
  rw [← h]
  set u : ℚ := (2 : ℚ) ^ (Max.max (floorLog2 a) (-1022) - 52) with hu
  have hupos : 0 < u := by positivity
  have h1 := roundHalfEven_sub_le (a / u)
  have h2 : (roundHalfEven (a / u) : ℚ) * u - a = ((roundHalfEven (a / u) : ℚ) - a / u) * u := by
    field_simp
  rw [h2, abs_mul, abs_of_pos hupos]
  calc |(roundHalfEven (a / u) : ℚ) - a / u| * u ≤ 1 / 2 * u :=
        mul_le_mul_of_nonneg_right h1 (le_of_lt hupos)
    _ = u / 2 := by ring

/-- A magnitude that is a whole number of units in the last place is its own
rounding. -/
theorem roundMag_of_int_units (a : ℚ) (z : Int) (h1024 : a < (2 : ℚ) ^ (1024 : Int))
    (hz : a / (2 : ℚ) ^ (Max.max (floorLog2 a) (-1022) - 52) = (z : ℚ)) :
    roundMag a = some a := by
  unfold roundMag
  simp only [pow2_eq_zpow]
  rw [hz, roundHalfEven_intCast, ← hz]
  have hu : (2 : ℚ) ^ (Max.max (floorLog2 a) (-1022) - 52) ≠ 0 := by positivity
  rw [div_mul_cancel₀ _ hu, if_pos h1024]

theorem floorLog2_lt_of_lt (a : ℚ) (ha : 0 < a) (e : Int) (h : a < (2 : ℚ) ^ e) :
    floorLog2 a < e := by
  have h1 := (floorLog2_spec a ha).1
  have h2 : (2 : ℚ) ^ floorLog2 a < (2 : ℚ) ^ e := lt_of_le_of_lt h1 h
  exact (zpow_lt_zpow_iff_right₀ (by norm_num : (1 : ℚ) < 2)).1 h2

theorem le_floorLog2_of_le (a : ℚ) (ha : 0 < a) (e : Int) (h : (2 : ℚ) ^ e ≤ a) :
    e ≤ floorLog2 a := by
  have h1 := (floorLog2_spec a ha).2
  have h2 : (2 : ℚ) ^ e < (2 : ℚ) ^ (floorLog2 a + 1) := lt_of_le_of_lt h h1
  have := (zpow_lt_zpow_iff_right₀ (by norm_num : (1 : ℚ) < 2)).1 h2
  omega

/-- A dyadic rational with a numerator below `2 ^ 53` is a binary64 value. -/
theorem roundMag_dyadic (m j : Nat) (hm : 1 ≤ m) (hm2 : m < 2 ^ 53) (hj : j ≤ 1074) :
    roundMag ((m : ℚ) / (2 : ℚ) ^ j) = some ((m : ℚ) / (2 : ℚ) ^ j) := by
  set a : ℚ := (m : ℚ) / (2 : ℚ) ^ j with ha
  have hapos : 0 < a := by
    have : (0 : ℚ) < (m : ℚ) := by exact_mod_cast hm
    positivity
  have hlt : a < (2 : ℚ) ^ ((53 : Int) - (j : Int)) := by
    rw [ha, zpow_sub₀ (by norm_num : (2 : ℚ) ≠ 0), zpow_natCast]
    apply div_lt_div_of_pos_right _ (by positivity)
    have : (m : ℚ) < (2 : ℚ) ^ (53 : Nat) := by exact_mod_cast hm2
    exact_mod_cast this
  have he := floorLog2_lt_of_lt a hapos _ hlt
  have h1024 : a < (2 : ℚ) ^ (1024 : Int) := by
    apply lt_of_lt_of_le hlt
    apply zpow_le_zpow_right₀ (by norm_num)
    omega
  set e : Int := Max.max (floorLog2 a) (-1022) with hedef
  have hele : e ≤ 52 - (j : Int) := by
    rw [hedef]
    apply max_le
    · omega
    · omega
  obtain ⟨t, ht⟩ := Int.eq_ofNat_of_zero_le (by omega : 0 ≤ 52 - (j : Int) - e)
  apply roundMag_of_int_units a ((m * 2 ^ t : Nat) : Int) h1024
  rw [← hedef, ha]
  have h2 : (2 : ℚ) ≠ 0 := by norm_num
  have e1 : e - 52 = -((j : Int) + (t : Int)) := by omega
  rw [e1, zpow_neg, zpow_add₀ h2, zpow_natCast, zpow_natCast]
  push_cast
  field_simp
  ring

/-- Rounding a positive rational in the normal range: a finite positive number
with a relative error of at most `2 ^ (-53)`. -/
theorem ofRat_error (b : Bool) (q : ℚ) (hlo : (2 : ℚ) ^ (-1022 : Int) ≤ q)
    (hhi : q < (2 : ℚ) ^ (1023 : Int)) :
    ∃ r, ofRat b q = fin r ∧ 0 < r ∧ |r - q| ≤ q / (2 : ℚ) ^ (53 : Nat) := by
  have hq : 0 < q := lt_of_lt_of_le (by positivity) hlo
  have he : -1022 ≤ floorLog2 q := le_floorLog2_of_le q hq _ hlo
  have hmax : Max.max (floorLog2 q) (-1022) = floorLog2 q := max_eq_left he
  have h2 : (2 : ℚ) ≠ 0 := by norm_num
  have hulp : (2 : ℚ) ^ (floorLog2 q - 52) / 2 ≤ q / (2 : ℚ) ^ (53 : Nat) := by
    have h1 := (floorLog2_spec q hq).1
    have e1 : (2 : ℚ) ^ (floorLog2 q - 52) / 2 = (2 : ℚ) ^ floorLog2 q / (2 : ℚ) ^ (53 : Nat) := by
      rw [zpow_sub₀ h2]
      norm_num
      ring
    rw [e1]
    exact div_le_div_of_nonneg_right h1 (by positivity)
  -- the rounding does not overflow
  have hsome : ∃ r, roundMag q = some r := by
    unfold roundMag
    simp only [pow2_eq_zpow]
    rw [hmax]
    have hr := roundHalfEven_sub_le (q / (2 : ℚ) ^ (floorLog2 q - 52))
    have hupos : (0 : ℚ) < (2 : ℚ) ^ (floorLog2 q - 52) := by positivity
    have hbound : (roundHalfEven (q / (2 : ℚ) ^ (floorLog2 q - 52)) : ℚ) *
        (2 : ℚ) ^ (floorLog2 q - 52) < (2 : ℚ) ^ (1024 : Int) := by
      have h3 : (roundHalfEven (q / (2 : ℚ) ^ (floorLog2 q - 52)) : ℚ) ≤
          q / (2 : ℚ) ^ (floorLog2 q - 52) + 1 / 2 := by
        have := (abs_le.1 hr).2
        linarith
      have h4 : (roundHalfEven (q / (2 : ℚ) ^ (floorLog2 q - 52)) : ℚ) *
          (2 : ℚ) ^ (floorLog2 q - 52) ≤ q + (2 : ℚ) ^ (floorLog2 q - 52) / 2 := by
        calc (roundHalfEven (q / (2 : ℚ) ^ (floorLog2 q - 52)) : ℚ) *
              (2 : ℚ) ^ (floorLog2 q - 52)
            ≤ (q / (2 : ℚ) ^ (floorLog2 q - 52) + 1 / 2) * (2 : ℚ) ^ (floorLog2 q - 52) :=
              mul_le_mul_of_nonneg_right h3 (le_of_lt hupos)
          _ = q + (2 : ℚ) ^ (floorLog2 q - 52) / 2 := by
              field_simp
              ring
      have h5 : q / (2 : ℚ) ^ (53 : Nat) ≤ q := by
        apply div_le_self (le_of_lt hq)
        norm_num
      have h6 : (2 : ℚ) ^ (1024 : Int) = 2 * (2 : ℚ) ^ (1023 : Int) := by norm_num
      linarith
    rw [if_pos hbound]
    exact ⟨_, rfl⟩
  obtain ⟨r, hr⟩ := hsome
  have herr := roundMag_error q r hr
  rw [hmax] at herr
  have herr2 : |r - q| ≤ q / (2 : ℚ) ^ (53 : Nat) := le_trans herr hulp
  have hrpos : 0 < r := by
    have h1 := (abs_le.1 herr2).1
    have h5 : q / (2 : ℚ) ^ (53 : Nat) < q := by
      apply div_lt_self hq
      norm_num
    linarith
  refine ⟨r, ?_, hrpos, herr2⟩
  unfold ofRat
  rw [if_neg (ne_of_gt hq), abs_of_pos hq, hr]
  simp only [if_neg (ne_of_gt hrpos), if_neg (not_lt.2 (le_of_lt hq))]

/-- A positive dyadic rational with a numerator below `2 ^ 53` is rounded to
itself. -/
theorem ofRat_dyadic (b : Bool) (m j : Nat) (hm : 1 ≤ m) (hm2 : m < 2 ^ 53) (hj : j ≤ 1074) :
    ofRat b ((m : ℚ) / (2 : ℚ) ^ j) = fin ((m : ℚ) / (2 : ℚ) ^ j) := by
  have hpos : (0 : ℚ) < (m : ℚ) / (2 : ℚ) ^ j := by
    have : (0 : ℚ) < (m : ℚ) := by exact_mod_cast hm
    positivity
  unfold ofRat
  rw [if_neg (ne_of_gt hpos), abs_of_pos hpos, roundMag_dyadic m j hm hm2 hj]
  simp only [if_neg (ne_of_gt hpos), if_neg (not_lt.2 (le_of_lt hpos))]

/-- A natural number below `2 ^ 53` is rounded to itself. -/
theorem ofRat_natCast (m : Nat) (hm2 : m < 2 ^ 53) : ofRat false (m : ℚ) = fin (m : ℚ) := by
  rcases Nat.eq_zero_or_pos m with h | h
  · subst h
    simp [ofRat, zero]
  · have := ofRat_dyadic false m 0 h hm2 (by norm_num)
    simpa using this

/-! ## Facts about the average of a window of natural numbers -/

theorem add_fin_natCast (a z : Nat) (h : a + z < 2 ^ 53) :
    add (fin (a : ℚ)) (fin (z : ℚ)) = fin ((a + z : Nat) : ℚ) := by
  have h1 : ¬ ((a : ℚ) < 0) := not_lt.2 (Nat.cast_nonneg a)
  have h2 : ¬ ((z : ℚ) < 0) := not_lt.2 (Nat.cast_nonneg z)
  have h3 : add (fin (a : ℚ)) (fin (z : ℚ)) = ofRat false ((a : ℚ) + (z : ℚ)) := by
    simp [add, isNeg, toRat, h1]
  rw [h3, ← Nat.cast_add]
  exact ofRat_natCast (a + z) h

/-- The sum of a window of natural numbers is exact below `2 ^ 53`. -/
theorem foldl_add_natCast (zs : List Nat) (a : Nat) (h : a + zs.sum < 2 ^ 53) :
    (zs.map (fun z : Nat => fin (z : ℚ))).foldl add (fin (a : ℚ)) = fin ((a + zs.sum : Nat) : ℚ) := by
  induction zs generalizing a with
  | nil => simp
  | cons z zs ih =>
    rw [List.sum_cons] at h
    rw [List.map_cons, List.foldl_cons, add_fin_natCast a z (by omega), ih (a + z) (by omega),
      List.sum_cons, Nat.add_assoc]

theorem div_fin_natCast (t n : Nat) (hn : 1 ≤ n) :
    div (fin (t : ℚ)) (fin (n : ℚ)) = ofRat false ((t : ℚ) / (n : ℚ)) := by
  have h1 : ¬ ((t : ℚ) < 0) := not_lt.2 (Nat.cast_nonneg t)
  have h2 : ¬ ((n : ℚ) < 0) := not_lt.2 (Nat.cast_nonneg n)
  have h3 : (n : ℚ) ≠ 0 := by
    have : (0 : ℚ) < (n : ℚ) := by exact_mod_cast hn
    exact ne_of_gt this
  simp [div, isInf, isZero, isNeg, toRat, h1, h2, h3]

theorem toFixed_zero_of_nonneg (r : ℚ) (h0 : 0 ≤ r) (h : r < (10 : ℚ) ^ 21) :
    toFixed 0 (fin r) = natDigits ⌊r + 1 / 2⌋.toNat := by
  simp only [toFixed]
  rw [if_neg (not_lt.2 h0)]
  unfold toFixedMag
  rw [if_neg (not_le.2 h)]
  simp

/-- The binary64 quotient of a sum below `2 ^ 52` by a count rounds to the same
integer as the exact quotient. -/
theorem round_quotient (t n : Nat) (hn : 1 ≤ n) (hn2 : n ≤ 2 ^ 52) (ht : t < 2 ^ 52) :
    ∃ r, ofRat false ((t : ℚ) / (n : ℚ)) = fin r ∧ 0 ≤ r ∧ r < (10 : ℚ) ^ 21 ∧
      ⌊r + 1 / 2⌋.toNat = (2 * t + n) / (2 * n) := by
  have hnq : (0 : ℚ) < (n : ℚ) := by exact_mod_cast hn
  rcases Nat.eq_zero_or_pos t with h0 | hpos
  · subst h0
    refine ⟨0, by simp [ofRat, zero], le_refl _, by norm_num, ?_⟩
    have e1 : (2 * 0 + n) / (2 * n) = 0 := by
      apply Nat.div_eq_of_lt
      omega
    rw [e1]
    norm_num
  · have htq : (1 : ℚ) ≤ (t : ℚ) := by exact_mod_cast hpos
    have ht52 : (t : ℚ) < (2 : ℚ) ^ (52 : Nat) := by exact_mod_cast ht
    have hn52 : (n : ℚ) ≤ (2 : ℚ) ^ (52 : Nat) := by exact_mod_cast hn2
    set q : ℚ := (t : ℚ) / (n : ℚ) with hq
    have hqpos : 0 < q := by positivity
    have hqle : q ≤ (t : ℚ) := by
      rw [hq]
      apply div_le_self (by positivity)
      exact_mod_cast hn
    have hlo : (2 : ℚ) ^ (-1022 : Int) ≤ q := by
      have h1 : (2 : ℚ) ^ (-1022 : Int) ≤ 1 / (2 : ℚ) ^ (52 : Nat) := by
        rw [zpow_neg, one_div]
        apply inv_anti₀ (by positivity)
        norm_num
      have h2 : 1 / (2 : ℚ) ^ (52 : Nat) ≤ q := by
        rw [hq]
        apply div_le_div₀ (by positivity) htq hnq hn52
      exact le_trans h1 h2
    have hhi : q < (2 : ℚ) ^ (1023 : Int) := by
      have : (2 : ℚ) ^ (52 : Nat) ≤ (2 : ℚ) ^ (1023 : Int) := by norm_num
      linarith
    obtain ⟨r, hr, hrpos, herr⟩ := ofRat_error false q hlo hhi
    have hr21 : r < (10 : ℚ) ^ 21 := by
      have h1 := (abs_le.1 herr).2
      have h2 : q / (2 : ℚ) ^ (53 : Nat) ≤ q := div_le_self (le_of_lt hqpos) (by norm_num)
      have h3 : (2 : ℚ) ^ (52 : Nat) * 2 < (10 : ℚ) ^ 21 := by norm_num
      linarith
    refine ⟨r, hr, le_of_lt hrpos, hr21, ?_⟩
    set k : Nat := (2 * t + n) / (2 * n) with hk
    have hk1 : 2 * n * k ≤ 2 * t + n := Nat.mul_div_le _ _
    have hk2 : 2 * t + n < 2 * n * (k + 1) := by
      have := Nat.lt_mul_div_succ (2 * t + n) (by omega : 0 < 2 * n)
      rw [hk]
      linarith
    have hk1q : 2 * (n : ℚ) * (k : ℚ) ≤ 2 * (t : ℚ) + (n : ℚ) := by exact_mod_cast hk1
    have hk2q : 2 * (t : ℚ) + (n : ℚ) + 1 ≤ 2 * (n : ℚ) * ((k : ℚ) + 1) := by
      exact_mod_cast hk2
    have htn : (t : ℚ) = q * (n : ℚ) := by
      rw [hq]
      field_simp
    -- the error is below one part in 2 n
    have hsmall : q / (2 : ℚ) ^ (53 : Nat) < 1 / (2 * (n : ℚ)) := by
      rw [div_lt_div_iff₀ (by positivity) (by positivity)]
      have : q * (2 * (n : ℚ)) = 2 * (t : ℚ) := by rw [htn]; ring
      rw [this]
      have : (2 : ℚ) ^ (53 : Nat) = 2 * (2 : ℚ) ^ (52 : Nat) := by norm_num
      linarith
    have h2n : (0 : ℚ) < 2 * (n : ℚ) := by positivity
    have hupper : r + 1 / 2 < (k : ℚ) + 1 := by
      have h1 := (abs_le.1 herr).2
      have h2 : q + 1 / (2 * (n : ℚ)) ≤ (k : ℚ) + 1 / 2 := by
        have e : q + 1 / (2 * (n : ℚ)) = (2 * (t : ℚ) + 1) / (2 * (n : ℚ)) := by
          rw [htn]
          field_simp
          ring
        rw [e, div_le_iff₀ h2n]
        linarith
      linarith
    have hlower : (k : ℚ) ≤ r + 1 / 2 := by
      rcases Nat.eq_zero_or_pos k with hk0 | hkpos
      · rw [hk0]
        push_cast
        linarith
      · by_cases heq : 2 * n * k = 2 * t + n
        · -- the quotient is a half-integer, a binary64 value
          have hm : n * (2 * k - 1) = 2 * t := by
            have h1 : n * (2 * k - 1) = n * (2 * k) - n := by rw [Nat.mul_sub, Nat.mul_one]
            have h2 : n * (2 * k) = 2 * n * k := by ring
            omega
          have hm2 : 2 * k - 1 < 2 ^ 53 := by
            have h1 : 2 * k - 1 ≤ n * (2 * k - 1) := Nat.le_mul_of_pos_left _ (by omega)
            omega
          have hd := ofRat_dyadic false (2 * k - 1) 1 (by omega) hm2 (by norm_num)
          have hqe : ((2 * k - 1 : Nat) : ℚ) / (2 : ℚ) ^ 1 = q := by
            have hmq : (n : ℚ) * ((2 * k - 1 : Nat) : ℚ) = 2 * (t : ℚ) := by exact_mod_cast hm
            rw [hq, pow_one, div_eq_div_iff (by norm_num) (ne_of_gt hnq)]
            linarith
          rw [hqe, hr] at hd
          have hrq : r = q := by
            injection hd
          have hkq : (2 * k - 1 : Nat) = 2 * k - 1 := rfl
          have hcast : ((2 * k - 1 : Nat) : ℚ) = 2 * (k : ℚ) - 1 := by
            have : 2 * k - 1 + 1 = 2 * k := by omega
            have h3 : (((2 * k - 1 : Nat) : ℚ) + 1) = 2 * (k : ℚ) := by exact_mod_cast this
            linarith
          rw [hrq, ← hqe, hcast]
          linarith
        · have hlt : 2 * n * k + 1 ≤ 2 * t + n := by omega
          have hltq : 2 * (n : ℚ) * (k : ℚ) + 1 ≤ 2 * (t : ℚ) + (n : ℚ) := by exact_mod_cast hlt
          have h1 := (abs_le.1 herr).1
          have h2 : (k : ℚ) - 1 / 2 + 1 / (2 * (n : ℚ)) ≤ q := by
            have e : (k : ℚ) - 1 / 2 + 1 / (2 * (n : ℚ)) =
                (2 * (n : ℚ) * (k : ℚ) - (n : ℚ) + 1) / (2 * (n : ℚ)) := by
              field_simp
              ring
            rw [e, div_le_iff₀ h2n]
            have e2 : q * (2 * (n : ℚ)) = 2 * (t : ℚ) := by
              rw [htn]
              ring
            rw [e2]
            linarith
          linarith
    have hfl : ⌊r + 1 / 2⌋ = (k : Int) := by
      rw [Int.floor_eq_iff]
      constructor
      · exact_mod_cast hlower
      · exact_mod_cast hupper
    rw [hfl]
    simp

/-- The average that the tick stores for a window of natural numbers with a sum
below `2 ^ 52`: the exact mean rounded to the nearest integer, a half rounded
up. -/
theorem averageBatteryVoltage_natCast (zs : List Nat) (hne : zs ≠ [])
    (hlen : zs.length ≤ 2 ^ 52) (hsum : zs.sum < 2 ^ 52) :
    averageBatteryVoltage (zs.map (fun z : Nat => fin (z : ℚ))) =
      natDigits ((2 * zs.sum + zs.length) / (2 * zs.length)) ++ "mV".toList := by
  have hn : 1 ≤ zs.length := List.length_pos.2 hne
  have hfold := foldl_add_natCast zs 0 (by omega)
  rw [Nat.cast_zero, Nat.zero_add] at hfold
  obtain ⟨r, hr, hr0, hr21, hfl⟩ := round_quotient zs.sum zs.length hn hlen hsum
  unfold averageBatteryVoltage
  simp only
  rw [hfold, List.length_map, div_fin_natCast _ _ hn, hr, toFixed_zero_of_nonneg r hr0 hr21, hfl]

/-! ## The rounding error of the operations -/

theorem roundHalfEven_nonneg (x : ℚ) (h : 0 ≤ x) : 0 ≤ roundHalfEven x := by
  have hf : 0 ≤ ⌊x⌋ := Int.floor_nonneg.2 h
  unfold roundHalfEven
  simp only
  split_ifs <;> omega

/-- Rounding a magnitude below `2 ^ 1023` does not overflow, and its error is at
most the magnitude over `2 ^ 53`, or `2 ^ (-1075)` in the subnormal range. -/
theorem roundMag_spec (a : ℚ) (ha : 0 < a) (h : a < (2 : ℚ) ^ (1023 : Int)) :
    ∃ r, roundMag a = some r ∧ 0 ≤ r ∧
      |r - a| ≤ a / (2 : ℚ) ^ (53 : Nat) + (2 : ℚ) ^ (-1075 : Int) := by
  have he : floorLog2 a < 1023 := floorLog2_lt_of_lt a ha _ h
  have h2 : (2 : ℚ) ≠ 0 := by norm_num
  set e : Int := Max.max (floorLog2 a) (-1022) with hedef
  have hele : e ≤ 1022 := by
    rw [hedef]
    exact max_le (by omega) (by norm_num)
  set u : ℚ := (2 : ℚ) ^ (e - 52) with hu
  have hupos : 0 < u := by positivity
  have hr := roundHalfEven_sub_le (a / u)
  have hnn := roundHalfEven_nonneg (a / u) (by positivity)
  have hhalf : u / 2 ≤ a / (2 : ℚ) ^ (53 : Nat) + (2 : ℚ) ^ (-1075 : Int) := by
    by_cases hc : -1022 ≤ floorLog2 a
    · have he2 : e = floorLog2 a := by
        rw [hedef]
        exact max_eq_left hc
      have h1 := (floorLog2_spec a ha).1
      have e1 : u / 2 = (2 : ℚ) ^ floorLog2 a / (2 : ℚ) ^ (53 : Nat) := by
        rw [hu, he2, zpow_sub₀ h2]
        norm_num
        ring
      rw [e1]
      have : (2 : ℚ) ^ floorLog2 a / (2 : ℚ) ^ (53 : Nat) ≤ a / (2 : ℚ) ^ (53 : Nat) :=
        div_le_div_of_nonneg_right h1 (by positivity)
      have : (0 : ℚ) < (2 : ℚ) ^ (-1075 : Int) := by positivity
      linarith
    · have he2 : e = -1022 := by
        rw [hedef]
        exact max_eq_right (by omega)
      have e1 : u / 2 = (2 : ℚ) ^ (-1075 : Int) := by
        rw [hu, he2]
        have : (-1022 : Int) - 52 = -1075 + 1 := by norm_num
        rw [this, zpow_add₀ h2]
        norm_num
      rw [e1]
      have : (0 : ℚ) ≤ a / (2 : ℚ) ^ (53 : Nat) := by positivity
      linarith
  have hule : u / 2 ≤ (2 : ℚ) ^ (969 : Int) := by
    have e1 : u / 2 = (2 : ℚ) ^ (e - 53) := by
      rw [hu]
      have : e - 52 = (e - 53) + 1 := by ring
      rw [this, zpow_add₀ h2]
      norm_num
    rw [e1]
    exact zpow_le_zpow_right₀ (by norm_num) (by omega)
  have hmul : (roundHalfEven (a / u) : ℚ) * u - a = ((roundHalfEven (a / u) : ℚ) - a / u) * u := by
    field_simp
  have habs : |(roundHalfEven (a / u) : ℚ) * u - a| ≤ u / 2 := by
    rw [hmul, abs_mul, abs_of_pos hupos]
    calc |(roundHalfEven (a / u) : ℚ) - a / u| * u ≤ 1 / 2 * u :=
          mul_le_mul_of_nonneg_right hr (le_of_lt hupos)
      _ = u / 2 := by ring
  have hbound : (roundHalfEven (a / u) : ℚ) * u < (2 : ℚ) ^ (1024 : Int) := by
    have h1 := (abs_le.1 habs).2
    have h3 : (2 : ℚ) ^ (1023 : Int) + (2 : ℚ) ^ (969 : Int) < (2 : ℚ) ^ (1024 : Int) := by
      norm_num
    linarith
  refine ⟨(roundHalfEven (a / u) : ℚ) * u, ?_, ?_, le_trans habs hhalf⟩
  · unfold roundMag
    simp only [pow2_eq_zpow]
    rw [← hedef, ← hu, if_pos hbound]
  · have : (0 : ℚ) ≤ (roundHalfEven (a / u) : ℚ) := by exact_mod_cast hnn
    positivity

/-- Rounding an exact result below `2 ^ 1023` in magnitude: a finite number
whose error is at most the magnitude over `2 ^ 53`, plus `2 ^ (-1075)`. -/
theorem ofRat_spec (b : Bool) (q : ℚ) (h : |q| < (2 : ℚ) ^ (1023 : Int)) :
    (ofRat b q).isFinite = true ∧
      |(ofRat b q).toRat - q| ≤ |q| / (2 : ℚ) ^ (53 : Nat) + (2 : ℚ) ^ (-1075 : Int) := by
  by_cases hq : q = 0
  · subst hq
    have : (0 : ℚ) ≤ (2 : ℚ) ^ (-1075 : Int) := by positivity
    cases b <;> simpa [ofRat, zero, isFinite, toRat] using this
  · have ha : 0 < |q| := abs_pos.2 hq
    obtain ⟨r, hr, hr0, herr⟩ := roundMag_spec |q| ha h
    unfold ofRat
    rw [if_neg hq, hr]
    simp only
    by_cases hr00 : r = 0
    · rw [if_pos hr00]
      rw [hr00] at herr
      have h1 : (zero (decide (q < 0))).isFinite = true := by
        unfold zero
        split_ifs <;> rfl
      have h2 : (zero (decide (q < 0))).toRat = 0 := by
        unfold zero
        split_ifs <;> rfl
      refine ⟨h1, ?_⟩
      rw [h2, zero_sub, abs_neg]
      rw [zero_sub, abs_neg, abs_abs] at herr
      exact herr
    · rw [if_neg hr00]
      refine ⟨rfl, ?_⟩
      simp only [toRat]
      by_cases hneg : q < 0
      · rw [if_pos hneg]
        rw [abs_of_neg hneg] at herr ⊢
        have : -r - q = -(r - -q) := by ring
        rw [this, abs_neg]
        exact herr
      · rw [if_neg hneg]
        rw [abs_of_nonneg (not_lt.1 hneg)] at herr ⊢
        exact herr

theorem add_of_isFinite (x y : JSNum) (hx : x.isFinite = true) (hy : y.isFinite = true) :
    add x y = ofRat (x.isNeg && y.isNeg) (x.toRat + y.toRat) := by
  cases x <;> cases y <;> first | rfl | (simp [isFinite] at hx hy)

theorem neg_isFinite (y : JSNum) (hy : y.isFinite = true) :
    (neg y).isFinite = true ∧ (neg y).toRat = -y.toRat := by
  cases y with
  | nan => simp [isFinite] at hy
  | posInf => simp [isFinite] at hy
  | negInf => simp [isFinite] at hy
  | negZero => simp [neg, isFinite, toRat]
  | fin q =>
    simp only [neg]
    split_ifs with h
    · simp [isFinite, toRat, h]
    · simp [isFinite, toRat]

theorem sub_of_isFinite (x y : JSNum) (hx : x.isFinite = true) (hy : y.isFinite = true) :
    sub x y = ofRat (x.isNeg && (neg y).isNeg) (x.toRat - y.toRat) := by
  unfold sub
  rw [add_of_isFinite x (neg y) hx (neg_isFinite y hy).1, (neg_isFinite y hy).2, sub_eq_add_neg]

theorem mul_of_isFinite (x y : JSNum) (hx : x.isFinite = true) (hy : y.isFinite = true) :
    mul x y = ofRat (xor x.isNeg y.isNeg) (x.toRat * y.toRat) := by
  cases x <;> cases y <;> first | rfl | (simp [isFinite] at hx hy)

theorem div_of_isFinite (x y : JSNum) (hx : x.isFinite = true) (hy : y.isFinite = true)
    (h0 : y.toRat ≠ 0) : div x y = ofRat (xor x.isNeg y.isNeg) (x.toRat / y.toRat) := by
  have hq : ∃ q, y = fin q ∧ q ≠ 0 := by
    cases y with
    | nan => simp [isFinite] at hy
    | posInf => simp [isFinite] at hy
    | negInf => simp [isFinite] at hy
    | negZero => exact absurd rfl h0
    | fin q => exact ⟨q, rfl, h0⟩
  obtain ⟨q, rfl, hq0⟩ := hq
  cases x with
  | nan => simp [isFinite] at hx
  | posInf => simp [isFinite] at hx
  | negInf => simp [isFinite] at hx
  | negZero => simp [div, isInf, isZero, toRat, hq0]
  | fin p => simp [div, isInf, isZero, toRat, hq0]

/-- Rounding an exact result of at most `4 * 10 ^ 9` in magnitude: a finite
number within `10 ^ (-6)` of it. -/
theorem ofRat_near (b : Bool) (q : ℚ) (h : |q| ≤ 4 * (10 : ℚ) ^ 9) :
    (ofRat b q).isFinite = true ∧ |(ofRat b q).toRat - q| ≤ 1 / (10 : ℚ) ^ 6 := by
  have h1 : |q| < (2 : ℚ) ^ (1023 : Int) := lt_of_le_of_lt h (by norm_num)
  obtain ⟨hf, herr⟩ := ofRat_spec b q h1
  refine ⟨hf, le_trans herr ?_⟩
  have h2 : |q| / (2 : ℚ) ^ (53 : Nat) ≤ 4 * (10 : ℚ) ^ 9 / (2 : ℚ) ^ (53 : Nat) :=
    div_le_div_of_nonneg_right h (by positivity)
  have h3 : (2 : ℚ) ^ (-1075 : Int) ≤ 1 / (10 : ℚ) ^ 7 := by
    rw [zpow_neg, one_div]
    apply inv_anti₀ (by positivity)
    norm_num
  have h4 : 4 * (10 : ℚ) ^ 9 / (2 : ℚ) ^ (53 : Nat) + 1 / (10 : ℚ) ^ 7 ≤ 1 / (10 : ℚ) ^ 6 := by
    norm_num
  linarith

theorem mul_near (x y : JSNum) (hx : x.isFinite = true) (hy : y.isFinite = true)
    (h : |x.toRat * y.toRat| ≤ 4 * (10 : ℚ) ^ 9) :
    (mul x y).isFinite = true ∧ |(mul x y).toRat - x.toRat * y.toRat| ≤ 1 / (10 : ℚ) ^ 6 := by
  rw [mul_of_isFinite x y hx hy]
  exact ofRat_near _ _ h

theorem sub_near (x y : JSNum) (hx : x.isFinite = true) (hy : y.isFinite = true)
    (h : |x.toRat - y.toRat| ≤ 4 * (10 : ℚ) ^ 9) :
    (sub x y).isFinite = true ∧ |(sub x y).toRat - (x.toRat - y.toRat)| ≤ 1 / (10 : ℚ) ^ 6 := by
  rw [sub_of_isFinite x y hx hy]
  exact ofRat_near _ _ h

theorem div_near (x y : JSNum) (hx : x.isFinite = true) (hy : y.isFinite = true)
    (h0 : y.toRat ≠ 0) (h : |x.toRat / y.toRat| ≤ 4 * (10 : ℚ) ^ 9) :
    (div x y).isFinite = true ∧ |(div x y).toRat - x.toRat / y.toRat| ≤ 1 / (10 : ℚ) ^ 6 := by
  rw [div_of_isFinite x y hx hy h0]
  exact ofRat_near _ _ h

theorem isInteger_isFinite (x : JSNum) (z : Int) (h : IsInteger x z) :
    x.isFinite = true ∧ x.toRat = (z : ℚ) := by
  rcases h with h | ⟨h, hz⟩
  · rw [h]
    exact ⟨rfl, rfl⟩
  · rw [h, hz]
    exact ⟨rfl, by simp [toRat]⟩

/-- The exact percentage as one quotient of integers. -/
theorem exactPercentage_eq (V I : Int) :
    exactPercentage V I = ((10 * V - I - 96000 : Int) : ℚ) / 240 := by
  unfold exactPercentage
  push_cast
  ring

/-- For integer readings of at most `10 ^ 9` in magnitude, the percentage that
the code computes in binary64 arithmetic is finite and within `1 / 4000` of the
exact percentage `(10 V - I - 96000) / 240`. -/
theorem rawPercentage_near (x y : JSNum) (V I : Int) (hx : IsInteger x V) (hy : IsInteger y I)
    (hV : |V| ≤ 10 ^ 9) (hI : |I| ≤ 10 ^ 9) :
    (rawPercentage x y).isFinite = true ∧
      |(rawPercentage x y).toRat - ((10 * V - I - 96000 : Int) : ℚ) / 240| ≤ 1 / 4000 := by
  obtain ⟨hxf, hxr⟩ := isInteger_isFinite x V hx
  obtain ⟨hyf, hyr⟩ := isInteger_isFinite y I hy
  have hVq : |(V : ℚ)| ≤ (10 : ℚ) ^ 9 := by exact_mod_cast hV
  have hIq : |(I : ℚ)| ≤ (10 : ℚ) ^ 9 := by exact_mod_cast hI
  obtain ⟨hV1, hV2⟩ := abs_le.1 hVq
  obtain ⟨hI1, hI2⟩ := abs_le.1 hIq
  unfold rawPercentage
  simp only [fullVoltage_sub_emptyVoltage, internalResistance_eq]
  simp only [emptyVoltage]
  -- the voltage sag
  have hcf : (fin (3602879701896397 / 36028797018963968)).isFinite = true := rfl
  have hcr : (fin (3602879701896397 / 36028797018963968)).toRat =
      3602879701896397 / 36028797018963968 := rfl
  obtain ⟨h1f, h1e⟩ := mul_near (fin (3602879701896397 / 36028797018963968)) y hcf hyf (by
    rw [hcr, hyr, abs_le]
    constructor <;> linarith)
  rw [hcr, hyr] at h1e
  generalize mul (fin (3602879701896397 / 36028797018963968)) y = s1 at h1f h1e ⊢
  obtain ⟨h1a, h1b⟩ := abs_le.1 h1e
  -- the adjusted voltage
  obtain ⟨h2f, h2e⟩ := sub_near x s1 hxf h1f (by
    rw [hxr, abs_le]
    constructor <;> linarith)
  rw [hxr] at h2e
  generalize sub x s1 = a1 at h2f h2e ⊢
  obtain ⟨h2a, h2b⟩ := abs_le.1 h2e
  -- minus the empty voltage
  have h9f : (fin 9600).isFinite = true := rfl
  have h9r : (fin 9600).toRat = 9600 := rfl
  obtain ⟨h3f, h3e⟩ := sub_near a1 (fin 9600) h2f h9f (by
    rw [h9r, abs_le]
    constructor <;> linarith)
  rw [h9r] at h3e
  generalize sub a1 (fin 9600) = a2 at h3f h3e ⊢
  obtain ⟨h3a, h3b⟩ := abs_le.1 h3e
  -- divided by the span
  have h24f : (fin 2400).isFinite = true := rfl
  have h24r : (fin 2400).toRat = 2400 := rfl
  obtain ⟨h4f, h4e⟩ := div_near a2 (fin 2400) h3f h24f (by rw [h24r]; norm_num) (by
    rw [h24r, abs_le]
    constructor <;> linarith)
  rw [h24r] at h4e
  generalize div a2 (fin 2400) = a3 at h4f h4e ⊢
  obtain ⟨h4a, h4b⟩ := abs_le.1 h4e
  -- times one hundred
  have h100f : (fin 100).isFinite = true := rfl
  have h100r : (fin 100).toRat = 100 := rfl
  obtain ⟨h5f, h5e⟩ := mul_near a3 (fin 100) h4f h100f (by
    rw [h100r, abs_le]
    constructor <;> linarith)
  rw [h100r] at h5e
  obtain ⟨h5a, h5b⟩ := abs_le.1 h5e
  refine ⟨h5f, ?_⟩
  push_cast
  rw [abs_le]
  constructor <;> linarith

/-- Clamping a finite number is clamping its value. -/
theorem clamp_of_isFinite (x : JSNum) (h : x.isFinite = true) :
    JSNum.max (fin 0) (JSNum.min (fin 100) x) = fin (Max.max 0 (Min.min 100 x.toRat)) := by
  cases x with
  | nan => simp [isFinite] at h
  | posInf => simp [isFinite] at h
  | negInf => simp [isFinite] at h
  | negZero => simp [JSNum.max, JSNum.min, below, toRat]
  | fin q =>
    simp only [toRat]
    by_cases h100 : q < 100
    · by_cases h0 : 0 < q
      · simp [JSNum.max, JSNum.min, below, h100, h0, le_of_lt h100, le_of_lt h0]
      · simp [JSNum.max, JSNum.min, below, h100, h0, le_of_lt h100, not_lt.1 h0]
    · simp [JSNum.max, JSNum.min, below, h100, not_lt.1 h100]

theorem abs_clamp_sub_le (v e : ℚ) (h0 : 0 ≤ e) (h100 : e ≤ 100) :
    |Max.max 0 (Min.min 100 v) - e| ≤ |v - e| := by
  rcases le_total v 0 with hv | hv
  · have h1 : Max.max 0 (Min.min 100 v) = 0 := by
      apply max_eq_left
      exact le_trans (min_le_right _ _) hv
    rw [h1, abs_le]
    have h2 : |v - e| = e - v := by
      rw [abs_of_nonpos (by linarith)]
      ring
    rw [h2]
    constructor <;> linarith
  · rcases le_total v 100 with hv1 | hv1
    · have h1 : Max.max 0 (Min.min 100 v) = v := by
        rw [min_eq_right hv1, max_eq_right hv]
      rw [h1]
    · have h1 : Max.max 0 (Min.min 100 v) = 100 := by
        rw [min_eq_left hv1, max_eq_right (by norm_num)]
      rw [h1, abs_le]
      have h2 : |v - e| = v - e := abs_of_nonneg (by linarith)
      rw [h2]
      constructor <;> linarith

/-- For integer readings of at most `10 ^ 9` in magnitude whose exact percentage
`(10 V - I - 96000) / 240` lies in `[0, 100]`, the stored text is a number of
hundredths nearest to the exact percentage, written with two decimal places. -/
theorem storedPercentage_nearest (d : Obj Str) (V I : Int)
    (hx : IsInteger (parseInt (Obj.get d "Battery voltage".toList)) V)
    (hy : IsInteger (parseInt (Obj.get d "Battery discharge current".toList)) I)
    (hV : |V| ≤ 10 ^ 9) (hI : |I| ≤ 10 ^ 9)
    (h0 : 0 ≤ 10 * V - I - 96000) (h100 : 10 * V - I - 96000 ≤ 24000) :
    ∃ n : Nat, storedPercentage d = twoDecimals n ∧
      |(n : ℚ) / 100 - ((10 * V - I - 96000 : Int) : ℚ) / 240| ≤ 1 / 200 := by
  obtain ⟨hf, herr⟩ := rawPercentage_near _ _ V I hx hy hV hI
  set m : Int := 10 * V - I - 96000 with hm
  have hm0 : (0 : ℚ) ≤ (m : ℚ) := by exact_mod_cast h0
  have hm1 : (m : ℚ) ≤ 24000 := by exact_mod_cast h100
  have he0 : (0 : ℚ) ≤ (m : ℚ) / 240 := by positivity
  have he1 : (m : ℚ) / 240 ≤ 100 := by
    rw [div_le_iff₀ (by norm_num)]
    linarith
  unfold storedPercentage
  rw [clamp_of_isFinite _ hf]
  set v : ℚ := (rawPercentage (parseInt (Obj.get d "Battery voltage".toList))
    (parseInt (Obj.get d "Battery discharge current".toList))).toRat with hv
  set p : ℚ := Max.max 0 (Min.min 100 v) with hp
  have hp0 : 0 ≤ p := le_max_left _ _
  have hp100 : p ≤ 100 := max_le (by norm_num) (min_le_left _ _)
  have hpe : |p - (m : ℚ) / 240| ≤ 1 / 4000 :=
    le_trans (abs_clamp_sub_le v _ he0 he1) herr
  obtain ⟨hfix, _⟩ := toFixed_two_of_nonneg p hp0 hp100
  refine ⟨⌊p * (10 : ℚ) ^ 2 + 1 / 2⌋.toNat, hfix, ?_⟩
  have hfl0 : 0 ≤ ⌊p * (10 : ℚ) ^ 2 + 1 / 2⌋ := Int.floor_nonneg.2 (by positivity)
  obtain ⟨n, hn⟩ := Int.eq_ofNat_of_zero_le hfl0
  have hn1 := Int.floor_le (p * (10 : ℚ) ^ 2 + 1 / 2)
  have hn2 := Int.lt_floor_add_one (p * (10 : ℚ) ^ 2 + 1 / 2)
  rw [hn] at hn1 hn2 ⊢
  simp only [Int.toNat_ofNat]
  push_cast at hn1 hn2
  obtain ⟨hpe1, hpe2⟩ := abs_le.1 hpe
  -- twelve times the hundredths and five times the numerator differ by at most six
  have hlt : |(12 * (n : Int) - 5 * m : Int)| < 7 := by
    have h1 : |((12 * (n : Int) - 5 * m : Int) : ℚ)| < 7 := by
      push_cast
      rw [abs_lt]
      constructor <;> linarith
    exact_mod_cast h1
  have hle : |(12 * (n : Int) - 5 * m : Int)| ≤ 6 := by omega
  have hleq : |((12 * (n : Int) - 5 * m : Int) : ℚ)| ≤ 6 := by exact_mod_cast hle
  push_cast at hleq
  obtain ⟨h6a, h6b⟩ := abs_le.1 hleq
  rw [abs_le]
  constructor <;> linarith

/-! ## Facts about `parseInt` and `Number` on runs of digits -/

theorem isRadixDigit_ten (c : Char) : isRadixDigit 10 c = isDigit c := by
  unfold isRadixDigit digitValue isDigit
  by_cases h : (decide (48 ≤ c.toNat) && decide (c.toNat ≤ 57)) = true
  · rw [if_pos h, h]
    simp only [Bool.and_eq_true, decide_eq_true_eq] at h
    simp only [decide_eq_true_eq]
    omega
  · rw [if_neg h]
    simp only [Bool.not_eq_true] at h
    rw [h]
    simp only [Bool.and_eq_true, decide_eq_true_eq, decide_eq_false_iff_not]
    split_ifs <;> omega

theorem parseInt_of_not_startsWithInteger (v : Str) (h : startsWithInteger v = false) :
    parseInt (some v) = nan := by
  unfold startsWithInteger at h
  unfold parseInt
  simp only [Option.getD_some]
  rcases hs : (readSign (v.dropWhile isWhiteSpace)).2 with _ | ⟨c, t⟩
  · simp
  · rw [hs] at h
    simp only at h
    have hz : (c :: t).takeWhile (isRadixDigit 10) = [] := by
      rw [List.takeWhile_cons, isRadixDigit_ten, h]
      simp
    have hz2 : List.takeWhile
        (isRadixDigit
          (match c :: t with
            | '0' :: 'x' :: t => ((16 : Nat), t)
            | '0' :: 'X' :: t => (16, t)
            | _ => (10, c :: t)).1)
        (match c :: t with
          | '0' :: 'x' :: t => ((16 : Nat), t)
          | '0' :: 'X' :: t => (16, t)
          | _ => (10, c :: t)).2 = [] := by
      split
      · rename_i heq
        simp only [List.cons.injEq] at heq
        rw [heq.1] at h
        exact absurd h (by decide)
      · rename_i heq
        simp only [List.cons.injEq] at heq
        rw [heq.1] at h
        exact absurd h (by decide)
      · exact hz
    exact if_pos hz2

theorem parseInt_of_lacksInteger (d : Obj Str) (k : Str) (h : LacksInteger d k) :
    parseInt (Obj.get d k) = nan := by
  unfold LacksInteger at h
  rcases hg : Obj.get d k with _ | v
  · decide
  · rw [hg] at h
    exact parseInt_of_not_startsWithInteger v h

theorem rawPercentage_nan_left (y : JSNum) : rawPercentage nan y = nan := by
  unfold rawPercentage
  simp only [sub, add, div, mul]

theorem rawPercentage_nan_right (x : JSNum) : rawPercentage x nan = nan := by
  unfold rawPercentage
  have h1 : mul internalResistance nan = nan := by
    rw [internalResistance_eq]
    simp [mul]
  simp only [h1]
  cases x <;> simp [sub, add, neg, div, mul]

theorem storedPercentage_of_lacksInteger (d : Obj Str)
    (h : LacksInteger d "Battery voltage".toList ∨
      LacksInteger d "Battery discharge current".toList) :
    storedPercentage d = "NaN".toList := by
  unfold storedPercentage
  have hraw : rawPercentage (parseInt (Obj.get d "Battery voltage".toList))
      (parseInt (Obj.get d "Battery discharge current".toList)) = nan := by
    rcases h with h | h
    · rw [parseInt_of_lacksInteger d _ h, rawPercentage_nan_left]
    · rw [parseInt_of_lacksInteger d _ h, rawPercentage_nan_right]
  rw [hraw]
  decide

theorem removeFirst_digits (ds : Str) (hds : ∀ c ∈ ds, isDigit c = true) :
    removeFirst "mV".toList ds = ds := by
  induction ds with
  | nil => rfl
  | cons c cs ih =>
    have hc : isDigit c = true := hds c (List.mem_cons_self _ _)
    have hne : c ≠ 'm' := by
      intro h
      rw [h] at hc
      exact absurd hc (by decide)
    unfold removeFirst
    have hp : List.isPrefixOf "mV".toList (c :: cs) = false := by
      show List.isPrefixOf ('m' :: 'V' :: []) (c :: cs) = false
      rw [List.isPrefixOf]
      simp [Ne.symm hne]
    rw [hp]
    simp only [Bool.false_eq_true, if_false]
    rw [ih (fun d hd => hds d (List.mem_cons_of_mem _ hd))]

theorem removeFirst_digits_mV (ds : Str) (hds : ∀ c ∈ ds, isDigit c = true) :
    removeFirst "mV".toList (ds ++ "mV".toList) = ds := by
  induction ds with
  | nil => decide
  | cons c cs ih =>
    have hc : isDigit c = true := hds c (List.mem_cons_self _ _)
    have hne : c ≠ 'm' := by
      intro h
      rw [h] at hc
      exact absurd hc (by decide)
    rw [List.cons_append]
    unfold removeFirst
    have hp : List.isPrefixOf "mV".toList (c :: (cs ++ "mV".toList)) = false := by
      show List.isPrefixOf ('m' :: 'V' :: []) (c :: (cs ++ "mV".toList)) = false
      rw [List.isPrefixOf]
      simp [Ne.symm hne]
    rw [hp]
    simp only [Bool.false_eq_true, if_false]
    rw [ih (fun d hd => hds d (List.mem_cons_of_mem _ hd))]

theorem trim_digits (ds : Str) (hds : ∀ c ∈ ds, isDigit c = true) : trim ds = ds := by
  have hws : ∀ c ∈ ds, isWhiteSpace c = false :=
    fun c hc => not_isWhiteSpace_of_isDigit c (hds c hc)
  unfold trim
  have h1 : ∀ l : Str, (∀ c ∈ l, isWhiteSpace c = false) → l.dropWhile isWhiteSpace = l := by
    intro l hl
    cases l with
    | nil => rfl
    | cons a l => rw [List.dropWhile_cons, hl a (List.mem_cons_self _ _)]; simp
  rw [h1 ds hws, h1 ds.reverse (fun c hc => hws c (List.mem_reverse.1 hc)), List.reverse_reverse]

theorem nonDecimalLiteral_digits (ds : Str) (hds : ∀ c ∈ ds, isDigit c = true) :
    nonDecimalLiteral ds = none := by
  unfold nonDecimalLiteral
  split
  · rename_i c rest
    have hc : isDigit c = true := hds c (by simp)
    have h1 : ¬ (c = 'x' ∨ c = 'X') := by
      rintro (h | h) <;> rw [h] at hc <;> exact absurd hc (by decide)
    have h2 : ¬ (c = 'o' ∨ c = 'O') := by
      rintro (h | h) <;> rw [h] at hc <;> exact absurd hc (by decide)
    have h3 : ¬ (c = 'b' ∨ c = 'B') := by
      rintro (h | h) <;> rw [h] at hc <;> exact absurd hc (by decide)
    simp only [if_neg h1, if_neg h2, if_neg h3]
    simp
  · rfl

theorem toNumber_digits (ds : Str) (hne : ds ≠ []) (hds : ∀ c ∈ ds, isDigit c = true) :
    toNumber ds = ofRat false (digitsValue 10 ds : ℚ) := by
  unfold toNumber
  simp only [trim_digits ds hds, if_neg hne, nonDecimalLiteral_digits ds hds]
  obtain ⟨d, t, rfl⟩ := List.exists_cons_of_ne_nil hne
  unfold strDecimalLiteral
  rw [readSign_of_isDigit d t (hds d (List.mem_cons_self _ _))]
  have h := unsignedDecimalLiteral_numeral (d :: t) [] hne hds (Or.inl rfl)
  simp only [List.append_nil, List.drop_nil, List.length_nil, pow_zero, div_one] at h
  simp only [h]
  simp

theorem parseInt_digits (ds rest : Str) (hne : ds ≠ []) (hds : ∀ c ∈ ds, isDigit c = true)
    (hrest : ∀ c, rest.head? = some c → isDigit c = false ∧ c ≠ 'x' ∧ c ≠ 'X') :
    parseInt (some (ds ++ rest)) = ofRat false (digitsValue 10 ds : ℚ) := by
  obtain ⟨d, t, rfl⟩ := List.exists_cons_of_ne_nil hne
  have hd : isDigit d = true := hds d (List.mem_cons_self _ _)
  have hw : isWhiteSpace d = false := not_isWhiteSpace_of_isDigit d hd
  have hfun : isRadixDigit 10 = isDigit := funext isRadixDigit_ten
  have htake : (d :: t ++ rest).takeWhile (isRadixDigit 10) = d :: t := by
    rw [hfun]
    exact takeWhile_append_stop isDigit (d :: t) rest hds (fun c hc => (hrest c hc).1)
  unfold parseInt
  simp only [Option.getD_some, List.cons_append, List.dropWhile_cons, hw, Bool.false_eq_true,
    if_false]
  rw [readSign_of_isDigit d _ hd]
  have hz2 : List.takeWhile
      (isRadixDigit
        (match d :: (t ++ rest) with
          | '0' :: 'x' :: t => ((16 : Nat), t)
          | '0' :: 'X' :: t => (16, t)
          | _ => (10, d :: (t ++ rest))).1)
      (match d :: (t ++ rest) with
        | '0' :: 'x' :: t => ((16 : Nat), t)
        | '0' :: 'X' :: t => (16, t)
        | _ => (10, d :: (t ++ rest))).2 = d :: t ∧
      (match d :: (t ++ rest) with
          | '0' :: 'x' :: t => ((16 : Nat), t)
          | '0' :: 'X' :: t => (16, t)
          | _ => (10, d :: (t ++ rest))).1 = 10 := by
    have hx : ∀ (c : Char) (u : Str), t ++ rest = c :: u → c ≠ 'x' ∧ c ≠ 'X' := by
      intro c u hcu
      cases t with
      | nil =>
        rw [List.nil_append] at hcu
        exact (hrest c (by rw [hcu]; rfl)).2
      | cons e t1 =>
        rw [List.cons_append] at hcu
        have hec : e = c := (List.cons.inj hcu).1
        have he : isDigit c = true := hec ▸ hds e (by simp)
        constructor <;> intro h <;> rw [h] at he <;> exact absurd he (by decide)
    split
    · rename_i heq
      simp only [List.cons.injEq] at heq
      exact absurd rfl (hx _ _ heq.2).1
    · rename_i heq
      simp only [List.cons.injEq] at heq
      exact absurd rfl (hx _ _ heq.2).2
    · exact ⟨htake, rfl⟩
  have key : ∀ p : Nat × Str, p.2.takeWhile (isRadixDigit p.1) = d :: t → p.1 = 10 →
      (if p.2.takeWhile (isRadixDigit p.1) = [] then nan
        else ofRat false
          (if false = true then -(digitsValue p.1 (p.2.takeWhile (isRadixDigit p.1)) : ℚ)
            else (digitsValue p.1 (p.2.takeWhile (isRadixDigit p.1)) : ℚ))) =
        ofRat false (digitsValue 10 (d :: t) : ℚ) := by
    intro p h1 h2
    rw [h1, h2]
    simp
  exact key _ hz2.1 hz2.2

/-! ## Facts about the fragments of a line -/

theorem split_of_not_mem (sep : Char) (s : Str) (h : ∀ c ∈ s, c ≠ sep) : split sep s = [s] := by
  induction s with
  | nil => rfl
  | cons c cs ih =>
    unfold split
    rw [if_neg (h c (List.mem_cons_self _ _)), ih (fun d hd => h d (List.mem_cons_of_mem _ hd))]

theorem count_eq_zero_of_ne (sep : Char) (s : Str) (h : ∀ c ∈ s, c ≠ sep) : s.count sep = 0 :=
  List.count_eq_zero.2 (fun hm => h sep hm rfl)

theorem parseLine_of_one_sep (d : Obj Str) (a b : Str) (ha : ∀ c ∈ a, c ≠ '=')
    (hb : ∀ c ∈ b, c ≠ '=') :
    parseLine d (a ++ '=' :: b) = Obj.set d (trim a) (trim b) := by
  have hs : split '=' (a ++ '=' :: b) = [a, b] := by
    rw [split_append_sep, split_of_not_mem '=' a ha, split_of_not_mem '=' b hb]
    rfl
  have ht : trim (a ++ '=' :: b) ≠ [] :=
    trim_ne_nil_of_mem '=' _ (by simp) (by decide)
  unfold parseLine
  rw [if_pos (List.length_pos.2 ht), hs]

theorem parseLine_of_no_sep (d : Obj Str) (a : Str) (ha : ∀ c ∈ a, c ≠ '=') :
    parseLine d a = d :=
  parseLine_of_count_ne_one d a (by rw [count_eq_zero_of_ne '=' a ha]; decide)

/-! ## Facts about the first numeral of a text -/

theorem head?_of_take_one (P : Char → Prop) (l : Str) (h : ∀ c ∈ l.take 1, P c) :
    ∀ c, l.head? = some c → P c := by
  intro c hc
  cases l with
  | nil => simp at hc
  | cons a l =>
    simp only [List.head?_cons, Option.some.injEq] at hc
    subst hc
    exact h a (by simp)

theorem matchDigits_none_of_head (sg t : Str) (h : ∀ c, t.head? = some c → isDigit c = false) :
    matchDigits sg t = none := by
  have h0 : t.takeWhile isDigit = [] := by
    cases t with
    | nil => rfl
    | cons a t => rw [List.takeWhile_cons, h a rfl]; simp
  unfold matchDigits
  simp only [h0, if_true]

theorem matchDigits_first (sg ds frac ws unit rest : Str) (hne : ds ≠ [])
    (hds : ∀ c ∈ ds, isDigit c = true)
    (hfrac : (frac = [] ∧ ∀ c, (ws ++ (unit ++ rest)).head? = some c → c ≠ '.') ∨
      (frac.take 1 = ['.'] ∧ ∀ c ∈ frac.drop 1, isDigit c = true))
    (hfmax : ∀ c, (ws ++ (unit ++ rest)).head? = some c → isDigit c = false)
    (hws : ∀ c ∈ ws, isWhiteSpace c = true)
    (hwmax : ∀ c, (unit ++ rest).head? = some c → isWhiteSpace c = false)
    (hunit : ∀ c ∈ unit, isAsciiLetter c = true)
    (humax : ∀ c, rest.head? = some c → isAsciiLetter c = false) :
    matchDigits sg (ds ++ (frac ++ (ws ++ (unit ++ rest)))) =
      some [sg ++ (ds ++ (frac ++ (ws ++ unit))), sg ++ (ds ++ frac), unit] := by
  have hW1 := takeWhile_append_stop isWhiteSpace ws (unit ++ rest) hws hwmax
  have hW2 := dropWhile_append_stop isWhiteSpace ws (unit ++ rest) hws hwmax
  have hU := takeWhile_append_stop isAsciiLetter unit rest hunit humax
  rcases hfrac with ⟨rfl, hnd⟩ | ⟨hdot, hfs⟩
  · have hT := takeWhile_append_stop isDigit ds (ws ++ (unit ++ rest)) hds hfmax
    have hD := dropWhile_append_stop isDigit ds (ws ++ (unit ++ rest)) hds hfmax
    have hT0 : (ws ++ (unit ++ rest)).takeWhile isDigit = [] := by
      simpa using takeWhile_append_stop isDigit [] (ws ++ (unit ++ rest)) (by simp) hfmax
    have hD0 : (ws ++ (unit ++ rest)).dropWhile isDigit = ws ++ (unit ++ rest) := by
      simpa using dropWhile_append_stop isDigit [] (ws ++ (unit ++ rest)) (by simp) hfmax
    have hnodot : ∀ r1, ws ++ (unit ++ rest) ≠ '.' :: r1 := by
      intro r1 hr
      exact hnd '.' (by rw [hr]; rfl) rfl
    unfold matchDigits
    simp only [List.nil_append, hT, hD, hne, if_false]
    simp [hT0, hD0, hW1, hW2, hU]
  · obtain ⟨f, fr, rfl⟩ : ∃ f fr, frac = f :: fr := by
      cases frac with
      | nil => simp at hdot
      | cons f fr => exact ⟨f, fr, rfl⟩
    have hf : f = '.' := by simpa using hdot
    subst hf
    simp only [List.drop_succ_cons, List.drop_zero] at hfs
    have hstop1 : ∀ c, ('.' :: fr ++ (ws ++ (unit ++ rest))).head? = some c →
        isDigit c = false := by
      intro c hc
      simp only [List.cons_append, List.head?_cons, Option.some.injEq] at hc
      subst hc
      decide
    have hT := takeWhile_append_stop isDigit ds ('.' :: fr ++ (ws ++ (unit ++ rest))) hds hstop1
    have hD := dropWhile_append_stop isDigit ds ('.' :: fr ++ (ws ++ (unit ++ rest))) hds hstop1
    have hT2 := takeWhile_append_stop isDigit fr (ws ++ (unit ++ rest)) hfs hfmax
    have hD2 := dropWhile_append_stop isDigit fr (ws ++ (unit ++ rest)) hfs hfmax
    unfold matchDigits
    simp only [hT, hD, hne, if_false]
    simp [hT2, hD2, hW1, hW2, hU]

theorem matchHere_of_not_digit (c : Char) (t : Str) (hc : isDigit c = false)
    (ht : c = '-' → ∀ d, t.head? = some d → isDigit d = false) :
    matchHere (c :: t) = none := by
  have h0 : matchDigits [] (c :: t) = none :=
    matchDigits_none_of_head [] (c :: t) (fun d hd => by
      simp only [List.head?_cons, Option.some.injEq] at hd
      subst hd
      exact hc)
  unfold matchHere
  split
  · rename_i t1 heq
    simp only [List.cons.injEq] at heq
    obtain ⟨h1, h2⟩ := heq
    subst h2
    rw [matchDigits_none_of_head ['-'] t (ht h1)]
    exact h0
  · exact h0

theorem regexMatch_skip (pre t : Str) (hpre : ∀ c ∈ pre, isDigit c = false)
    (hlast : pre.getLast? = some '-' → ∀ d, t.head? = some d → isDigit d = false) :
    regexMatch (pre ++ t) = regexMatch t := by
  induction pre with
  | nil => rfl
  | cons c p ih =>
    rw [List.cons_append]
    have hc : isDigit c = false := hpre c (List.mem_cons_self _ _)
    have hm : matchHere (c :: (p ++ t)) = none := by
      apply matchHere_of_not_digit c (p ++ t) hc
      intro hminus d hd
      cases p with
      | nil =>
        rw [List.nil_append] at hd
        exact hlast (by rw [hminus]; rfl) d hd
      | cons e p1 =>
        simp only [List.cons_append, List.head?_cons, Option.some.injEq] at hd
        subst hd
        exact hpre e (by simp)
    have ih2 := ih (fun d hd => hpre d (List.mem_cons_of_mem _ hd)) (by
      intro hl
      cases p with
      | nil => simp at hl
      | cons e p1 =>
        apply hlast
        rw [List.getLast?_cons_cons]
        exact hl)
    rw [← ih2]
    conv_lhs => unfold regexMatch
    rw [hm]

theorem regexMatch_firstNumeral (value pre sign ds frac ws unit rest : Str)
    (h : FirstNumeral value pre sign ds frac ws unit rest) :
    regexMatch value =
      some [sign ++ (ds ++ (frac ++ (ws ++ unit))), sign ++ (ds ++ frac), unit] := by
  obtain ⟨hv, hpre, hsign, hne, hds, hfrac, hfmax, hws, hwmax, hunit, humax⟩ := h
  have hfrac2 : (frac = [] ∧ ∀ c, (ws ++ (unit ++ rest)).head? = some c → c ≠ '.') ∨
      (frac.take 1 = ['.'] ∧ ∀ c ∈ frac.drop 1, isDigit c = true) := by
    rcases hfrac with ⟨h1, h2⟩ | h
    · exact Or.inl ⟨h1, head?_of_take_one _ _ h2⟩
    · exact Or.inr h
  have hm := fun sg => matchDigits_first sg ds frac ws unit rest hne hds hfrac2
    (head?_of_take_one _ _ hfmax) hws (head?_of_take_one _ _ hwmax) hunit
    (head?_of_take_one _ _ humax)
  obtain ⟨d, ds1, rfl⟩ : ∃ d ds1, ds = d :: ds1 := List.exists_cons_of_ne_nil hne
  have hdd : isDigit d = true := hds d (List.mem_cons_self _ _)
  have hd : d ≠ '-' := by
    intro hd
    rw [hd] at hdd
    exact absurd hdd (by decide)
  rw [hv]
  rcases hsign with rfl | ⟨rfl, hlast⟩
  · rw [regexMatch_skip pre _ hpre (by
      intro _ e he
      simp only [List.cons_append, List.nil_append, List.head?_cons, Option.some.injEq] at he
      subst he
      decide)]
    have h2 := hm ['-']
    show regexMatch ('-' :: (d :: ds1 ++ (frac ++ (ws ++ (unit ++ rest))))) = _
    unfold regexMatch
    unfold matchHere
    simp only [h2]
  · rw [regexMatch_skip pre _ hpre (fun hl => absurd hl hlast)]
    have hh : matchHere (d :: ds1 ++ (frac ++ (ws ++ (unit ++ rest)))) =
        matchDigits [] (d :: ds1 ++ (frac ++ (ws ++ (unit ++ rest)))) := by
      rw [List.cons_append]
      unfold matchHere
      split
      · rename_i t heq
        simp only [List.cons.injEq] at heq
        exact absurd heq.1 hd
      · rfl
    have h2 := hm []
    rw [← hh] at h2
    rw [List.nil_append]
    rw [List.cons_append] at h2 ⊢
    unfold regexMatch
    rw [h2]

theorem run_split (p : Char → Bool) (l : Str) :
    ∃ a b, l = a ++ b ∧ (∀ c ∈ a, p c = true) ∧ (∀ c ∈ b.take 1, p c = false) := by
  refine ⟨l.takeWhile p, l.dropWhile p, (List.takeWhile_append_dropWhile p l).symm,
    fun c hc => List.mem_takeWhile_imp hc, ?_⟩
  intro c hc
  induction l with
  | nil => simp at hc
  | cons a l ih =>
    rw [List.dropWhile_cons] at hc
    by_cases ha : p a = true
    · rw [if_pos ha] at hc
      exact ih hc
    · rw [if_neg ha] at hc
      simp only [List.take_succ_cons, List.take_zero, List.mem_singleton] at hc
      rw [hc]
      simpa using ha

theorem exists_firstNumeral (value : Str) (h : ∃ c ∈ value, isDigit c = true) :
    ∃ pre sign ds frac ws unit rest, FirstNumeral value pre sign ds frac ws unit rest := by
  obtain ⟨p0, t0, h0, hp0, ht0⟩ := run_split (fun c => !isDigit c) value
  have hp0' : ∀ c ∈ p0, isDigit c = false := fun c hc => by simpa using hp0 c hc
  obtain ⟨ds, r, h1, hds, hr⟩ := run_split isDigit t0
  -- the text after `p0` starts with a digit
  have ht0ne : t0 ≠ [] := by
    intro ht
    obtain ⟨c, hc, hd⟩ := h
    rw [h0, ht, List.append_nil] at hc
    rw [hp0' c hc] at hd
    exact absurd hd (by decide)
  have hdsne : ds ≠ [] := by
    intro hd
    rw [hd, List.nil_append] at h1
    obtain ⟨a, t1, hat⟩ := List.exists_cons_of_ne_nil ht0ne
    have ha1 := ht0 a (by rw [hat]; simp)
    have ha2 := hr a (by rw [← h1, hat]; simp)
    simp only [Bool.not_eq_false'] at ha1
    rw [ha1] at ha2
    exact absurd ha2 (by decide)
  -- the fraction
  have hfrac : ∃ frac r2, r = frac ++ r2 ∧
      ((frac = [] ∧ ∀ c ∈ r2.take 1, c ≠ '.') ∨
        (frac.take 1 = ['.'] ∧ ∀ c ∈ frac.drop 1, isDigit c = true)) ∧
      ∀ c ∈ r2.take 1, isDigit c = false := by
    by_cases hdot : ∃ r1, r = '.' :: r1
    · obtain ⟨r1, hr1⟩ := hdot
      obtain ⟨fs, r2, hf1, hfs, hr2⟩ := run_split isDigit r1
      exact ⟨'.' :: fs, r2, by rw [hr1, hf1]; rfl, Or.inr ⟨rfl, hfs⟩, hr2⟩
    · refine ⟨[], r, rfl, Or.inl ⟨rfl, ?_⟩, hr⟩
      intro c hc hcd
      apply hdot
      cases r with
      | nil => simp at hc
      | cons a r1 =>
        simp only [List.take_succ_cons, List.take_zero, List.mem_singleton] at hc
        exact ⟨r1, by rw [← hc, hcd]⟩
  obtain ⟨frac, r2, h2, hfr, hfmax⟩ := hfrac
  obtain ⟨ws, r3, h3, hws, hr3⟩ := run_split isWhiteSpace r2
  obtain ⟨unit, rest, h4, hunit, hrest⟩ := run_split isAsciiLetter r3
  subst h4
  subst h3
  have hval : value = p0 ++ (ds ++ (frac ++ (ws ++ (unit ++ rest)))) := by
    rw [h0, h1, h2]
  by_cases hl : p0.getLast? = some '-'
  · obtain ⟨pre, hpre⟩ : ∃ pre, p0 = pre ++ ['-'] := by
      rcases List.eq_nil_or_concat p0 with hnil | ⟨pre, b, hb⟩
      · rw [hnil] at hl
        simp at hl
      · rw [hb, List.concat_eq_append, List.getLast?_append] at hl
        have hbe : b = '-' := by simpa [Option.or] using hl
        exact ⟨pre, by rw [hb, hbe, List.concat_eq_append]⟩
    refine ⟨pre, ['-'], ds, frac, ws, unit, rest, ?_, ?_, Or.inl rfl, hdsne, hds, hfr, hfmax,
      hws, hr3, hunit, hrest⟩
    · rw [hval, hpre, List.append_assoc]
    · intro c hc
      exact hp0' c (by rw [hpre]; exact List.mem_append_left _ hc)
  · exact ⟨p0, [], ds, frac, ws, unit, rest, by rw [hval, List.nil_append], hp0',
      Or.inr ⟨rfl, hl⟩, hdsne, hds, hfr, hfmax, hws, hr3, hunit, hrest⟩

theorem convertEntry_firstNumeral (uni : Str → Str) (key value pre sign ds frac ws unit rest : Str)
    (h : FirstNumeral value pre sign ds frac ws unit rest) :
    convertEntry uni key value = Except.ok
      (if unit = [] then replaceSpaceRuns (toLowerCase uni key)
        else replaceSpaceRuns (toLowerCase uni key) ++ '_' :: toLowerCase uni unit,
       JSVal.num (numeralNumber sign ds frac)) := by
  have hm := regexMatch_firstNumeral value pre sign ds frac ws unit rest h
  have hsign : sign = [] ∨ sign = ['-'] := by
    rcases h.sign_ok with hs | hs
    · exact Or.inr hs
    · exact Or.inl hs.1
  have hfrac : frac = [] ∨ (frac.take 1 = ['.'] ∧ ∀ c ∈ frac.drop 1, isDigit c = true) := by
    rcases h.frac_ok with hf | hf
    · exact Or.inl hf.1
    · exact Or.inr hf
  have hpf := parseFloat_numeral sign ds frac hsign h.ds_ne h.ds_ok hfrac
  rw [convertEntry_eq]
  unfold outputKey outputValue
  rw [hm]
  simp only [hpf]
  cases unit with
  | nil => rfl
  | cons u us => simp

/-! ## Facts about the store of objects -/

theorem foldlM_invariant {σ κ : Type} (I : σ → Prop) (f : σ → κ → Except JSError σ)
    (l : List κ) (h : ∀ s k, k ∈ l → I s → ∃ s1, f s k = Except.ok s1 ∧ I s1)
    (s0 : σ) (h0 : I s0) : ∃ s1, l.foldlM f s0 = Except.ok s1 ∧ I s1 := by
  induction l generalizing s0 with
  | nil => exact ⟨s0, rfl, h0⟩
  | cons k l ih =>
    obtain ⟨s1, hs1, hI1⟩ := h s0 k (List.mem_cons_self _ _) h0
    obtain ⟨s2, hs2, hI2⟩ := ih (fun s k1 hk => h s k1 (List.mem_cons_of_mem _ hk)) s1 hI1
    refine ⟨s2, ?_, hI2⟩
    rw [List.foldlM_cons, hs1]
    exact hs2

namespace Store

theorem object_create (σ : Store) (r : Nat) (h : r < σ.length) :
    object (create σ).2 r = object σ r := by
  unfold object create
  exact List.getD_append _ _ _ _ h

theorem length_assign (σ : Store) (r : Nat) (k : Str) (v : JSVal) :
    (assign σ r k v).length = σ.length := by
  unfold assign
  exact List.length_set _ _ _

theorem object_assign_of_ne (σ : Store) (r r1 : Nat) (k : Str) (v : JSVal) (h : r ≠ r1) :
    object (assign σ r k v) r1 = object σ r1 := by
  unfold object assign
  rw [List.getD_eq_getElem?_getD, List.getD_eq_getElem?_getD, List.getElem?_set_ne h]

theorem object_assign_self (σ : Store) (r : Nat) (k : Str) (v : JSVal) (h : r < σ.length) :
    object (assign σ r k v) r = Obj.set (object σ r) k v := by
  unfold assign
  conv_lhs => unfold object
  rw [List.getD_eq_getElem?_getD, List.getElem?_set_self h]
  rfl

end Store

theorem get_isSome_of_mem_keys {α : Type} (o : Obj α) (k : Str) (h : k ∈ Obj.keys o) :
    ∃ v, Obj.get o k = some v ∧ (k, v) ∈ o := by
  induction o with
  | nil => simp [Obj.keys] at h
  | cons e o ih =>
    obtain ⟨k0, v0⟩ := e
    unfold Obj.get
    by_cases hk : k0 = k
    · rw [if_pos hk]
      exact ⟨v0, rfl, by rw [hk]; exact List.mem_cons_self _ _⟩
    · rw [if_neg hk]
      have h2 : k ∈ Obj.keys o := by
        simp only [Obj.keys, List.map_cons, List.mem_cons] at h
        rcases h with h | h
        · exact absurd h.symm hk
        · exact h
      obtain ⟨v, hv, hm⟩ := ih h2
      exact ⟨v, hv, List.mem_cons_of_mem _ hm⟩

/-- The loop of `convertDataUnits` keeps every object that the store had
before the call, and assigns to the new object alone. -/
theorem convertDataUnitsIn_frame (uni : Str → Str) (m : Reader) (h : HoldsStrings m) :
    ∃ σ : Store, convertDataUnitsIn uni m = Except.ok (m.store.length, { m with store := σ }) ∧
      σ.length = m.store.length + 1 ∧ ∀ r, r < m.store.length → σ.object r = m.store.object r := by
  obtain ⟨hlt, hstr⟩ := h
  have hinv := foldlM_invariant
    (fun σ : Store => σ.length = m.store.length + 1 ∧
      ∀ r, r < m.store.length → σ.object r = m.store.object r)
    (convertStep uni m.latestData m.store.create.1)
    (Obj.keys (m.store.create.2.object m.latestData))
    (by
      intro σ key hkey ⟨hlen, hobj⟩
      rw [Store.object_create _ _ hlt] at hkey
      obtain ⟨v, hv, hmem⟩ := get_isSome_of_mem_keys _ _ hkey
      obtain ⟨value, hvalue⟩ : ∃ value : Str, v = JSVal.str value := by
        have := hstr _ hmem
        cases v with
        | str w => exact ⟨w, rfl⟩
        | num x => exact absurd this (by simp [JSVal.isStr])
      unfold convertStep
      rw [hobj _ hlt, hv, hvalue]
      simp only [convertEntry_eq]
      refine ⟨_, rfl, by rw [Store.length_assign]; exact hlen, ?_⟩
      intro r hr
      rw [Store.object_assign_of_ne _ _ _ _ _ (by
        show m.store.length ≠ r
        omega)]
      exact hobj r hr)
    m.store.create.2
    ⟨by simp [Store.create], fun r hr => Store.object_create _ _ hr⟩
  obtain ⟨σ, hσ, hlen, hobj⟩ := hinv
  refine ⟨σ, ?_, hlen, hobj⟩
  unfold convertDataUnitsIn
  simp only [hσ]
  rfl

theorem get_of_mem_nodup {α : Type} (o : Obj α) (k : Str) (v : α) (hn : (Obj.keys o).Nodup)
    (h : (k, v) ∈ o) : Obj.get o k = some v := by
  induction o with
  | nil => simp at h
  | cons e o ih =>
    obtain ⟨k0, v0⟩ := e
    simp only [Obj.keys, List.map_cons, List.nodup_cons] at hn
    unfold Obj.get
    rcases List.mem_cons.1 h with h1 | h1
    · simp only [Prod.mk.injEq] at h1
      rw [if_pos h1.1.symm, h1.2]
    · have hne : k0 ≠ k := by
        intro hk
        apply hn.1
        rw [hk]
        exact List.mem_map.2 ⟨(k, v), h1, rfl⟩
      rw [if_neg hne]
      exact ih hn.2 h1

theorem get_map_str (d : Obj Str) (k : Str) :
    Obj.get (d.map (fun e => (e.1, JSVal.str e.2))) k = (Obj.get d k).map JSVal.str := by
  induction d with
  | nil => rfl
  | cons e d ih =>
    obtain ⟨k0, v0⟩ := e
    simp only [List.map_cons, Obj.get]
    by_cases hk : k0 = k
    · rw [if_pos hk, if_pos hk]
      rfl
    · rw [if_neg hk, if_neg hk]
      exact ih

theorem holdsStrings_ofState (s : State) : HoldsStrings (Reader.ofState s) := by
  refine ⟨by simp [Reader.ofState], ?_⟩
  intro e he
  have he2 : e ∈ s.latestData.map (fun e => (e.1, JSVal.str e.2)) := he
  obtain ⟨e0, _, rfl⟩ := List.mem_map.1 he2
  rfl

theorem foldlM_convertStep (uni : Str → Str) (d1 : Obj JSVal) (es : Obj Str) (acc : Obj JSVal)
    (h : ∀ e ∈ es, Obj.get d1 e.1 = some (JSVal.str e.2)) :
    (Obj.keys es).foldlM (convertStep uni 0 1) [d1, acc] =
      Except.ok [d1, es.foldl
        (fun acc e => Obj.set acc (outputKey uni e.1 e.2) (outputValue e.2)) acc] := by
  induction es generalizing acc with
  | nil => rfl
  | cons e es ih =>
    have he := h e (List.mem_cons_self _ _)
    have hstep : convertStep uni 0 1 [d1, acc] e.1 =
        Except.ok [d1, Obj.set acc (outputKey uni e.1 e.2) (outputValue e.2)] := by
      unfold convertStep
      have ho : Store.object [d1, acc] 0 = d1 := rfl
      rw [ho, he]
      simp only [convertEntry_eq]
      rfl
    simp only [Obj.keys, List.map_cons, List.foldlM_cons, List.foldl_cons]
    rw [hstep]
    exact ih _ (fun e1 h1 => h e1 (List.mem_cons_of_mem _ h1))

/-- On the reader of a state the method in the store returns the snapshot that
the method on the state returns, as a new object. -/
theorem convertDataUnitsIn_ofState (uni : Str → Str) (s : State)
    (hn : (Obj.keys s.latestData).Nodup) :
    convertDataUnitsIn uni (Reader.ofState s) =
      Except.ok (1, { Reader.ofState s with
        store := (Reader.ofState s).store ++ [snapshot uni s.latestData] }) := by
  have hkeys : Obj.keys (s.latestData.map (fun e => (e.1, JSVal.str e.2))) =
      Obj.keys s.latestData := by
    simp [Obj.keys, List.map_map, Function.comp_def]
  have h := foldlM_convertStep uni (s.latestData.map (fun e => (e.1, JSVal.str e.2)))
    s.latestData [] (by
      intro e he
      rw [get_map_str, get_of_mem_nodup s.latestData e.1 e.2 hn he]
      rfl)
  unfold convertDataUnitsIn
  have hc : (Reader.ofState s).store.create =
      (1, [s.latestData.map (fun e => (e.1, JSVal.str e.2)), []]) := rfl
  have ho : Store.object [s.latestData.map (fun e => (e.1, JSVal.str e.2)), []]
      (Reader.ofState s).latestData = s.latestData.map (fun e => (e.1, JSVal.str e.2)) := rfl
  rw [hc]
  simp only [ho, hkeys]
  have hl : (Reader.ofState s).latestData = 0 := rfl
  rw [hl, h]
  rfl

theorem get_set_ne_none {α : Type} (o : Obj α) (k k1 : Str) (v : α)
    (h : Obj.get o k1 ≠ none) : Obj.get (Obj.set o k v) k1 ≠ none := by
  rw [Obj.get_set]
  split_ifs
  · simp
  · exact h

theorem get_parseLine_ne_none (d : Obj Str) (line k : Str) (h : Obj.get d k ≠ none) :
    Obj.get (parseLine d line) k ≠ none := by
  rw [parseLine_eq]
  split
  · exact get_set_ne_none _ _ _ _ h
  · exact h

theorem get_foldl_parseLine_ne_none (lines : List Str) (d : Obj Str) (k : Str)
    (h : Obj.get d k ≠ none) : Obj.get (lines.foldl parseLine d) k ≠ none := by
  induction lines generalizing d with
  | nil => exact h
  | cons l ls ih => exact ih _ (get_parseLine_ne_none d l k h)

/-! ## Rounding is monotone -/

theorem roundHalfEven_mono (x y : ℚ) (h : x ≤ y) : roundHalfEven x ≤ roundHalfEven y := by
  by_contra hlt
  have h1 : roundHalfEven y + 1 ≤ roundHalfEven x := by omega
  have h1q : (roundHalfEven y : ℚ) + 1 ≤ (roundHalfEven x : ℚ) := by exact_mod_cast h1
  have hx := (abs_le.1 (roundHalfEven_sub_le x)).2
  have hy := (abs_le.1 (roundHalfEven_sub_le y)).1
  have hxy : x = y := le_antisymm h (by linarith)
  rw [hxy] at hlt
  exact hlt (le_refl _)

theorem floorLog2_mono (a b : ℚ) (ha : 0 < a) (hab : a ≤ b) : floorLog2 a ≤ floorLog2 b := by
  have hb : 0 < b := lt_of_lt_of_le ha hab
  have h := floorLog2_lt_of_lt a ha (floorLog2 b + 1)
    (lt_of_le_of_lt hab (floorLog2_spec b hb).2)
  omega

/-- The rounded magnitude before the overflow test. -/
theorem roundMag_eq (a : ℚ) :
    roundMag a =
      if (roundHalfEven (a / (2 : ℚ) ^ (Max.max (floorLog2 a) (-1022) - 52)) : ℚ) *
          (2 : ℚ) ^ (Max.max (floorLog2 a) (-1022) - 52) < (2 : ℚ) ^ (1024 : Int) then
        some ((roundHalfEven (a / (2 : ℚ) ^ (Max.max (floorLog2 a) (-1022) - 52)) : ℚ) *
          (2 : ℚ) ^ (Max.max (floorLog2 a) (-1022) - 52))
      else none := by
  unfold roundMag
  simp only [pow2_eq_zpow]

theorem roundCore_mono (a b : ℚ) (ha : 0 < a) (hab : a ≤ b) :
    (roundHalfEven (a / (2 : ℚ) ^ (Max.max (floorLog2 a) (-1022) - 52)) : ℚ) *
        (2 : ℚ) ^ (Max.max (floorLog2 a) (-1022) - 52) ≤
      (roundHalfEven (b / (2 : ℚ) ^ (Max.max (floorLog2 b) (-1022) - 52)) : ℚ) *
        (2 : ℚ) ^ (Max.max (floorLog2 b) (-1022) - 52) := by
  have hb : 0 < b := lt_of_lt_of_le ha hab
  have h2 : (2 : ℚ) ≠ 0 := by norm_num
  have hfl := floorLog2_mono a b ha hab
  set ea : Int := Max.max (floorLog2 a) (-1022) with hea
  set eb : Int := Max.max (floorLog2 b) (-1022) with heb
  have hle : ea ≤ eb := max_le_max hfl (le_refl _)
  rcases eq_or_lt_of_le hle with heq | hlt
  · rw [← heq]
    have hu : (0 : ℚ) < (2 : ℚ) ^ (ea - 52) := by positivity
    have hm := roundHalfEven_mono (a / (2 : ℚ) ^ (ea - 52)) (b / (2 : ℚ) ^ (ea - 52))
      (div_le_div_of_nonneg_right hab (le_of_lt hu))
    have hmq : (roundHalfEven (a / (2 : ℚ) ^ (ea - 52)) : ℚ) ≤
        (roundHalfEven (b / (2 : ℚ) ^ (ea - 52)) : ℚ) := by exact_mod_cast hm
    exact mul_le_mul_of_nonneg_right hmq (le_of_lt hu)
  · -- the two magnitudes are in different binades
    have hebfl : eb = floorLog2 b := by
      rw [heb]
      apply max_eq_left
      have : (-1022 : Int) ≤ ea := le_max_right _ _
      have h3 : ea < eb := hlt
      by_contra hc
      have : eb = -1022 := by rw [heb]; exact max_eq_right (by omega)
      omega
    have hua : (0 : ℚ) < (2 : ℚ) ^ (ea - 52) := by positivity
    have hub : (0 : ℚ) < (2 : ℚ) ^ (eb - 52) := by positivity
    -- the smaller one rounds to at most `2 ^ (ea + 1)`
    have ha1 : a < (2 : ℚ) ^ (ea + 1) := by
      refine lt_of_lt_of_le (floorLog2_spec a ha).2 ?_
      exact zpow_le_zpow_right₀ (by norm_num) (by
        have : floorLog2 a ≤ ea := le_max_left _ _
        omega)
    have ha2 : a / (2 : ℚ) ^ (ea - 52) ≤ ((2 ^ 53 : Int) : ℚ) := by
      rw [div_le_iff₀ hua]
      have e1 : (((2 : Int) ^ 53 : Int) : ℚ) * (2 : ℚ) ^ (ea - 52) = (2 : ℚ) ^ (ea + 1) := by
        have : ea + 1 = 53 + (ea - 52) := by ring
        rw [this, zpow_add₀ h2]
        norm_num
      rw [e1]
      exact le_of_lt ha1
    have ha3 : roundHalfEven (a / (2 : ℚ) ^ (ea - 52)) ≤ (2 ^ 53 : Int) := by
      have := roundHalfEven_mono _ _ ha2
      rwa [roundHalfEven_intCast] at this
    have ha4 : (roundHalfEven (a / (2 : ℚ) ^ (ea - 52)) : ℚ) * (2 : ℚ) ^ (ea - 52) ≤
        (2 : ℚ) ^ (ea + 1) := by
      have e1 : (((2 : Int) ^ 53 : Int) : ℚ) * (2 : ℚ) ^ (ea - 52) = (2 : ℚ) ^ (ea + 1) := by
        have : ea + 1 = 53 + (ea - 52) := by ring
        rw [this, zpow_add₀ h2]
        norm_num
      rw [← e1]
      exact mul_le_mul_of_nonneg_right (by exact_mod_cast ha3) (le_of_lt hua)
    -- the larger one rounds to at least `2 ^ eb`
    have hb1 : (2 : ℚ) ^ eb ≤ b := by
      rw [hebfl]
      exact (floorLog2_spec b hb).1
    have hb2 : ((2 ^ 52 : Int) : ℚ) ≤ b / (2 : ℚ) ^ (eb - 52) := by
      rw [le_div_iff₀ hub]
      have e1 : (((2 : Int) ^ 52 : Int) : ℚ) * (2 : ℚ) ^ (eb - 52) = (2 : ℚ) ^ eb := by
        have : eb = 52 + (eb - 52) := by ring
        conv_rhs => rw [this, zpow_add₀ h2]
        norm_num
      rw [e1]
      exact hb1
    have hb3 : (2 ^ 52 : Int) ≤ roundHalfEven (b / (2 : ℚ) ^ (eb - 52)) := by
      have := roundHalfEven_mono _ _ hb2
      rwa [roundHalfEven_intCast] at this
    have hb4 : (2 : ℚ) ^ eb ≤
        (roundHalfEven (b / (2 : ℚ) ^ (eb - 52)) : ℚ) * (2 : ℚ) ^ (eb - 52) := by
      have e1 : (((2 : Int) ^ 52 : Int) : ℚ) * (2 : ℚ) ^ (eb - 52) = (2 : ℚ) ^ eb := by
        have : eb = 52 + (eb - 52) := by ring
        conv_rhs => rw [this, zpow_add₀ h2]
        norm_num
      rw [← e1]
      exact mul_le_mul_of_nonneg_right (by exact_mod_cast hb3) (le_of_lt hub)
    have hpow : (2 : ℚ) ^ (ea + 1) ≤ (2 : ℚ) ^ eb :=
      zpow_le_zpow_right₀ (by norm_num) (by omega)
    exact le_trans ha4 (le_trans hpow hb4)

theorem roundMag_eq_roundCore (a : ℚ) :
    roundMag a = if roundCore a < pow2 1024 then some (roundCore a) else none := rfl

theorem roundCore_le (a b : ℚ) (ha : 0 < a) (hab : a ≤ b) : roundCore a ≤ roundCore b := by
  unfold roundCore
  simp only [pow2_eq_zpow]
  exact roundCore_mono a b ha hab

theorem roundCore_nonneg (a : ℚ) (ha : 0 ≤ a) : 0 ≤ roundCore a := by
  unfold roundCore
  have h1 : (0 : ℚ) ≤ (roundHalfEven (a / pow2 (Max.max (floorLog2 a) (-1022) - 52)) : ℚ) := by
    exact_mod_cast roundHalfEven_nonneg _ (div_nonneg ha (le_of_lt (pow2_pos _)))
  exact mul_nonneg h1 (le_of_lt (pow2_pos _))

/-- The place of a rounded result on the rational line. -/
theorem clip_ofRat (b : Bool) (q : ℚ) :
    clip (ofRat b q) =
      if q = 0 then 0
      else if q < 0 then -(Min.min (roundCore |q|) (pow2 1024))
      else Min.min (roundCore |q|) (pow2 1024) := by
  unfold ofRat
  by_cases h0 : q = 0
  · rw [if_pos h0, if_pos h0]
    cases b <;> rfl
  · rw [if_neg h0, if_neg h0, roundMag_eq_roundCore]
    by_cases hlt : roundCore |q| < pow2 1024
    · rw [if_pos hlt, min_eq_left (le_of_lt hlt)]
      simp only
      by_cases hr : roundCore |q| = 0
      · rw [if_pos hr, hr]
        by_cases hq : q < 0
        · rw [if_pos hq, decide_eq_true hq, neg_zero]
          rfl
        · rw [if_neg hq, decide_eq_false hq]
          rfl
      · rw [if_neg hr]
        by_cases hq : q < 0
        · rw [if_pos hq]
          rfl
        · rw [if_neg hq]
          rfl
    · rw [if_neg hlt, min_eq_right (le_of_not_lt hlt)]
      simp only
      by_cases hq : q < 0
      · rw [if_pos hq, decide_eq_true hq]
        rfl
      · rw [if_neg hq, decide_eq_false hq]
        rfl

theorem clip_ofRat_mono (b1 b2 : Bool) (q1 q2 : ℚ) (h : q1 ≤ q2) :
    clip (ofRat b1 q1) ≤ clip (ofRat b2 q2) := by
  have hM : ∀ a : ℚ, 0 ≤ Min.min (roundCore |a|) (pow2 1024) := fun a =>
    le_min (roundCore_nonneg _ (abs_nonneg a)) (le_of_lt (pow2_pos _))
  rw [clip_ofRat, clip_ofRat]
  rcases lt_trichotomy q2 0 with h2 | h2 | h2
  · have h1 : q1 < 0 := lt_of_le_of_lt h h2
    rw [if_neg (ne_of_lt h1), if_pos h1, if_neg (ne_of_lt h2), if_pos h2]
    have hab : |q2| ≤ |q1| := by
      rw [abs_of_neg h1, abs_of_neg h2]
      linarith
    have := min_le_min_right (pow2 1024) (roundCore_le |q2| |q1| (abs_pos.2 (ne_of_lt h2)) hab)
    linarith
  · rw [if_pos h2]
    split_ifs
    · exact le_refl _
    · have := hM q1
      linarith
    · exfalso
      rw [h2] at h
      rename_i hne hnlt
      exact hne (le_antisymm h (not_lt.1 hnlt))
  · rw [if_neg (ne_of_gt h2), if_neg (not_lt.2 (le_of_lt h2))]
    split_ifs with h10 h1n
    · exact hM q2
    · have := hM q1
      have := hM q2
      linarith
    · have h1p : 0 < q1 := lt_of_le_of_ne (not_lt.1 h1n) (Ne.symm h10)
      have hab : |q1| ≤ |q2| := by
        rw [abs_of_pos h1p, abs_of_pos h2]
        exact h
      exact min_le_min_right (pow2 1024) (roundCore_le |q1| |q2| (abs_pos.2 h10) hab)

theorem inRange_ofRat (b : Bool) (q : ℚ) : InRange (ofRat b q) := by
  refine ⟨ofRat_ne_nan b q, ?_⟩
  unfold ofRat
  by_cases h0 : q = 0
  · rw [if_pos h0]
    have hz : |(0 : ℚ)| < pow2 1024 := by
      rw [abs_zero]
      exact pow2_pos _
    cases b
    · exact hz
    · exact hz
  · rw [if_neg h0, roundMag_eq_roundCore]
    by_cases hlt : roundCore |q| < pow2 1024
    · rw [if_pos hlt]
      simp only
      have hnn := roundCore_nonneg |q| (abs_nonneg q)
      by_cases hr : roundCore |q| = 0
      · rw [if_pos hr]
        have hz : |(0 : ℚ)| < pow2 1024 := by
          rw [abs_zero]
          exact pow2_pos _
        cases decide (q < 0)
        · exact hz
        · exact hz
      · rw [if_neg hr]
        by_cases hq : q < 0
        · simp only [hq, if_true, toRat, abs_neg, abs_of_nonneg hnn]
          exact hlt
        · simp only [hq, if_false, toRat, abs_of_nonneg hnn]
          exact hlt
    · rw [if_neg hlt]
      simp only
      have hz : |(0 : ℚ)| < pow2 1024 := by
        rw [abs_zero]
        exact pow2_pos _
      cases decide (q < 0)
      · exact hz
      · exact hz

theorem inRange_cases (u : JSNum) (h : InRange u) :
    u = posInf ∨ u = negInf ∨ u.isFinite = true := by
  cases u with
  | nan => exact absurd rfl h.1
  | posInf => exact Or.inl rfl
  | negInf => exact Or.inr (Or.inl rfl)
  | negZero => exact Or.inr (Or.inr rfl)
  | fin q => exact Or.inr (Or.inr rfl)

theorem inRange_posInf : InRange posInf :=
  ⟨by decide, by rw [show posInf.toRat = 0 from rfl, abs_zero]; exact pow2_pos _⟩

theorem inRange_negInf : InRange negInf :=
  ⟨by decide, by rw [show negInf.toRat = 0 from rfl, abs_zero]; exact pow2_pos _⟩

theorem clip_of_isFinite (u : JSNum) (h : u.isFinite = true) : clip u = u.toRat := by
  cases u with
  | nan => exact absurd h (by decide)
  | posInf => exact absurd h (by decide)
  | negInf => exact absurd h (by decide)
  | negZero => rfl
  | fin q => rfl

theorem clip_le_top (u : JSNum) (h : InRange u) : clip u ≤ pow2 1024 := by
  rcases inRange_cases u h with rfl | rfl | hf
  · exact le_refl _
  · have := pow2_pos 1024
    show -pow2 1024 ≤ pow2 1024
    linarith
  · rw [clip_of_isFinite u hf]
    exact le_of_lt (lt_of_le_of_lt (le_abs_self _) h.2)

theorem bot_le_clip (u : JSNum) (h : InRange u) : -pow2 1024 ≤ clip u := by
  rcases inRange_cases u h with rfl | rfl | hf
  · have := pow2_pos 1024
    show -pow2 1024 ≤ pow2 1024
    linarith
  · exact le_refl _
  · rw [clip_of_isFinite u hf]
    have := (abs_lt.1 h.2).1
    exact le_of_lt this

theorem clip_lt_top (u : JSNum) (h : InRange u) (hf : u.isFinite = true) :
    clip u < pow2 1024 := by
  rw [clip_of_isFinite u hf]
  exact lt_of_le_of_lt (le_abs_self _) h.2

theorem bot_lt_clip (u : JSNum) (h : InRange u) (hf : u.isFinite = true) :
    -pow2 1024 < clip u := by
  rw [clip_of_isFinite u hf]
  exact (abs_lt.1 h.2).1

/-- An operation that keeps the infinities and rounds a monotone function of a
finite argument is monotone on the numbers in range. -/
theorem lift_mono (G : JSNum → JSNum) (g : ℚ → ℚ) (hg : ∀ a b, a ≤ b → g a ≤ g b)
    (hpos : G posInf = posInf) (hneg : G negInf = negInf)
    (hfin : ∀ u, u.isFinite = true → ∃ b, G u = ofRat b (g u.toRat))
    (u1 u2 : JSNum) (h1 : InRange u1) (h2 : InRange u2) (h : clip u1 ≤ clip u2) :
    InRange (G u1) ∧ InRange (G u2) ∧ clip (G u1) ≤ clip (G u2) := by
  have hR : ∀ u, InRange u → InRange (G u) := by
    intro u hu
    rcases inRange_cases u hu with rfl | rfl | hf
    · rw [hpos]; exact inRange_posInf
    · rw [hneg]; exact inRange_negInf
    · obtain ⟨b, hb⟩ := hfin u hf
      rw [hb]
      exact inRange_ofRat _ _
  refine ⟨hR u1 h1, hR u2 h2, ?_⟩
  rcases inRange_cases u1 h1 with rfl | rfl | hf1
  · rcases inRange_cases u2 h2 with rfl | rfl | hf2
    · exact le_refl _
    · exact le_trans (by rw [hneg, hpos]; exact h) (le_refl _)
    · exact absurd h (not_le.2 (clip_lt_top u2 h2 hf2))
  · rw [hneg]
    exact bot_le_clip _ (hR u2 h2)
  · rcases inRange_cases u2 h2 with rfl | rfl | hf2
    · rw [hpos]
      exact clip_le_top _ (hR u1 h1)
    · exact absurd h (not_le.2 (bot_lt_clip u1 h1 hf1))
    · obtain ⟨b1, hb1⟩ := hfin u1 hf1
      obtain ⟨b2, hb2⟩ := hfin u2 hf2
      rw [hb1, hb2]
      rw [clip_of_isFinite u1 hf1, clip_of_isFinite u2 hf2] at h
      exact clip_ofRat_mono _ _ _ _ (hg _ _ h)

/-! ## The estimator is monotone -/

theorem sub_posInf_of_isFinite (x : JSNum) (h : x.isFinite = true) : sub x posInf = negInf := by
  cases x with
  | nan => exact absurd h (by decide)
  | posInf => exact absurd h (by decide)
  | negInf => exact absurd h (by decide)
  | negZero => rfl
  | fin q => rfl

theorem sub_negInf_of_isFinite (x : JSNum) (h : x.isFinite = true) : sub x negInf = posInf := by
  cases x with
  | nan => exact absurd h (by decide)
  | posInf => exact absurd h (by decide)
  | negInf => exact absurd h (by decide)
  | negZero => rfl
  | fin q => rfl

theorem inRange_sub (x s : JSNum) (hx : x.isFinite = true) (hs : InRange s) :
    InRange (sub x s) := by
  rcases inRange_cases s hs with rfl | rfl | hf
  · rw [sub_posInf_of_isFinite x hx]; exact inRange_negInf
  · rw [sub_negInf_of_isFinite x hx]; exact inRange_posInf
  · rw [sub_of_isFinite x s hx hf]; exact inRange_ofRat _ _

/-- The difference `x - s` is monotone in a finite `x`. -/
theorem sub_mono_left (x1 x2 s : JSNum) (h1 : x1.isFinite = true) (h2 : x2.isFinite = true)
    (hs : InRange s) (h : x1.toRat ≤ x2.toRat) : clip (sub x1 s) ≤ clip (sub x2 s) := by
  rcases inRange_cases s hs with rfl | rfl | hf
  · exact le_of_eq (by rw [sub_posInf_of_isFinite x1 h1, sub_posInf_of_isFinite x2 h2])
  · exact le_of_eq (by rw [sub_negInf_of_isFinite x1 h1, sub_negInf_of_isFinite x2 h2])
  · rw [sub_of_isFinite x1 s h1 hf, sub_of_isFinite x2 s h2 hf]
    exact clip_ofRat_mono _ _ _ _ (by linarith)

/-- The difference `x - s` of a finite `x` is antitone in `s`. -/
theorem sub_anti_right (x s1 s2 : JSNum) (hx : x.isFinite = true) (h1 : InRange s1)
    (h2 : InRange s2) (h : clip s1 ≤ clip s2) : clip (sub x s2) ≤ clip (sub x s1) := by
  rcases inRange_cases s1 h1 with rfl | rfl | hf1
  · rcases inRange_cases s2 h2 with rfl | rfl | hf2
    · exact le_refl _
    · exfalso
      have hp := pow2_pos 1024
      have h3 : pow2 1024 ≤ -pow2 1024 := h
      linarith
    · exact absurd h (not_le.2 (clip_lt_top s2 h2 hf2))
  · rw [sub_negInf_of_isFinite x hx]
    exact clip_le_top _ (inRange_sub x _ hx h2)
  · rcases inRange_cases s2 h2 with rfl | rfl | hf2
    · rw [sub_posInf_of_isFinite x hx]
      exact bot_le_clip _ (inRange_sub x _ hx h1)
    · exact absurd h (not_le.2 (bot_lt_clip s1 h1 hf1))
    · rw [sub_of_isFinite x s1 hx hf1, sub_of_isFinite x s2 hx hf2]
      rw [clip_of_isFinite s1 hf1, clip_of_isFinite s2 hf2] at h
      exact clip_ofRat_mono _ _ _ _ (by linarith)

theorem neg_fin_cases (c : ℚ) : neg (fin c) = negZero ∨ neg (fin c) = fin (-c) := by
  by_cases h : c = 0
  · exact Or.inl (if_pos h)
  · exact Or.inr (if_neg h)

theorem sub_const_mono (c : ℚ) (u1 u2 : JSNum) (h1 : InRange u1) (h2 : InRange u2)
    (h : clip u1 ≤ clip u2) :
    InRange (sub u1 (fin c)) ∧ InRange (sub u2 (fin c)) ∧
      clip (sub u1 (fin c)) ≤ clip (sub u2 (fin c)) :=
  lift_mono (fun u => sub u (fin c)) (fun a => a - c) (fun a b hab => sub_le_sub_right hab c)
    (by
      show add posInf (neg (fin c)) = posInf
      rcases neg_fin_cases c with e | e <;> rw [e] <;> rfl)
    (by
      show add negInf (neg (fin c)) = negInf
      rcases neg_fin_cases c with e | e <;> rw [e] <;> rfl)
    (fun u hu => ⟨_, sub_of_isFinite u (fin c) hu rfl⟩) u1 u2 h1 h2 h

theorem div_const_mono (c : ℚ) (hc : 0 < c) (u1 u2 : JSNum) (h1 : InRange u1) (h2 : InRange u2)
    (h : clip u1 ≤ clip u2) :
    InRange (div u1 (fin c)) ∧ InRange (div u2 (fin c)) ∧
      clip (div u1 (fin c)) ≤ clip (div u2 (fin c)) :=
  lift_mono (fun u => div u (fin c)) (fun a => a / c)
    (fun a b hab => div_le_div_of_nonneg_right hab (le_of_lt hc))
    (by
      show div posInf (fin c) = posInf
      simp [div, isInf, isNeg, infinity, not_lt.2 (le_of_lt hc)])
    (by
      show div negInf (fin c) = negInf
      simp [div, isInf, isNeg, infinity, not_lt.2 (le_of_lt hc)])
    (fun u hu => ⟨_, div_of_isFinite u (fin c) hu rfl (ne_of_gt hc)⟩) u1 u2 h1 h2 h

theorem mul_const_mono (c : ℚ) (hc : 0 < c) (u1 u2 : JSNum) (h1 : InRange u1) (h2 : InRange u2)
    (h : clip u1 ≤ clip u2) :
    InRange (mul u1 (fin c)) ∧ InRange (mul u2 (fin c)) ∧
      clip (mul u1 (fin c)) ≤ clip (mul u2 (fin c)) :=
  lift_mono (fun u => mul u (fin c)) (fun a => a * c)
    (fun a b hab => mul_le_mul_of_nonneg_right hab (le_of_lt hc))
    (by
      show mul posInf (fin c) = posInf
      simp [mul, isInf, isNeg, isZero, infinity, not_lt.2 (le_of_lt hc), ne_of_gt hc])
    (by
      show mul negInf (fin c) = negInf
      simp [mul, isInf, isNeg, isZero, infinity, not_lt.2 (le_of_lt hc), ne_of_gt hc])
    (fun u hu => ⟨_, mul_of_isFinite u (fin c) hu rfl⟩) u1 u2 h1 h2 h

/-- The percentage before clamping is monotone in the voltage and antitone in
the discharge current, for finite readings. -/
theorem rawPercentage_mono (x1 x2 y1 y2 : JSNum) (hx1 : x1.isFinite = true)
    (hx2 : x2.isFinite = true) (hy1 : y1.isFinite = true) (hy2 : y2.isFinite = true)
    (hx : x1.toRat ≤ x2.toRat) (hy : y2.toRat ≤ y1.toRat) :
    InRange (rawPercentage x1 y1) ∧ InRange (rawPercentage x2 y2) ∧
      clip (rawPercentage x1 y1) ≤ clip (rawPercentage x2 y2) := by
  have hir : internalResistance.isFinite = true := by rw [internalResistance_eq]; rfl
  have hirpos : (0 : ℚ) < internalResistance.toRat := by
    rw [internalResistance_eq]
    show (0 : ℚ) < 3602879701896397 / 36028797018963968
    norm_num
  -- the sag is in range and monotone in the current
  have hs1 : InRange (mul internalResistance y1) := by
    rw [mul_of_isFinite _ _ hir hy1]; exact inRange_ofRat _ _
  have hs2 : InRange (mul internalResistance y2) := by
    rw [mul_of_isFinite _ _ hir hy2]; exact inRange_ofRat _ _
  have hs : clip (mul internalResistance y2) ≤ clip (mul internalResistance y1) := by
    rw [mul_of_isFinite _ _ hir hy1, mul_of_isFinite _ _ hir hy2]
    exact clip_ofRat_mono _ _ _ _ (mul_le_mul_of_nonneg_left hy (le_of_lt hirpos))
  -- the adjusted voltage
  have ht1 := inRange_sub x1 _ hx1 hs1
  have ht2 := inRange_sub x2 _ hx2 hs2
  have ht : clip (sub x1 (mul internalResistance y1)) ≤
      clip (sub x2 (mul internalResistance y2)) :=
    le_trans (sub_anti_right x1 _ _ hx1 hs2 hs1 hs) (sub_mono_left x1 x2 _ hx1 hx2 hs2 hx)
  obtain ⟨hu1, hu2, hu⟩ := sub_const_mono 9600 _ _ ht1 ht2 ht
  obtain ⟨hv1, hv2, hv⟩ := div_const_mono 2400 (by norm_num) _ _ hu1 hu2 hu
  obtain ⟨hw1, hw2, hw⟩ := mul_const_mono 100 (by norm_num) _ _ hv1 hv2 hv
  unfold rawPercentage
  simp only [fullVoltage_sub_emptyVoltage]
  simp only [emptyVoltage]
  exact ⟨hw1, hw2, hw⟩

theorem hundred_le_pow2 : (100 : ℚ) ≤ pow2 1024 := by
  rw [pow2_eq_zpow]
  have h1 : (2 : ℚ) ^ (7 : Int) ≤ (2 : ℚ) ^ (1024 : Int) :=
    zpow_le_zpow_right₀ (by norm_num) (by norm_num)
  have h2 : (2 : ℚ) ^ (7 : Int) = 128 := by norm_num
  linarith

/-- The clamp of a number in range, on the rational line. -/
theorem clamp_clip (w : JSNum) (h : InRange w) :
    JSNum.max (fin 0) (JSNum.min (fin 100) w) = fin (Max.max 0 (Min.min 100 (clip w))) := by
  have h100 := hundred_le_pow2
  rcases inRange_cases w h with rfl | rfl | hf
  · have e : Max.max (0 : ℚ) (Min.min 100 (clip posInf)) = 100 := by
      show Max.max (0 : ℚ) (Min.min 100 (pow2 1024)) = 100
      rw [min_eq_left h100]
      norm_num
    rw [e]
    decide!
  · have e : Max.max (0 : ℚ) (Min.min 100 (clip negInf)) = 0 := by
      show Max.max (0 : ℚ) (Min.min 100 (-pow2 1024)) = 0
      rw [min_eq_right (by linarith), max_eq_left (by linarith)]
    rw [e]
    decide!
  · rw [clip_of_isFinite w hf]
    exact clamp_of_isFinite w hf

/-- The text stored for readings in range, by the place of the percentage on
the rational line. -/
theorem storedPercentage_clip (d : Obj Str)
    (h : InRange (rawPercentage (parseInt (Obj.get d "Battery voltage".toList))
      (parseInt (Obj.get d "Battery discharge current".toList)))) :
    storedPercentage d = twoDecimals ⌊Max.max 0 (Min.min 100
      (clip (rawPercentage (parseInt (Obj.get d "Battery voltage".toList))
        (parseInt (Obj.get d "Battery discharge current".toList))))) * (10 : ℚ) ^ 2 +
      1 / 2⌋.toNat := by
  unfold storedPercentage
  rw [clamp_clip _ h]
  exact (toFixed_two_of_nonneg _ (le_max_left _ _)
    (max_le (by norm_num) (min_le_left _ _))).1

/-- The stored texts of two mappings with integer readings, in order. -/
theorem storedPercentage_monotone (d1 d2 : Obj Str) (V1 V2 I1 I2 : Int)
    (hx1 : IsInteger (parseInt (Obj.get d1 "Battery voltage".toList)) V1)
    (hy1 : IsInteger (parseInt (Obj.get d1 "Battery discharge current".toList)) I1)
    (hx2 : IsInteger (parseInt (Obj.get d2 "Battery voltage".toList)) V2)
    (hy2 : IsInteger (parseInt (Obj.get d2 "Battery discharge current".toList)) I2) :
    ∃ n1 n2 : Nat, storedPercentage d1 = twoDecimals n1 ∧ storedPercentage d2 = twoDecimals n2 ∧
      n1 ≤ 10000 ∧ n2 ≤ 10000 ∧
      (V1 ≤ V2 → I1 = I2 → n1 ≤ n2) ∧ (I1 ≤ I2 → V1 = V2 → n2 ≤ n1) := by
  obtain ⟨hfx1, hrx1⟩ := isInteger_isFinite _ _ hx1
  obtain ⟨hfy1, hry1⟩ := isInteger_isFinite _ _ hy1
  obtain ⟨hfx2, hrx2⟩ := isInteger_isFinite _ _ hx2
  obtain ⟨hfy2, hry2⟩ := isInteger_isFinite _ _ hy2
  have hR1 := (rawPercentage_mono _ _ _ _ hfx1 hfx1 hfy1 hfy1 (le_refl _) (le_refl _)).1
  have hR2 := (rawPercentage_mono _ _ _ _ hfx2 hfx2 hfy2 hfy2 (le_refl _) (le_refl _)).1
  have hmono : ∀ a b : ℚ, a ≤ b →
      ⌊Max.max 0 (Min.min 100 a) * (10 : ℚ) ^ 2 + 1 / 2⌋.toNat ≤
        ⌊Max.max 0 (Min.min 100 b) * (10 : ℚ) ^ 2 + 1 / 2⌋.toNat := by
    intro a b hab
    apply Int.toNat_le_toNat
    apply Int.floor_mono
    have := max_le_max (le_refl (0 : ℚ)) (min_le_min (le_refl (100 : ℚ)) hab)
    nlinarith
  refine ⟨_, _, storedPercentage_clip d1 hR1, storedPercentage_clip d2 hR2,
    (toFixed_two_of_nonneg _ (le_max_left _ _) (max_le (by norm_num) (min_le_left _ _))).2,
    (toFixed_two_of_nonneg _ (le_max_left _ _) (max_le (by norm_num) (min_le_left _ _))).2,
    ?_, ?_⟩
  · intro hV hI
    apply hmono
    refine (rawPercentage_mono _ _ _ _ hfx1 hfx2 hfy1 hfy2 ?_ ?_).2.2
    · rw [hrx1, hrx2]; exact_mod_cast hV
    · rw [hry1, hry2, hI]
  · intro hI hV
    apply hmono
    refine (rawPercentage_mono _ _ _ _ hfx2 hfx1 hfy2 hfy1 ?_ ?_).2.2
    · rw [hrx1, hrx2, hV]
    · rw [hry1, hry2]; exact_mod_cast hI

/-! ## Facts about the decimal exponent and the search for the digits -/

theorem pow10_eq_zpow (e : Int) : pow10 e = (10 : ℚ) ^ e := by
  unfold pow10
  split_ifs with h
  · obtain ⟨n, rfl⟩ := Int.eq_ofNat_of_zero_le h
    simp
  · have h2 : 0 ≤ -e := by omega
    obtain ⟨n, hn⟩ := Int.eq_ofNat_of_zero_le h2
    have he : e = -(n : Int) := by omega
    rw [hn, he]
    simp

theorem pow10_pos (e : Int) : 0 < pow10 e := by
  rw [pow10_eq_zpow]
  positivity

theorem log10Aux_spec (fuel n : Nat) (h1 : 1 ≤ n) (h2 : n ≤ fuel) :
    10 ^ log10Aux fuel n ≤ n ∧ n < 10 ^ (log10Aux fuel n + 1) := by
  induction fuel generalizing n with
  | zero => omega
  | succ fuel ih =>
    unfold log10Aux
    by_cases hn : n < 10
    · rw [if_pos hn]
      simp
      omega
    · rw [if_neg hn]
      have h := ih (n / 10) (by omega) (by omega)
      rw [pow_succ, pow_succ]
      rw [pow_succ] at h
      omega

theorem log10_spec (n : Nat) (h : 1 ≤ n) : 10 ^ log10 n ≤ n ∧ n < 10 ^ (log10 n + 1) :=
  log10Aux_spec n n h (le_refl n)

theorem decimalExponent_spec (a : ℚ) (h : 0 < a) :
    (10 : ℚ) ^ (decimalExponent a - 1) ≤ a ∧ a < (10 : ℚ) ^ decimalExponent a := by
  have hnum : 0 < a.num := Rat.num_pos.2 h
  obtain ⟨p, hp⟩ := Int.eq_ofNat_of_zero_le (le_of_lt hnum)
  obtain ⟨q, hq⟩ : ∃ q, a.den = q := ⟨_, rfl⟩
  have hp1 : 1 ≤ p := by omega
  have hq1 : 1 ≤ q := by
    rw [← hq]
    exact a.den_pos
  have hnat : a.num.natAbs = p := by omega
  have ha : a = (p : ℚ) / (q : ℚ) := by
    have h1 := Rat.num_div_den a
    rw [hp, hq] at h1
    rw [← h1]
    simp
  unfold decimalExponent
  simp only [hnat, hq, pow10_eq_zpow]
  obtain ⟨hpl, hpu⟩ := log10_spec p hp1
  obtain ⟨hql, hqu⟩ := log10_spec q hq1
  generalize log10 p = lp at hpl hpu ⊢
  generalize log10 q = lq at hql hqu ⊢
  have hpl' : (10 : ℚ) ^ (lp : Int) ≤ (p : ℚ) := by
    rw [zpow_natCast]
    exact_mod_cast hpl
  have hpu' : (p : ℚ) < (10 : ℚ) ^ ((lp : Int) + 1) := by
    have h1 : (p : ℚ) < (10 : ℚ) ^ (lp + 1) := by exact_mod_cast hpu
    rw [← zpow_natCast] at h1
    exact_mod_cast h1
  have hql' : (10 : ℚ) ^ (lq : Int) ≤ (q : ℚ) := by
    rw [zpow_natCast]
    exact_mod_cast hql
  have hqu' : (q : ℚ) < (10 : ℚ) ^ ((lq : Int) + 1) := by
    have h1 : (q : ℚ) < (10 : ℚ) ^ (lq + 1) := by exact_mod_cast hqu
    rw [← zpow_natCast] at h1
    exact_mod_cast h1
  have hden : (0 : ℚ) < (q : ℚ) := by exact_mod_cast hq1
  have h10 : (10 : ℚ) ≠ 0 := by norm_num
  have hup : (p : ℚ) / (q : ℚ) < (10 : ℚ) ^ ((lp : Int) - (lq : Int) + 1) := by
    rw [div_lt_iff₀ hden]
    calc (p : ℚ) < (10 : ℚ) ^ ((lp : Int) + 1) := hpu'
      _ = (10 : ℚ) ^ ((lp : Int) - (lq : Int) + 1) * (10 : ℚ) ^ (lq : Int) := by
          rw [← zpow_add₀ h10]
          congr 1
          ring
      _ ≤ (10 : ℚ) ^ ((lp : Int) - (lq : Int) + 1) * (q : ℚ) := by
          apply mul_le_mul_of_nonneg_left hql'
          positivity
  have hlo : (10 : ℚ) ^ ((lp : Int) - (lq : Int) - 1) ≤ (p : ℚ) / (q : ℚ) := by
    rw [le_div_iff₀ hden]
    calc (10 : ℚ) ^ ((lp : Int) - (lq : Int) - 1) * (q : ℚ)
        ≤ (10 : ℚ) ^ ((lp : Int) - (lq : Int) - 1) * (10 : ℚ) ^ ((lq : Int) + 1) := by
          apply mul_le_mul_of_nonneg_left (le_of_lt hqu')
          positivity
      _ = (10 : ℚ) ^ (lp : Int) := by
          rw [← zpow_add₀ h10]
          congr 1
          ring
      _ ≤ (p : ℚ) := hpl'
  rw [← ha] at hup hlo
  split_ifs with hc
  · refine ⟨?_, hup⟩
    have e1 : (lp : Int) - (lq : Int) + 1 - 1 = (lp : Int) - (lq : Int) := by ring
    rw [e1]
    exact hc
  · exact ⟨hlo, not_le.1 hc⟩

theorem pickDigits_spec (a : ℚ) (n : Int) (k s : Nat) (h : pickDigits a n k = some s) :
    ofRat false ((s : ℚ) * pow10 (n - k)) = fin a ∧
      (s = ⌊a / pow10 (n - k)⌋.toNat ∨
        (s = ⌊a / pow10 (n - k)⌋.toNat + 1 ∧ s < 10 ^ k)) := by
  unfold pickDigits at h
  simp only [Bool.and_eq_true, decide_eq_true_eq, Nat.cast_add, Nat.cast_one] at h
  split_ifs at h with h1 h2 h3 h4 h5 h6
  all_goals simp only [Option.some.injEq] at h
  all_goals subst h
  · exact ⟨h1.1, Or.inl rfl⟩
  · exact ⟨by push_cast; exact h1.2.2, Or.inr ⟨rfl, h1.2.1⟩⟩
  · exact ⟨h1.1, Or.inl rfl⟩
  · exact ⟨by push_cast; exact h1.2.2, Or.inr ⟨rfl, h1.2.1⟩⟩
  · exact ⟨h5, Or.inl rfl⟩
  · exact ⟨by push_cast; exact h6.2, Or.inr ⟨rfl, h6.1⟩⟩

theorem pickDigits_isSome_of_exact (a : ℚ) (n : Int) (k N : Nat)
    (hN : a / pow10 (n - k) = (N : ℚ)) (ha : ofRat false a = fin a) :
    (pickDigits a n k).isSome = true := by
  have hs : pow10 (n - k) ≠ 0 := ne_of_gt (pow10_pos _)
  have hlo : ⌊a / pow10 (n - k)⌋.toNat = N := by
    rw [hN]
    simp
  have hval : (N : ℚ) * pow10 (n - k) = a := by
    rw [← hN, div_mul_cancel₀ _ hs]
  have hok : ofRat false ((N : ℚ) * pow10 (n - k)) = fin a := by rw [hval, ha]
  unfold pickDigits
  simp only [hlo, hok, decide_True, Bool.true_and, Bool.and_eq_true, decide_eq_true_eq,
    if_true]
  split_ifs <;> rfl

theorem searchDigits_spec (a : ℚ) (n : Int) (fuel k0 k s : Nat)
    (h : searchDigits a n fuel k0 = some (k, s)) :
    k0 ≤ k ∧ pickDigits a n k = some s := by
  induction fuel generalizing k0 with
  | zero => simp [searchDigits] at h
  | succ fuel ih =>
    unfold searchDigits at h
    split at h
    · rename_i s1 hs1
      simp only [Option.some.injEq, Prod.mk.injEq] at h
      obtain ⟨rfl, rfl⟩ := h
      exact ⟨le_refl _, hs1⟩
    · obtain ⟨h1, h2⟩ := ih (k0 + 1) h
      exact ⟨by omega, h2⟩

theorem searchDigits_isSome (a : ℚ) (n : Int) (fuel k0 k1 : Nat) (h0 : k0 ≤ k1)
    (h1 : k1 < k0 + fuel) (hp : (pickDigits a n k1).isSome = true) :
    (searchDigits a n fuel k0).isSome = true := by
  induction fuel generalizing k0 with
  | zero => omega
  | succ fuel ih =>
    unfold searchDigits
    split
    · rfl
    · rename_i hnone
      have hne : k0 ≠ k1 := by
        intro he
        rw [he] at hnone
        rw [hnone] at hp
        exact absurd hp (by decide)
      exact ih (k0 + 1) (by omega) (by omega)

/-! ## The results of the rounding are binary64 values -/

/-- A multiple `m * 2 ^ e` of a power of two, with `m < 2 ^ 53` and
`e ≥ -1074`, is a binary64 value. -/
theorem roundMag_scaled (m : Nat) (e : Int) (hm : 1 ≤ m) (hm2 : m < 2 ^ 53) (he : -1074 ≤ e)
    (h1024 : (m : ℚ) * (2 : ℚ) ^ e < (2 : ℚ) ^ (1024 : Int)) :
    roundMag ((m : ℚ) * (2 : ℚ) ^ e) = some ((m : ℚ) * (2 : ℚ) ^ e) := by
  have h2 : (2 : ℚ) ≠ 0 := by norm_num
  set a : ℚ := (m : ℚ) * (2 : ℚ) ^ e with ha
  have hapos : 0 < a := by
    have : (0 : ℚ) < (m : ℚ) := by exact_mod_cast hm
    positivity
  have hlt : a < (2 : ℚ) ^ ((53 : Int) + e) := by
    rw [ha, zpow_add₀ h2]
    apply mul_lt_mul_of_pos_right _ (by positivity)
    have : (m : ℚ) < (2 : ℚ) ^ (53 : Nat) := by exact_mod_cast hm2
    exact_mod_cast this
  have hfl := floorLog2_lt_of_lt a hapos _ hlt
  set E : Int := Max.max (floorLog2 a) (-1022) with hE
  have hEle : E ≤ 52 + e := by
    rw [hE]
    apply max_le
    · omega
    · omega
  obtain ⟨t, ht⟩ := Int.eq_ofNat_of_zero_le (by omega : 0 ≤ 52 + e - E)
  apply roundMag_of_int_units a ((m * 2 ^ t : Nat) : Int) h1024
  rw [← hE, ha]
  have e1 : e = (E - 52) + (t : Int) := by omega
  conv_lhs => rw [e1, zpow_add₀ h2, zpow_natCast]
  push_cast
  field_simp
  ring

/-- A result of the rounding that is neither zero nor an overflow is a binary64
value: rounding it again gives itself, and it is a multiple of `2 ^ (-1074)`. -/
theorem roundCore_double (c : ℚ) (hc : 0 < c) (hlt : roundCore c < pow2 1024)
    (h0 : roundCore c ≠ 0) :
    roundMag (roundCore c) = some (roundCore c) ∧
      ∃ N : Nat, roundCore c * (2 : ℚ) ^ (1074 : Nat) = (N : ℚ) := by
  have h2 : (2 : ℚ) ≠ 0 := by norm_num
  rw [pow2_eq_zpow] at hlt
  unfold roundCore at hlt h0 ⊢
  simp only [pow2_eq_zpow] at hlt h0 ⊢
  set E : Int := Max.max (floorLog2 c) (-1022) with hE
  have hE1 : -1022 ≤ E := le_max_right _ _
  have hu : (0 : ℚ) < (2 : ℚ) ^ (E - 52) := by positivity
  have hnn := roundHalfEven_nonneg (c / (2 : ℚ) ^ (E - 52)) (by positivity)
  obtain ⟨m, hm⟩ := Int.eq_ofNat_of_zero_le hnn
  -- the significand is at most `2 ^ 53`
  have hc1 : c < (2 : ℚ) ^ (E + 1) := by
    refine lt_of_lt_of_le (floorLog2_spec c hc).2 ?_
    exact zpow_le_zpow_right₀ (by norm_num) (by
      have : floorLog2 c ≤ E := le_max_left _ _
      omega)
  have hc2 : c / (2 : ℚ) ^ (E - 52) ≤ ((2 ^ 53 : Int) : ℚ) := by
    rw [div_le_iff₀ hu]
    have e1 : (((2 : Int) ^ 53 : Int) : ℚ) * (2 : ℚ) ^ (E - 52) = (2 : ℚ) ^ (E + 1) := by
      have : E + 1 = 53 + (E - 52) := by ring
      rw [this, zpow_add₀ h2]
      norm_num
    rw [e1]
    exact le_of_lt hc1
  have hm53 : (m : Int) ≤ 2 ^ 53 := by
    have := roundHalfEven_mono _ _ hc2
    rw [roundHalfEven_intCast, hm] at this
    exact this
  rw [hm] at hlt h0 ⊢
  have hm1 : 1 ≤ m := by
    rcases Nat.eq_zero_or_pos m with h | h
    · rw [h] at h0
      simp at h0
    · exact h
  have hmle : m ≤ 2 ^ 53 := by exact_mod_cast hm53
  simp only [Int.cast_natCast] at hlt h0 ⊢
  constructor
  · rcases Nat.lt_or_ge m (2 ^ 53) with hlt53 | hge53
    · exact roundMag_scaled m (E - 52) hm1 hlt53 (by omega) hlt
    · have hmeq : m = 2 ^ 53 := le_antisymm hmle hge53
      have e1 : (m : ℚ) * (2 : ℚ) ^ (E - 52) = ((2 ^ 52 : Nat) : ℚ) * (2 : ℚ) ^ (E - 51) := by
        have : E - 51 = 1 + (E - 52) := by ring
        rw [hmeq, this, zpow_add₀ h2]
        push_cast
        ring
      rw [e1] at hlt ⊢
      exact roundMag_scaled (2 ^ 52) (E - 51) (by norm_num) (by norm_num) (by omega) hlt
  · obtain ⟨t, ht⟩ := Int.eq_ofNat_of_zero_le (by omega : 0 ≤ E + 1022)
    refine ⟨m * 2 ^ t, ?_⟩
    have e1 : E - 52 = (t : Int) - ((1074 : Nat) : Int) := by
      push_cast
      omega
    rw [e1, zpow_sub₀ h2, zpow_natCast, zpow_natCast]
    have hP : (2 : ℚ) ^ (1074 : Nat) ≠ 0 := pow_ne_zero _ h2
    generalize (2 : ℚ) ^ (1074 : Nat) = P at hP ⊢
    push_cast
    field_simp

/-- A finite result of a rounding, other than zero: its magnitude is a binary64
value and a multiple of `2 ^ (-1074)`. -/
theorem ofRat_fin_double (b : Bool) (q r : ℚ) (h : ofRat b q = fin r) (hr : r ≠ 0) :
    ofRat false |r| = fin |r| ∧ ∃ N : Nat, |r| * (2 : ℚ) ^ (1074 : Nat) = (N : ℚ) := by
  unfold ofRat at h
  by_cases hq0 : q = 0
  · rw [if_pos hq0] at h
    cases b
    · simp only [zero, Bool.false_eq_true, if_false, fin.injEq] at h
      exact absurd h.symm hr
    · simp [zero] at h
  · rw [if_neg hq0, roundMag_eq_roundCore] at h
    have hqpos : 0 < |q| := abs_pos.2 hq0
    by_cases hlt : roundCore |q| < pow2 1024
    · rw [if_pos hlt] at h
      simp only at h
      have hnn := roundCore_nonneg |q| (abs_nonneg q)
      by_cases hz : roundCore |q| = 0
      · rw [if_pos hz] at h
        cases hd : decide (q < 0)
        · rw [hd] at h
          simp only [zero, Bool.false_eq_true, if_false, fin.injEq] at h
          exact absurd h.symm hr
        · rw [hd] at h
          simp [zero] at h
      · rw [if_neg hz] at h
        simp only [fin.injEq] at h
        have habs : |r| = roundCore |q| := by
          rw [← h]
          split_ifs
          · rw [abs_neg, abs_of_nonneg hnn]
          · exact abs_of_nonneg hnn
        obtain ⟨hround, N, hN⟩ := roundCore_double |q| hqpos hlt hz
        rw [habs]
        refine ⟨?_, N, hN⟩
        unfold ofRat
        rw [if_neg hz, abs_of_nonneg hnn, hround]
        simp only [if_neg hz, if_neg (not_lt.2 hnn)]
    · rw [if_neg hlt] at h
      simp only at h
      cases hd : decide (q < 0) <;> rw [hd] at h <;> simp [infinity] at h

theorem ofRat_pow10_21 : ofRat false (pow10 21) = fin (pow10 21) := by decide!

theorem floor_toNat_bounds (x : ℚ) (lo hi : Nat) (h1 : (lo : ℚ) ≤ x) (h2 : x < (hi : ℚ)) :
    lo ≤ ⌊x⌋.toNat ∧ ⌊x⌋.toNat < hi := by
  have hx0 : (0 : ℚ) ≤ x := le_trans (by positivity) h1
  have hf0 : 0 ≤ ⌊x⌋ := Int.floor_nonneg.2 hx0
  obtain ⟨f, hf⟩ := Int.eq_ofNat_of_zero_le hf0
  have hlo : ((lo : Int) : ℚ) ≤ x := by exact_mod_cast h1
  have h3 : (lo : Int) ≤ ⌊x⌋ := Int.le_floor.2 hlo
  have h4 : ⌊x⌋ < (hi : Int) := Int.floor_lt.2 (by exact_mod_cast h2)
  rw [hf] at h3 h4 ⊢
  simp only [Int.toNat_ofNat]
  constructor
  · exact_mod_cast h3
  · exact_mod_cast h4

/-- The digits of a binary64 value `a` with `10 ^ (-6) ≤ a < 10 ^ 21`: the search
finds a significand `s` of `k` digits and an exponent `n` with `-6 < n ≤ 21`,
and `s * 10 ^ (n - k)` reads back as `a`. -/
theorem shortestDigits_spec (a : ℚ) (N : Nat) (hlo : 1 / (10 : ℚ) ^ (6 : Nat) ≤ a)
    (hhi : a < (10 : ℚ) ^ (21 : Nat)) (hfix : ofRat false a = fin a)
    (hN : a * (2 : ℚ) ^ (1074 : Nat) = (N : ℚ)) :
    ∃ (k s : Nat) (n : Int), shortestDigits a = some (k, s, n) ∧ 1 ≤ k ∧
      10 ^ (k - 1) ≤ s ∧ s < 10 ^ k ∧ -6 < n ∧ n ≤ 21 ∧
      ofRat false ((s : ℚ) * (10 : ℚ) ^ (n - (k : Int))) = fin a := by
  have h10 : (10 : ℚ) ≠ 0 := by norm_num
  have hapos : 0 < a := lt_of_lt_of_le (by positivity) hlo
  obtain ⟨hn1, hn2⟩ := decimalExponent_spec a hapos
  set n0 : Int := decimalExponent a with hn0
  -- the exponent is in the range of plain notation
  have hnlo : -6 < n0 := by
    have h1 : (10 : ℚ) ^ (-6 : Int) < (10 : ℚ) ^ n0 := by
      refine lt_of_le_of_lt ?_ hn2
      have e : (10 : ℚ) ^ (-6 : Int) = 1 / (10 : ℚ) ^ (6 : Nat) := by norm_num
      rw [e]
      exact hlo
    exact (zpow_lt_zpow_iff_right₀ (by norm_num : (1 : ℚ) < 10)).1 h1
  have hnhi : n0 ≤ 21 := by
    have h1 : (10 : ℚ) ^ (n0 - 1) < (10 : ℚ) ^ (21 : Int) := by
      refine lt_of_le_of_lt hn1 ?_
      have e : (10 : ℚ) ^ (21 : Int) = (10 : ℚ) ^ (21 : Nat) := by norm_num
      rw [e]
      exact hhi
    have := (zpow_lt_zpow_iff_right₀ (by norm_num : (1 : ℚ) < 10)).1 h1
    omega
  unfold shortestDigits
  rw [← hn0]
  by_cases hsp : ofRat false (pow10 n0) = fin a
  · -- the power of ten above `a` reads back as `a`
    rw [if_pos hsp]
    have hne21 : n0 ≠ 21 := by
      intro h21
      rw [h21, ofRat_pow10_21] at hsp
      simp only [fin.injEq] at hsp
      rw [pow10_eq_zpow] at hsp
      have e : (10 : ℚ) ^ (21 : Int) = (10 : ℚ) ^ (21 : Nat) := by norm_num
      rw [e] at hsp
      linarith
    refine ⟨1, 1, n0 + 1, rfl, le_refl _, by norm_num, by norm_num, by omega, by omega, ?_⟩
    have e : n0 + 1 - ((1 : Nat) : Int) = n0 := by push_cast; ring
    rw [e, ← pow10_eq_zpow]
    simpa using hsp
  · rw [if_neg hsp]
    -- the exact decimal expansion has `n0 + 1074` digits
    obtain ⟨kx, hkx⟩ := Int.eq_ofNat_of_zero_le (by omega : 0 ≤ n0 + 1074)
    have hex : (pickDigits a n0 kx).isSome = true := by
      have hP2 : (2 : ℚ) ^ (1074 : Nat) ≠ 0 := pow_ne_zero _ (by norm_num)
      have e1 : n0 - (kx : Int) = -((1074 : Nat) : Int) := by push_cast; omega
      have e10 : (10 : ℚ) ^ (1074 : Nat) = (2 : ℚ) ^ (1074 : Nat) * (5 : ℚ) ^ (1074 : Nat) := by
        rw [← mul_pow]
        norm_num
      apply pickDigits_isSome_of_exact a n0 kx (N * 5 ^ 1074) _ hfix
      rw [pow10_eq_zpow, e1, zpow_neg, zpow_natCast, e10, div_eq_mul_inv, inv_inv,
        Nat.cast_mul, Nat.cast_pow, Nat.cast_ofNat, ← hN]
      ring
    have hsome := searchDigits_isSome a n0 1100 1 kx (by omega) (by omega) hex
    obtain ⟨⟨k, s⟩, hks⟩ := Option.isSome_iff_exists.1 hsome
    obtain ⟨hk1, hpick⟩ := searchDigits_spec a n0 1100 1 k s hks
    obtain ⟨hval, hs⟩ := pickDigits_spec a n0 k s hpick
    rw [pow10_eq_zpow] at hval hs
    have hscale : (0 : ℚ) < (10 : ℚ) ^ (n0 - (k : Int)) := by positivity
    -- the quotient by the scale has `k` digits
    have hq1 : ((10 ^ (k - 1) : Nat) : ℚ) ≤ a / (10 : ℚ) ^ (n0 - (k : Int)) := by
      rw [le_div_iff₀ hscale]
      have e : ((10 ^ (k - 1) : Nat) : ℚ) * (10 : ℚ) ^ (n0 - (k : Int)) = (10 : ℚ) ^ (n0 - 1) := by
        push_cast
        rw [← zpow_natCast, ← zpow_add₀ h10]
        congr 1
        have : ((k - 1 : Nat) : Int) = (k : Int) - 1 := by omega
        rw [this]
        ring
      rw [e]
      exact hn1
    have hq2 : a / (10 : ℚ) ^ (n0 - (k : Int)) < ((10 ^ k : Nat) : ℚ) := by
      rw [div_lt_iff₀ hscale]
      have e : ((10 ^ k : Nat) : ℚ) * (10 : ℚ) ^ (n0 - (k : Int)) = (10 : ℚ) ^ n0 := by
        push_cast
        rw [← zpow_natCast, ← zpow_add₀ h10]
        congr 1
        ring
      rw [e]
      exact hn2
    obtain ⟨hb1, hb2⟩ := floor_toNat_bounds _ _ _ hq1 hq2
    refine ⟨k, s, n0, by rw [hks]; rfl, hk1, ?_, ?_, hnlo, hnhi, hval⟩
    · rcases hs with hs | ⟨hs, _⟩ <;> rw [hs] <;> omega
    · rcases hs with hs | ⟨_, hs⟩
      · rw [hs]
        exact hb2
      · exact hs

/-! ## Facts about the decimal digits of a natural number -/

theorem isDigit_digitChar (d : Nat) (h : d < 10) :
    isDigit (Nat.digitChar d) = true ∧ digitValue (Nat.digitChar d) = d := by
  interval_cases d <;> decide

theorem natDigits_isDigit (n : Nat) : ∀ c ∈ natDigits n, isDigit c = true := by
  induction n using Nat.strong_induction_on with
  | _ n ih =>
    by_cases h : n < 10
    · rw [natDigits_of_lt_ten n h]
      intro c hc
      rw [List.mem_singleton] at hc
      rw [hc]
      exact (isDigit_digitChar n h).1
    · rw [natDigits_of_ten_le n (by omega)]
      intro c hc
      rcases List.mem_append.1 hc with hc | hc
      · exact ih (n / 10) (by omega) c hc
      · rw [List.mem_singleton] at hc
        rw [hc]
        exact (isDigit_digitChar _ (Nat.mod_lt _ (by norm_num))).1

theorem digitsValue_foldl (l : Str) (acc : Nat) :
    l.foldl (fun acc c => acc * 10 + digitValue c) acc =
      acc * 10 ^ l.length + digitsValue 10 l := by
  unfold digitsValue
  induction l generalizing acc with
  | nil => simp
  | cons c l ih =>
    rw [List.foldl_cons, List.foldl_cons, ih, ih (0 * 10 + digitValue c), List.length_cons,
      pow_succ]
    ring

theorem digitsValue_append (l1 l2 : Str) :
    digitsValue 10 (l1 ++ l2) = digitsValue 10 l1 * 10 ^ l2.length + digitsValue 10 l2 := by
  conv_lhs => unfold digitsValue
  rw [List.foldl_append]
  exact digitsValue_foldl l2 _

theorem digitsValue_zeros (m : Nat) : digitsValue 10 (List.replicate m '0') = 0 := by
  induction m with
  | zero => rfl
  | succ m ih =>
    rw [List.replicate_succ]
    have h := digitsValue_append ['0'] (List.replicate m '0')
    rw [List.singleton_append] at h
    rw [h, ih]
    have h0 : digitsValue 10 ['0'] = 0 := by decide
    rw [h0]
    simp

theorem digitsValue_natDigits (n : Nat) : digitsValue 10 (natDigits n) = n := by
  induction n using Nat.strong_induction_on with
  | _ n ih =>
    by_cases h : n < 10
    · rw [natDigits_of_lt_ten n h]
      have := (isDigit_digitChar n h).2
      simp [digitsValue, this]
    · rw [natDigits_of_ten_le n (by omega), digitsValue_append, ih (n / 10) (by omega)]
      have := (isDigit_digitChar (n % 10) (Nat.mod_lt _ (by norm_num))).2
      simp only [digitsValue, List.foldl_cons, List.foldl_nil, this, List.length_singleton]
      omega

theorem length_natDigits (k n : Nat) (hk : 1 ≤ k) (h1 : 10 ^ (k - 1) ≤ n) (h2 : n < 10 ^ k) :
    (natDigits n).length = k := by
  induction k generalizing n with
  | zero => omega
  | succ k ih =>
    rcases Nat.eq_zero_or_pos k with hk0 | hkpos
    · subst hk0
      rw [natDigits_of_lt_ten n (by simpa using h2)]
      rfl
    · have h10 : 10 ≤ n := by
        have : 10 ^ 1 ≤ 10 ^ (k + 1 - 1) := Nat.pow_le_pow_right (by norm_num) (by omega)
        omega
      rw [natDigits_of_ten_le n h10, List.length_append, List.length_singleton]
      have e1 : k + 1 - 1 = (k - 1) + 1 := by omega
      rw [e1, pow_succ] at h1
      rw [pow_succ] at h2
      rw [ih (n / 10) hkpos (by omega) (by omega)]

/-! ## The text of a number reads back as the number -/

theorem numeralValue_unsigned (ds frac : Str) :
    numeralValue [] ds frac =
      (digitsValue 10 (ds ++ frac.drop 1) : ℚ) / (10 : ℚ) ^ (frac.drop 1).length := by
  unfold numeralValue
  rw [if_neg (by decide), one_mul]

/-- The text of a magnitude whose decimal exponent `n` has `-6 < n ≤ 21` is a
plain numeral, digits and an optional fraction, that denotes
`s * 10 ^ (n - k)`. -/
theorem toStringMag_plain (a : ℚ) (k s : Nat) (n : Int)
    (h : shortestDigits a = some (k, s, n)) (hk : 1 ≤ k) (hs1 : 10 ^ (k - 1) ≤ s)
    (hs2 : s < 10 ^ k) (hn1 : -6 < n) (hn2 : n ≤ 21) :
    ∃ ds frac : Str, toStringMag a = ds ++ frac ∧ ds ≠ [] ∧ (∀ c ∈ ds, isDigit c = true) ∧
      (frac = [] ∨ (frac.take 1 = ['.'] ∧ ∀ c ∈ frac.drop 1, isDigit c = true)) ∧
      numeralValue [] ds frac = (s : ℚ) * (10 : ℚ) ^ (n - (k : Int)) := by
  have h10 : (10 : ℚ) ≠ 0 := by norm_num
  have hlen := length_natDigits k s hk hs1 hs2
  have hdig := natDigits_isDigit s
  have hval := digitsValue_natDigits s
  have hzero : ∀ m : Nat, ∀ c ∈ List.replicate m '0', isDigit c = true := by
    intro m c hc
    rw [(List.mem_replicate.1 hc).2]
    decide
  unfold toStringMag
  rw [h]
  simp only
  by_cases hA : (k : Int) ≤ n
  · -- an integer: the digits and zeros
    rw [if_pos ⟨hA, hn2⟩]
    obtain ⟨m, hm⟩ := Int.eq_ofNat_of_zero_le (by omega : 0 ≤ n - (k : Int))
    refine ⟨natDigits s ++ List.replicate (n - (k : Int)).toNat '0', [], by simp, ?_, ?_,
      Or.inl rfl, ?_⟩
    · intro hnil
      have := congrArg List.length hnil
      rw [List.length_append, hlen] at this
      simp at this
      omega
    · intro c hc
      rcases List.mem_append.1 hc with hc | hc
      · exact hdig c hc
      · exact hzero _ c hc
    · rw [numeralValue_unsigned, hm]
      simp only [List.drop_nil, List.append_nil, List.length_nil, pow_zero, div_one,
        Int.toNat_ofNat]
      rw [digitsValue_append, hval, digitsValue_zeros, List.length_replicate, zpow_natCast]
      push_cast
      ring
  · rw [if_neg (fun hc => hA hc.1)]
    by_cases hB : 0 < n
    · -- the point is inside the digits
      rw [if_pos ⟨hB, hn2⟩]
      obtain ⟨n1, hn1'⟩ := Int.eq_ofNat_of_zero_le (le_of_lt hB)
      have hn1k : n1 < k := by omega
      have hn1pos : 1 ≤ n1 := by omega
      refine ⟨(natDigits s).take n.toNat, '.' :: (natDigits s).drop n.toNat, rfl, ?_, ?_,
        Or.inr ⟨rfl, ?_⟩, ?_⟩
      · intro hnil
        have := congrArg List.length hnil
        rw [List.length_take, hlen, hn1'] at this
        simp at this
        omega
      · intro c hc
        exact hdig c (List.mem_of_mem_take hc)
      · intro c hc
        exact hdig c (List.mem_of_mem_drop hc)
      · rw [numeralValue_unsigned]
        simp only [List.drop_succ_cons, List.drop_zero, List.take_append_drop, List.length_drop]
        rw [hval, hlen, hn1']
        simp only [Int.toNat_ofNat]
        have e : (n1 : Int) - (k : Int) = -((k - n1 : Nat) : Int) := by omega
        rw [e, zpow_neg, zpow_natCast]
        field_simp
    · -- the digits come after `0.` and zeros
      rw [if_neg (fun hc => hB hc.1), if_pos ⟨hn1, by omega⟩]
      obtain ⟨m, hm⟩ := Int.eq_ofNat_of_zero_le (by omega : 0 ≤ -n)
      refine ⟨['0'], '.' :: (List.replicate (-n).toNat '0' ++ natDigits s), rfl, by simp,
        by decide, Or.inr ⟨rfl, ?_⟩, ?_⟩
      · intro c hc
        simp only [List.drop_succ_cons, List.drop_zero] at hc
        rcases List.mem_append.1 hc with hc | hc
        · exact hzero _ c hc
        · exact hdig c hc
      · rw [numeralValue_unsigned]
        simp only [List.drop_succ_cons, List.drop_zero, List.length_append,
          List.length_replicate]
        rw [digitsValue_append, digitsValue_append, hval, digitsValue_zeros, hlen, hm]
        simp only [Int.toNat_ofNat]
        have h0 : digitsValue 10 ['0'] = 0 := by decide
        rw [h0]
        have e : n - (k : Int) = -((m + k : Nat) : Int) := by push_cast; omega
        rw [e, zpow_neg, zpow_natCast]
        push_cast
        field_simp

theorem numEq_self (x : JSNum) (h : x ≠ nan) : numEq x x = true := by
  simp [numEq, h]

theorem ofRat_neg_of_pos (v a : ℚ) (ha : 0 < a) (h : ofRat false v = fin a) :
    ofRat true (-v) = fin (-a) := by
  unfold ofRat at h ⊢
  by_cases hv0 : v = 0
  · rw [if_pos hv0] at h
    simp only [zero, Bool.false_eq_true, if_false, fin.injEq] at h
    exact absurd h.symm (ne_of_gt ha)
  · rw [if_neg hv0] at h
    rw [if_neg (neg_ne_zero.2 hv0), abs_neg]
    rcases hr : roundMag |v| with _ | r
    · rw [hr] at h
      simp only at h
      cases hd : decide (v < 0) <;> rw [hd] at h <;> simp [infinity] at h
    · rw [hr] at h
      simp only at h ⊢
      by_cases hr0 : r = 0
      · rw [if_pos hr0] at h
        cases hd : decide (v < 0)
        · rw [hd] at h
          simp only [zero, Bool.false_eq_true, if_false, fin.injEq] at h
          exact absurd h.symm (ne_of_gt ha)
        · rw [hd] at h
          simp [zero] at h
      · rw [if_neg hr0] at h ⊢
        simp only [fin.injEq] at h
        have hrnn : 0 ≤ r := by
          rw [roundMag_eq_roundCore] at hr
          split_ifs at hr
          simp only [Option.some.injEq] at hr
          rw [← hr]
          exact roundCore_nonneg _ (abs_nonneg v)
        have hvpos : ¬ v < 0 := by
          intro hneg
          rw [if_pos hneg] at h
          linarith
        rw [if_neg hvpos] at h
        have hv : 0 < v := lt_of_le_of_ne (not_lt.1 hvpos) (Ne.symm hv0)
        rw [if_pos (by linarith : -v < 0), h]

/-- The text of a binary64 value in the plain range is a plain numeral, an
optional `-`, digits and an optional fraction, that `parseFloat` reads back as
an equal number. -/
theorem numberToString_plain (b : Bool) (q : ℚ) (h : InPlainRange (ofRat b q)) :
    ∃ sign ds frac : Str, numberToString (ofRat b q) = sign ++ (ds ++ frac) ∧
      (sign = [] ∨ sign = ['-']) ∧ ds ≠ [] ∧ (∀ c ∈ ds, isDigit c = true) ∧
      (frac = [] ∨ (frac.take 1 = ['.'] ∧ ∀ c ∈ frac.drop 1, isDigit c = true)) ∧
      numEq (ofRat b q) (numeralNumber sign ds frac) = true := by
  have hzero : ∀ x : JSNum, x.isZero = true → numberToString x = "0".toList →
      ∃ sign ds frac : Str, numberToString x = sign ++ (ds ++ frac) ∧
        (sign = [] ∨ sign = ['-']) ∧ ds ≠ [] ∧ (∀ c ∈ ds, isDigit c = true) ∧
        (frac = [] ∨ (frac.take 1 = ['.'] ∧ ∀ c ∈ frac.drop 1, isDigit c = true)) ∧
        numEq x (numeralNumber sign ds frac) = true := by
    intro x hx hs
    refine ⟨[], "0".toList, [], by rw [hs]; rfl, Or.inl rfl, by decide, by decide, Or.inl rfl, ?_⟩
    have hn : numeralNumber [] "0".toList [] = fin 0 := by decide!
    rw [hn]
    cases x with
    | nan => exact absurd hx (by decide)
    | posInf => exact absurd hx (by decide)
    | negInf => exact absurd hx (by decide)
    | negZero => decide
    | fin r =>
      have hr : r = 0 := by simpa [isZero] using hx
      rw [hr]
      decide
  obtain ⟨hfin, hrange⟩ := h
  rcases hx : ofRat b q with _ | _ | _ | _ | r
  · rw [hx] at hfin; exact absurd hfin (by decide)
  · rw [hx] at hfin; exact absurd hfin (by decide)
  · rw [hx] at hfin; exact absurd hfin (by decide)
  · exact hzero negZero rfl rfl
  · by_cases hr0 : r = 0
    · rw [hr0]
      exact hzero (fin 0) (by decide) (by decide)
    · rw [hx] at hrange
      simp only [toRat] at hrange
      rcases hrange with h0 | ⟨hlo, hhi⟩
      · exact absurd h0 hr0
      · obtain ⟨hfix, N, hN⟩ := ofRat_fin_double b q r hx hr0
        obtain ⟨k, s, n, hsd, hk, hs1, hs2, hn1, hn2, hval⟩ :=
          shortestDigits_spec |r| N hlo hhi hfix hN
        obtain ⟨ds, frac, hstr, hne, hds, hfrac, hnum⟩ :=
          toStringMag_plain |r| k s n hsd hk hs1 hs2 hn1 hn2
        rw [← hnum] at hval
        by_cases hneg : r < 0
        · refine ⟨['-'], ds, frac, ?_, Or.inr rfl, hne, hds, hfrac, ?_⟩
          · show numberToString (fin r) = _
            unfold numberToString
            simp only [if_neg hr0, if_pos hneg]
            rw [abs_of_neg hneg] at hstr
            rw [hstr]
            rfl
          · have hnn : numeralNumber ['-'] ds frac = fin r := by
              unfold numeralNumber
              have e1 : numeralValue ['-'] ds frac = -numeralValue [] ds frac := by
                unfold numeralValue
                simp
              rw [e1]
              have h2 := ofRat_neg_of_pos _ |r| (abs_pos.2 hr0) hval
              rw [abs_of_neg hneg, neg_neg] at h2
              simpa using h2
            rw [hnn]
            exact numEq_self _ (by simp)
        · have hpos : 0 < r := lt_of_le_of_ne (not_lt.1 hneg) (Ne.symm hr0)
          rw [abs_of_pos hpos] at hstr hval
          refine ⟨[], ds, frac, ?_, Or.inl rfl, hne, hds, hfrac, ?_⟩
          · show numberToString (fin r) = _
            unfold numberToString
            simp only [if_neg hr0, if_neg hneg]
            rw [hstr]
            rfl
          · have hnn : numeralNumber [] ds frac = fin r := by
              unfold numeralNumber
              simpa using hval
            rw [hnn]
            exact numEq_self _ (by simp)

/-! ## The snapshot of a mapping of plain numbers -/

theorem plainNumeral_of_isPlainNumber (v : Str) (h : isPlainNumber v = true) :
    ∃ sign ds frac, PlainNumeral v sign ds frac := by
  have key : ∀ t : Str, (!(t.takeWhile isDigit).isEmpty &&
      ((t.dropWhile isDigit).isEmpty ||
        ((t.dropWhile isDigit).take 1 == ['.'] && ((t.dropWhile isDigit).drop 1).all isDigit))) =
      true →
      ∃ ds frac, t = ds ++ frac ∧ ds ≠ [] ∧ (∀ c ∈ ds, isDigit c = true) ∧
        (frac = [] ∨ (frac.take 1 = ['.'] ∧ ∀ c ∈ frac.drop 1, isDigit c = true)) := by
    intro t ht
    simp only [Bool.and_eq_true, Bool.not_eq_true', Bool.or_eq_true, List.isEmpty_iff,
      beq_iff_eq, List.all_eq_true] at ht
    obtain ⟨h1, h2⟩ := ht
    refine ⟨t.takeWhile isDigit, t.dropWhile isDigit,
      (List.takeWhile_append_dropWhile isDigit t).symm, ?_, fun c hc => List.mem_takeWhile_imp hc,
      ?_⟩
    · intro hnil
      rw [hnil] at h1
      simp at h1
    · rcases h2 with h2 | h2
      · exact Or.inl h2
      · exact Or.inr h2
  unfold isPlainNumber at h
  rcases v with _ | ⟨c, t⟩
  · simp at h
  · by_cases hc : c = '-'
    · subst hc
      obtain ⟨ds, frac, h1, h2, h3, h4⟩ := key t h
      exact ⟨['-'], ds, frac, by rw [h1]; rfl, Or.inr rfl, h2, h3, h4⟩
    · split at h
      · rename_i heq
        simp only [List.cons.injEq] at heq
        exact absurd heq.1 hc
      · obtain ⟨ds, frac, h1, h2, h3, h4⟩ := key (c :: t) h
        exact ⟨[], ds, frac, by rw [h1]; rfl, Or.inl rfl, h2, h3, h4⟩

theorem replaceSpaceRuns_of_no_space (k : Str) (h : ∀ c ∈ k, isWhiteSpace c = false) :
    replaceSpaceRuns k = k := by
  induction k with
  | nil => rfl
  | cons c k ih =>
    unfold replaceSpaceRuns
    rw [h c (List.mem_cons_self _ _)]
    simp only [Bool.false_eq_true, if_false]
    rw [ih (fun d hd => h d (List.mem_cons_of_mem _ hd))]

theorem firstNumeral_of_plainNumeral (v sign ds frac : Str) (h : PlainNumeral v sign ds frac) :
    FirstNumeral v [] sign ds frac [] [] [] := by
  obtain ⟨hv, hsign, hne, hds, hfrac⟩ := h
  refine ⟨by simpa using hv, by simp, ?_, hne, hds, ?_, by simp, by simp, by simp, by simp,
    by simp⟩
  · rcases hsign with hs | hs
    · exact Or.inr ⟨hs, by simp⟩
    · exact Or.inl hs
  · rcases hfrac with hf | hf
    · exact Or.inl ⟨hf, by simp⟩
    · exact Or.inr hf

/-- What the loop body emits for a normalized key and a plain numeral. -/
theorem output_of_plainNumeral (uni : Str → Str) (key v sign ds frac : Str)
    (hk : IsNormalizedKey uni key) (h : PlainNumeral v sign ds frac) :
    outputKey uni key v = key ∧ outputValue v = JSVal.num (numeralNumber sign ds frac) ∧
      parseFloat (some v) = numeralNumber sign ds frac := by
  have h1 := convertEntry_firstNumeral uni key v [] sign ds frac [] [] []
    (firstNumeral_of_plainNumeral v sign ds frac h)
  rw [convertEntry_eq] at h1
  simp only [if_true, Except.ok.injEq, Prod.mk.injEq] at h1
  rw [hk.1, replaceSpaceRuns_of_no_space key hk.2] at h1
  refine ⟨h1.1, h1.2, ?_⟩
  rw [h.1]
  exact parseFloat_numeral sign ds frac h.2.1 h.2.2.1 h.2.2.2.1 h.2.2.2.2

theorem mem_of_get {α : Type} (o : Obj α) (k : Str) (v : α) (h : Obj.get o k = some v) :
    (k, v) ∈ o := by
  induction o with
  | nil => simp [Obj.get] at h
  | cons e o ih =>
    obtain ⟨k0, v0⟩ := e
    unfold Obj.get at h
    by_cases hk : k0 = k
    · rw [if_pos hk] at h
      simp only [Option.some.injEq] at h
      rw [hk, h]
      exact List.mem_cons_self _ _
    · rw [if_neg hk] at h
      exact List.mem_cons_of_mem _ (ih h)

theorem get_render (o : Obj JSVal) (k : Str) :
    Obj.get (render o) k = (Obj.get o k).map renderValue := by
  unfold render
  induction o with
  | nil => rfl
  | cons e o ih =>
    obtain ⟨k0, v0⟩ := e
    simp only [List.map_cons, Obj.get]
    by_cases hk : k0 = k
    · rw [if_pos hk, if_pos hk]
      rfl
    · rw [if_neg hk, if_neg hk]
      exact ih

theorem keys_render (o : Obj JSVal) : Obj.keys (render o) = Obj.keys o := by
  simp [render, Obj.keys, List.map_map, Function.comp_def]

/-- The snapshot of a mapping with distinct normalized keys and plain numerals:
the same keys, each with the number of its numeral. -/
theorem get_snapshot_plain (uni : Str → Str) (d : Obj Str) (hnd : (Obj.keys d).Nodup)
    (hproto : "__proto__".toList ∉ Obj.keys d)
    (hkeys : ∀ e ∈ d, IsNormalizedKey uni e.1)
    (hvals : ∀ e ∈ d, ∃ sign ds frac, PlainNumeral e.2 sign ds frac) (k : Str) :
    Obj.get (snapshot uni d) k =
      (Obj.get d k).map (fun v => JSVal.num (parseFloat (some v))) := by
  have hout : ∀ e ∈ d, outputKey uni e.1 e.2 = e.1 ∧
      outputValue e.2 = JSVal.num (parseFloat (some e.2)) := by
    intro e he
    obtain ⟨sign, ds, frac, hp⟩ := hvals e he
    obtain ⟨h1, h2, h3⟩ := output_of_plainNumeral uni e.1 e.2 sign ds frac (hkeys e he) hp
    exact ⟨h1, by rw [h2, h3]⟩
  unfold snapshot
  rcases hg : Obj.get d k with _ | v
  · have hk : k ∉ Obj.keys d := (Obj.not_mem_keys_iff d k).2 hg
    rw [foldl_set_get_of_ne (fun e => outputKey uni e.1 e.2) (fun e => outputValue e.2) d [] k
      (by
        intro e he hek
        apply hk
        have hek2 : outputKey uni e.1 e.2 = k := hek
        rw [← hek2, (hout e he).1]
        exact List.mem_map.2 ⟨e, he, rfl⟩)]
    rfl
  · have hmem := mem_of_get d k v hg
    obtain ⟨front, back, hsplit⟩ := List.append_of_mem hmem
    have hnd2 : (Obj.keys front ++ k :: Obj.keys back).Nodup := by
      have := hnd
      rw [hsplit] at this
      simpa [Obj.keys] using this
    have hback : ∀ e1 ∈ back, e1.1 ≠ k := by
      intro e1 he1 hek
      have h2 := (List.nodup_append.1 hnd2).2.1
      have h3 := (List.nodup_cons.1 h2).1
      apply h3
      rw [← hek]
      exact List.mem_map.2 ⟨e1, he1, rfl⟩
    have hkp : k ≠ "__proto__".toList := by
      intro hk
      apply hproto
      rw [← hk]
      exact List.mem_map.2 ⟨(k, v), hmem, rfl⟩
    have hlast := foldl_set_get_last (fun e => outputKey uni e.1 e.2)
      (fun e => outputValue e.2) front back (k, v) []
      (by
        show outputKey uni k v ≠ _
        rw [(hout (k, v) hmem).1]
        exact hkp)
      (by
        intro e1 he1
        show outputKey uni e1.1 e1.2 ≠ outputKey uni k v
        rw [(hout e1 (by rw [hsplit]; simp [he1])).1, (hout (k, v) hmem).1]
        exact hback e1 he1)
    have e1 : outputKey uni k v = k := (hout (k, v) hmem).1
    have e2 : outputValue v = JSVal.num (parseFloat (some v)) := (hout (k, v) hmem).2
    simp only [e1, e2] at hlast
    rw [hsplit]
    exact hlast

/-- The text of the number of a plain numeral in the plain range is again a
plain numeral, and reads back as an equal number. -/
theorem numberToString_parseFloat (v : Str) (hv : ∃ sign ds frac, PlainNumeral v sign ds frac)
    (hr : InPlainRange (parseFloat (some v))) :
    (∃ sign ds frac, PlainNumeral (numberToString (parseFloat (some v))) sign ds frac) ∧
      numEq (parseFloat (some v))
        (parseFloat (some (numberToString (parseFloat (some v))))) = true := by
  obtain ⟨sign, ds, frac, hp⟩ := hv
  have hpf : parseFloat (some v) = numeralNumber sign ds frac := by
    rw [hp.1]
    exact parseFloat_numeral sign ds frac hp.2.1 hp.2.2.1 hp.2.2.2.1 hp.2.2.2.2
  rw [hpf] at hr ⊢
  unfold numeralNumber at hr ⊢
  obtain ⟨sign1, ds1, frac1, hstr, hsign1, hne1, hds1, hfrac1, heq⟩ :=
    numberToString_plain _ _ hr
  refine ⟨⟨sign1, ds1, frac1, hstr, hsign1, hne1, hds1, hfrac1⟩, ?_⟩
  rw [hstr, parseFloat_numeral sign1 ds1 frac1 hsign1 hne1 hds1 hfrac1]
  exact heq

theorem mem_keys_of_get_ne_none {α : Type} (o : Obj α) (k : Str) (h : Obj.get o k ≠ none) :
    k ∈ Obj.keys o := by
  by_contra hk
  exact h ((Obj.not_mem_keys_iff o k).1 hk)

/-! ## Readings beyond the range of the numbers -/

/-- What `parseInt` returns is NaN or a rounded number. -/
theorem parseInt_cases (v : Option Str) :
    parseInt v = nan ∨ ∃ (b : Bool) (q : ℚ), parseInt v = ofRat b q := by
  unfold parseInt
  dsimp only
  split_ifs
  all_goals first | exact Or.inl rfl | exact Or.inr ⟨_, _, rfl⟩

theorem parseInt_inRange (v : Option Str) (h : parseInt v ≠ nan) : InRange (parseInt v) := by
  rcases parseInt_cases v with h1 | ⟨b, q, h1⟩
  · exact absurd h1 h
  · rw [h1]
    exact inRange_ofRat b q

theorem ofRat_pow2_1021 : ofRat false (pow2 1021) = fin (pow2 1021) := by decide!

theorem pow2_1024_eq : pow2 1024 = 8 * pow2 1021 := by
  have e : (1024 : Int) = 1021 + 3 := by norm_num
  rw [pow2_eq_zpow, pow2_eq_zpow, e, zpow_add₀ (two_ne_zero)]
  norm_num

/-- Rounding a number of magnitude at most `2 ^ 1021` does not overflow. -/
theorem ofRat_isFinite_of_abs_le (b : Bool) (q : ℚ) (h : |q| ≤ pow2 1021) :
    (ofRat b q).isFinite = true := by
  have hlt : pow2 1021 < pow2 1024 := by
    have := pow2_pos 1021
    rw [pow2_1024_eq]
    linarith
  have htop : clip (ofRat false (pow2 1021)) = pow2 1021 := by
    rw [ofRat_pow2_1021]
    rfl
  have hbot : clip (ofRat false (-pow2 1021)) = -pow2 1021 := by
    have : ofRat false (-pow2 1021) = fin (-pow2 1021) := by decide!
    rw [this]
    rfl
  obtain ⟨h1, h2⟩ := abs_le.1 h
  rcases inRange_cases _ (inRange_ofRat b q) with hinf | hinf | hf
  · exfalso
    have hc := clip_ofRat_mono b false q (pow2 1021) h2
    rw [htop, hinf] at hc
    have hc2 : pow2 1024 ≤ pow2 1021 := hc
    linarith
  · exfalso
    have hc := clip_ofRat_mono false b (-pow2 1021) q h1
    rw [hbot, hinf] at hc
    have hc2 : -pow2 1021 ≤ -pow2 1024 := hc
    linarith
  · exact hf

/-- The voltage sag of a finite reading is finite: the product with the
internal resistance, which is below `1 / 8`, does not overflow. -/
theorem sag_isFinite (y : JSNum) (hy : InRange y) (hf : y.isFinite = true) :
    (mul internalResistance y).isFinite = true := by
  have hir : internalResistance.isFinite = true := by rw [internalResistance_eq]; rfl
  rw [mul_of_isFinite _ _ hir hf]
  apply ofRat_isFinite_of_abs_le
  rw [internalResistance_eq, abs_mul]
  have h1 : |(fin (3602879701896397 / 36028797018963968)).toRat| ≤ 1 / 8 := by
    show |(3602879701896397 / 36028797018963968 : ℚ)| ≤ 1 / 8
    rw [abs_of_pos (by norm_num)]
    norm_num
  have h2 := hy.2
  have h3 := abs_nonneg y.toRat
  have h4 := pow2_1024_eq
  calc |(fin (3602879701896397 / 36028797018963968)).toRat| * |y.toRat|
      ≤ 1 / 8 * |y.toRat| := mul_le_mul_of_nonneg_right h1 h3
    _ ≤ pow2 1021 := by linarith

theorem add_isFinite_ne_nan (x u : JSNum) (hx : x ≠ nan) (hu : u.isFinite = true) :
    add x u ≠ nan := by
  cases u with
  | nan => exact absurd hu (by decide)
  | posInf => exact absurd hu (by decide)
  | negInf => exact absurd hu (by decide)
  | negZero => exact add_negZero_ne_nan x hx
  | fin q => exact add_fin_ne_nan x q hx

theorem sag_posInf : mul internalResistance posInf = posInf := by decide!

theorem sag_negInf : mul internalResistance negInf = negInf := by decide!

/-- The percentage before clamping is NaN only when a reading is NaN or both
readings are the same infinity. -/
theorem rawPercentage_ne_nan_of_inRange (x y : JSNum) (hx : InRange x) (hy : InRange y)
    (h1 : ¬ (x = posInf ∧ y = posInf)) (h2 : ¬ (x = negInf ∧ y = negInf)) :
    rawPercentage x y ≠ nan := by
  have hadj : sub x (mul internalResistance y) ≠ nan := by
    rcases inRange_cases y hy with hyp | hyn | hyf
    · rw [hyp, sag_posInf]
      rw [hyp] at h1
      cases x with
      | nan => exact absurd rfl hx.1
      | posInf => exact absurd ⟨rfl, rfl⟩ h1
      | negInf => decide
      | negZero => decide
      | fin q => simp [sub, neg, add]
    · rw [hyn, sag_negInf]
      rw [hyn] at h2
      cases x with
      | nan => exact absurd rfl hx.1
      | posInf => decide
      | negInf => exact absurd ⟨rfl, rfl⟩ h2
      | negZero => decide
      | fin q => simp [sub, neg, add]
    · unfold sub
      exact add_isFinite_ne_nan _ _ hx.1 (neg_isFinite _ (sag_isFinite y hy hyf)).1
  unfold rawPercentage
  simp only [fullVoltage_sub_emptyVoltage]
  apply mul_fin_ne_nan _ _ (by norm_num)
  apply div_fin_ne_nan _ _ (by norm_num)
  exact sub_fin_ne_nan _ _ hadj

/-! ## Claim C1: a chunk of malformed lines -/

/-- Claim C1, as stated, fails: on the empty mapping the chunk `garbage`, whose
only line has no `=`, does not leave the mapping unchanged, because `parseData`
ends with `calculateBatteryPercentage`, which stores `iRemaining_real`. -/
theorem parseData_malformed_chunk_adds_percentage :
    OnlyMalformedLines "garbage".toList ∧
    Obj.get State.init.latestData "iRemaining_real".toList = none ∧
    Obj.get (parseData State.init "garbage".toList).latestData "iRemaining_real".toList =
      some "NaN".toList := by
  decide!

/-- Claim C1, amended: for every state and every chunk made only of malformed
lines, `parseData` leaves every key other than `iRemaining_real` with the same
presence and value, stores under `iRemaining_real` the percentage computed
from the unchanged readings, and leaves the voltage window alone. -/
theorem parseData_malformed_chunk_frame (s : State) (chunk : Str)
    (h : OnlyMalformedLines chunk) :
    (∀ k, k ≠ "iRemaining_real".toList →
      Obj.get (parseData s chunk).latestData k = Obj.get s.latestData k) ∧
    Obj.get (parseData s chunk).latestData "iRemaining_real".toList =
      some (storedPercentage s.latestData) ∧
    (parseData s chunk).lastBatteryVoltage = s.lastBatteryVoltage := by
  have hfold : (split '\n' chunk).foldl parseLine s.latestData = s.latestData :=
    foldl_parseLine_malformed s.latestData _ h
  have hcalc : parseData s chunk = calculateBatteryPercentage s := by
    unfold parseData
    rw [hfold]
  rw [hcalc]
  refine ⟨fun k hk => ?_, ?_, rfl⟩
  · rw [get_calculateBatteryPercentage, if_neg hk]
  · rw [get_calculateBatteryPercentage, if_pos rfl]

/-- Witness of `parseData_malformed_chunk_frame`: a mapping with one entry and a
chunk of three discarded lines. -/
theorem parseData_malformed_chunk_frame_witness :
    OnlyMalformedLines "garbage\n a=b=c\n  ".toList ∧
    ((∀ k, k ≠ "iRemaining_real".toList →
      Obj.get (parseData { latestData := [("Status".toList, "OK".toList)],
                           lastBatteryVoltage := [] } "garbage\n a=b=c\n  ".toList).latestData k =
        Obj.get [("Status".toList, "OK".toList)] k) ∧
    Obj.get (parseData { latestData := [("Status".toList, "OK".toList)],
                         lastBatteryVoltage := [] } "garbage\n a=b=c\n  ".toList).latestData
        "iRemaining_real".toList =
      some (storedPercentage [("Status".toList, "OK".toList)]) ∧
    (parseData { latestData := [("Status".toList, "OK".toList)],
                 lastBatteryVoltage := [] } "garbage\n a=b=c\n  ".toList).lastBatteryVoltage = []) :=
  ⟨by decide,
   parseData_malformed_chunk_frame
     { latestData := [("Status".toList, "OK".toList)], lastBatteryVoltage := [] }
     "garbage\n a=b=c\n  ".toList (by decide)⟩

/-! ## Claim C2: one output entry per input key -/

/-- Claim C2, as stated, fails: after the chunk with the lines `a b = x` and
`a  b = y` the mapping has three keys, and `convertDataUnits` returns a mapping
with two: the keys `a b` and `a  b` both become `a_b`. -/
theorem convertDataUnits_keys_collapse :
    Obj.keys (parseData State.init "a b = x\na  b = y".toList).latestData =
      ["a b".toList, "a  b".toList, "iRemaining_real".toList] ∧
    convertDataUnits id (parseData State.init "a b = x\na  b = y".toList) =
      Except.ok [("a_b".toList, JSVal.str "y".toList),
                 ("iremaining_real".toList, JSVal.str "NaN".toList)] := by
  decide!

/-- Claim C2, amended: for every state `convertDataUnits` returns a mapping
with at most one entry per input key.  Its keys are distinct, their number is
at most the number of keys of `latestData`, it equals that number when the
output keys computed for the entries are pairwise distinct and none is
`__proto__`, and it is smaller when two entries have the same output key. -/
theorem convertDataUnits_entry_count (uni : Str → Str) (s : State) :
    ∃ out, convertDataUnits uni s = Except.ok out ∧ (Obj.keys out).Nodup ∧
      out.length ≤ s.latestData.length ∧
      ((s.latestData.map (fun e => outputKey uni e.1 e.2)).Nodup →
        "__proto__".toList ∉ s.latestData.map (fun e => outputKey uni e.1 e.2) →
        out.length = s.latestData.length) ∧
      (¬ (s.latestData.map (fun e => outputKey uni e.1 e.2)).Nodup →
        out.length < s.latestData.length) := by
  refine ⟨snapshot uni s.latestData, convertDataUnits_eq uni s, ?_, ?_, ?_, ?_⟩
  · exact foldl_set_nodup_keys _ _ _ _ List.nodup_nil
  · have h := foldl_set_length_le (fun e => outputKey uni e.1 e.2)
      (fun e => outputValue e.2) s.latestData []
    simpa [snapshot] using h
  · intro hn hp
    have h := (foldl_set_length_eq_iff (fun e => outputKey uni e.1 e.2)
      (fun e => outputValue e.2) s.latestData []).2 ⟨hn, hp, fun _ _ => rfl⟩
    simpa [snapshot] using h
  · intro hn
    have hle := foldl_set_length_le (fun e => outputKey uni e.1 e.2)
      (fun e => outputValue e.2) s.latestData []
    have hiff := foldl_set_length_eq_iff (fun e => outputKey uni e.1 e.2)
      (fun e => outputValue e.2) s.latestData []
    have hne : (snapshot uni s.latestData).length ≠ s.latestData.length := by
      intro heq
      apply hn
      have h2 : (List.foldl (fun acc e => Obj.set acc (outputKey uni e.1 e.2) (outputValue e.2))
          ([] : Obj JSVal) s.latestData).length = ([] : Obj JSVal).length + s.latestData.length := by
        simpa [snapshot] using heq
      exact (hiff.1 h2).1
    have hle2 : (snapshot uni s.latestData).length ≤ s.latestData.length := by
      simpa [snapshot] using hle
    omega

/-! ## Claim C3: a number with a unit -/

/-- Claim C3, as stated, fails: after the chunk with the lines `a = 1v` and
`a_v = 2` the entry `a` has the value `1v`, a digit and a unit, so its output key
is `a_v` and its number is 1; but the later entry `a_v` is stored under the same
output key, and `convertDataUnits` returns the number 2 there. -/
theorem convertDataUnits_unit_key_overwritten :
    Obj.get (parseData State.init "a = 1v\na_v = 2".toList).latestData "a".toList =
      some "1v".toList ∧
    NumberWithUnit "1v".toList [] "1".toList [] [] "v".toList ∧
    replaceSpaceRuns (toLowerCase id "a".toList) ++ '_' :: toLowerCase id "v".toList =
      "a_v".toList ∧
    numeralNumber [] "1".toList [] = fin 1 ∧
    convertDataUnits id (parseData State.init "a = 1v\na_v = 2".toList) =
      Except.ok [("a_v".toList, JSVal.num (fin 2)),
                 ("iremaining_real".toList, JSVal.str "NaN".toList)] :=
  ⟨by decide!,
   ⟨rfl, Or.inl rfl, by decide, by decide, Or.inl rfl, by decide, by decide, by decide⟩,
   by decide!, by decide!, by decide!⟩

/-- Claim C3, amended: for every entry `(key, value)` of `latestData` whose value
is, as a whole string, an optional `-`, one or more digits, an optional decimal
fraction, optional white space and a non-empty alphabetic unit, and after which
no entry in property order has the same output key, `convertDataUnits` returns
under the key made of the key in lower case with every run of white space
replaced by one underscore, `_` and the unit in lower case, the number that the
numeric part denotes (the nearest binary64 value).  In particular the mapping
with `Battery voltage` = `11800mV`, `Status` = `OK`, `Temp` = `23.5 C` yields
`battery_voltage_mv` = 11800, `status` = `OK`, `temp_c` = 23.5. -/
theorem convertDataUnits_number_with_unit (uni : Str → Str) (s : State)
    (front back : Obj Str) (key value sign ds frac ws unit : Str)
    (hs : s.latestData = front ++ (key, value) :: back)
    (hv : NumberWithUnit value sign ds frac ws unit)
    (hlater : ∀ e ∈ back, outputKey uni e.1 e.2 ≠
      replaceSpaceRuns (toLowerCase uni key) ++ '_' :: toLowerCase uni unit) :
    (∃ out, convertDataUnits uni s = Except.ok out ∧
      Obj.get out (replaceSpaceRuns (toLowerCase uni key) ++ '_' :: toLowerCase uni unit) =
        some (JSVal.num (numeralNumber sign ds frac))) ∧
    convertDataUnits uni
        { latestData := [("Battery voltage".toList, "11800mV".toList),
                         ("Status".toList, "OK".toList), ("Temp".toList, "23.5 C".toList)],
          lastBatteryVoltage := [] } =
      Except.ok [("battery_voltage_mv".toList, JSVal.num (fin 11800)),
                 ("status".toList, JSVal.str "OK".toList),
                 ("temp_c".toList, JSVal.num (fin (47 / 2)))] := by
  constructor
  · refine ⟨snapshot uni s.latestData, convertDataUnits_eq uni s, ?_⟩
    have hk := outputKey_numberWithUnit uni key value sign ds frac ws unit hv
    have hval := outputValue_numberWithUnit value sign ds frac ws unit hv
    have hp : outputKey uni key value ≠ "__proto__".toList := by
      rw [hk]
      exact unitKey_ne_proto uni _ unit hv.unit_ne hv.unit_ok
    have h := foldl_set_get_last (fun e => outputKey uni e.1 e.2) (fun e => outputValue e.2)
      front back (key, value) [] hp (by
        intro e he
        show outputKey uni e.1 e.2 ≠ outputKey uni key value
        rw [hk]
        exact hlater e he)
    rw [← hk, ← hval, hs]
    exact h
  · rw [convertDataUnits_eq, snapshot_ascii uni _ (by decide)]
    decide!

/-- Witness of `convertDataUnits_number_with_unit`: the entry `Temp` = `23.5 C`
of the mapping of the claim. -/
theorem convertDataUnits_number_with_unit_witness :
    NumberWithUnit "23.5 C".toList [] "23".toList ".5".toList " ".toList "C".toList ∧
    ((∃ out, convertDataUnits id
        { latestData := [("Battery voltage".toList, "11800mV".toList),
                         ("Status".toList, "OK".toList), ("Temp".toList, "23.5 C".toList)],
          lastBatteryVoltage := [] } = Except.ok out ∧
      Obj.get out (replaceSpaceRuns (toLowerCase id "Temp".toList) ++
          '_' :: toLowerCase id "C".toList) =
        some (JSVal.num (numeralNumber [] "23".toList ".5".toList))) ∧
    convertDataUnits id
        { latestData := [("Battery voltage".toList, "11800mV".toList),
                         ("Status".toList, "OK".toList), ("Temp".toList, "23.5 C".toList)],
          lastBatteryVoltage := [] } =
      Except.ok [("battery_voltage_mv".toList, JSVal.num (fin 11800)),
                 ("status".toList, JSVal.str "OK".toList),
                 ("temp_c".toList, JSVal.num (fin (47 / 2)))]) :=
  ⟨⟨rfl, Or.inl rfl, by decide, by decide, Or.inr ⟨rfl, by decide⟩, by decide, by decide,
     by decide⟩,
   convertDataUnits_number_with_unit id
     { latestData := [("Battery voltage".toList, "11800mV".toList),
                      ("Status".toList, "OK".toList), ("Temp".toList, "23.5 C".toList)],
       lastBatteryVoltage := [] }
     [("Battery voltage".toList, "11800mV".toList), ("Status".toList, "OK".toList)] []
     "Temp".toList "23.5 C".toList [] "23".toList ".5".toList " ".toList "C".toList rfl
     ⟨rfl, Or.inl rfl, by decide, by decide, Or.inr ⟨rfl, by decide⟩, by decide, by decide,
       by decide⟩
     (by intro e he; cases he)⟩

/-! ## Claim C4: chunking invariance -/

/-- Claim C4: for every initial state and every non-empty sequence of
well-formed lines (each with exactly one `=`), one call of `parseData` on the
lines joined by newlines and one call per line, in the same order, end in
mappings with the same keys and the same values. -/
theorem parseData_chunking_invariance (s : State) (lines : List Str) (hne : lines ≠ [])
    (_hwf : ∀ line ∈ lines, line.count '=' = 1) :
    SameEntries (parseData s (List.intercalate ['\n'] lines)).latestData
      (lines.foldl parseData s).latestData :=
  parseData_join_sameEntries s lines hne

/-- Witness of `parseData_chunking_invariance`: two lines on the initial
state. -/
theorem parseData_chunking_invariance_witness :
    ["Battery voltage = 11800mV".toList, "Battery discharge current = 1000mA".toList] ≠ [] ∧
    (∀ line ∈ ["Battery voltage = 11800mV".toList, "Battery discharge current = 1000mA".toList],
      line.count '=' = 1) ∧
    SameEntries
      (parseData State.init (List.intercalate ['\n']
        ["Battery voltage = 11800mV".toList,
         "Battery discharge current = 1000mA".toList])).latestData
      (["Battery voltage = 11800mV".toList,
        "Battery discharge current = 1000mA".toList].foldl parseData State.init).latestData :=
  ⟨by decide, by decide,
   parseData_chunking_invariance State.init
     ["Battery voltage = 11800mV".toList, "Battery discharge current = 1000mA".toList]
     (by decide) (by decide)⟩

/-! ## Claim C5: the last occurrence of a key wins -/

/-- Claim C5 at the chunk `__proto__ = x`: the line has exactly one `=`, its
trimmed key is `__proto__` and its trimmed value is `x`, yet after `parseData`
the mapping has no entry for `__proto__`: the assignment went to the accessor
inherited from `Object.prototype`. -/
theorem parseData_proto_line_dropped :
    split '=' "__proto__ = x".toList = ["__proto__ ".toList, " x".toList] ∧
    trim "__proto__ ".toList = "__proto__".toList ∧
    trim " x".toList = "x".toList ∧
    Obj.get (parseData State.init "__proto__ = x".toList).latestData "__proto__".toList = none ∧
    (parseData State.init "__proto__ = x".toList).latestData =
      [("iRemaining_real".toList, "NaN".toList)] := by
  decide!

/-! ## Claim C6: the percentage in the range -/

/-- Claim C6: for every state in which `Battery voltage` parses to an integer
`V` and `Battery discharge current` parses to an integer `I`:
(1) if the percentage `raw = (V - 0.1 * I - 9600) / (12000 - 9600) * 100`,
evaluated in binary64 arithmetic as the code evaluates it, lies in `[0, 100]`,
then `calculateBatteryPercentage` stores under `iRemaining_real` the value `raw`
formatted by `toFixed(2)`: the nearest number of hundredths, written with
exactly two decimal places;
(2) if the readings are at most `10 ^ 9` in absolute value and the same formula
evaluated in exact arithmetic lies in `[0, 100]`, then the stored text is a
number of hundredths written with two decimal places that is within `0.005` of
the exact percentage;
(3) `V = 11800`, `I = 1000` gives the sag 100, the adjusted voltage 11700, the
percentage 87.5 and the text `87.50`. -/
theorem calculateBatteryPercentage_in_range (s : State) (x y : JSNum) (V I : Int)
    (hx : parseInt (Obj.get s.latestData "Battery voltage".toList) = x)
    (hy : parseInt (Obj.get s.latestData "Battery discharge current".toList) = y)
    (hV : IsInteger x V) (hI : IsInteger y I) :
    (∀ r : ℚ, rawPercentage x y = fin r → 0 ≤ r → r ≤ 100 →
      Obj.get (calculateBatteryPercentage s).latestData "iRemaining_real".toList =
          some (toFixed 2 (fin r)) ∧
        toFixed 2 (fin r) = twoDecimals ⌊r * (10 : ℚ) ^ 2 + 1 / 2⌋.toNat) ∧
    (|V| ≤ 10 ^ 9 → |I| ≤ 10 ^ 9 →
      0 ≤ exactPercentage V I → exactPercentage V I ≤ 100 →
      ∃ n : Nat,
        Obj.get (calculateBatteryPercentage s).latestData "iRemaining_real".toList =
          some (twoDecimals n) ∧
        |(n : ℚ) / 100 - exactPercentage V I| ≤ 1 / 200) ∧
    (mul internalResistance (fin 1000) = fin 100 ∧
      sub (fin 11800) (fin 100) = fin 11700 ∧
      rawPercentage (fin 11800) (fin 1000) = fin (175 / 2) ∧
      toFixed 2 (fin (175 / 2)) = "87.50".toList) := by
  refine ⟨fun r hraw h0 h100 => ⟨?_, (toFixed_two_of_nonneg r h0 h100).1⟩,
    fun hVb hIb h0 h100 => ?_, by decide!⟩
  · rw [get_percentage]
    unfold storedPercentage
    rw [hx, hy, hraw, clamp_of_mem r h0 h100]
  · rw [exactPercentage_eq] at h0 h100 ⊢
    have hm0 : 0 ≤ 10 * V - I - 96000 := by
      have h : (0 : ℚ) ≤ ((10 * V - I - 96000 : Int) : ℚ) := by
        rw [le_div_iff₀ (by norm_num)] at h0
        linarith
      exact_mod_cast h
    have hm1 : 10 * V - I - 96000 ≤ 24000 := by
      have h : ((10 * V - I - 96000 : Int) : ℚ) ≤ 24000 := by
        rw [div_le_iff₀ (by norm_num)] at h100
        linarith
      exact_mod_cast h
    obtain ⟨n, hn, he⟩ := storedPercentage_nearest s.latestData V I
      (by rw [hx]; exact hV) (by rw [hy]; exact hI) hVb hIb hm0 hm1
    exact ⟨n, by rw [get_percentage, hn], he⟩

/-- Witness of `calculateBatteryPercentage_in_range`: the readings `11800mV` and
`1000mA`, in binary64 arithmetic and in exact arithmetic. -/
theorem calculateBatteryPercentage_in_range_witness :
    Obj.get (calculateBatteryPercentage
        { latestData := [("Battery voltage".toList, "11800mV".toList),
                         ("Battery discharge current".toList, "1000mA".toList)],
          lastBatteryVoltage := [] }).latestData "iRemaining_real".toList =
      some "87.50".toList ∧
    ∃ n : Nat,
      Obj.get (calculateBatteryPercentage
        { latestData := [("Battery voltage".toList, "11800mV".toList),
                         ("Battery discharge current".toList, "1000mA".toList)],
          lastBatteryVoltage := [] }).latestData "iRemaining_real".toList =
        some (twoDecimals n) ∧
      |(n : ℚ) / 100 - exactPercentage 11800 1000| ≤ 1 / 200 :=
  have h := calculateBatteryPercentage_in_range
      { latestData := [("Battery voltage".toList, "11800mV".toList),
                       ("Battery discharge current".toList, "1000mA".toList)],
        lastBatteryVoltage := [] }
      (fin 11800) (fin 1000) 11800 1000
      (by decide!) (by decide!) (Or.inl (by norm_num)) (Or.inl (by norm_num))
  ⟨(by decide! : toFixed 2 (fin (175 / 2)) = "87.50".toList) ▸
      (h.1 (175 / 2) (by decide!) (by norm_num) (by norm_num)).1,
    h.2.1 (by norm_num) (by norm_num)
      (by rw [exactPercentage_eq]; norm_num) (by rw [exactPercentage_eq]; norm_num)⟩

/-! ## Claim C7: the percentage is clamped -/

/-- Claim C7 refuted at two readings of 400 digits: both fields are numeric
(each is a run of digits, and `parseInt` gives `Infinity` for it, not NaN), the
sag `0.1 * Infinity` is `Infinity`, the adjusted voltage `Infinity - Infinity` is
NaN, and `calculateBatteryPercentage` stores `NaN` under `iRemaining_real`, which
is no number of hundredths. -/
theorem calculateBatteryPercentage_overflow_stores_nan :
    (∀ c ∈ List.replicate 400 '9', isDigit c = true) ∧
    parseInt (some (List.replicate 400 '9')) = posInf ∧
    rawPercentage posInf posInf = nan ∧
    Obj.get (calculateBatteryPercentage
        (readerWithReadings (List.replicate 400 '9') (List.replicate 400 '9'))).latestData
      "iRemaining_real".toList = some "NaN".toList ∧
    (∀ n, twoDecimals n ≠ "NaN".toList) := by
  refine ⟨by decide!, by decide!, by decide!, by decide!, ?_⟩
  intro n h
  have hmem : '.' ∈ twoDecimals n := by
    unfold twoDecimals
    exact List.mem_append_right _ (List.mem_cons_self _ _)
  rw [h] at hmem
  exact absurd hmem (by decide)

/-- Claim C7, amended: let `x` and `y` be what `parseInt` gives for the fields
`Battery voltage` and `Battery discharge current` of a state:
(1) if the percentage before clamping, evaluated in binary64 arithmetic as the
code evaluates it, is greater than 100 then `calculateBatteryPercentage` stores
`100.00` under `iRemaining_real`, and (2) if it is less than 0 it stores `0.00`;
(3) and (4) the same holds with the percentage `(V - 0.1 * I - 9600) / 2400 * 100`
evaluated in exact arithmetic, when `x` and `y` are the integers `V` and `I`, of
at most `10 ^ 9` in absolute value;
(5) hence, whenever both fields are numeric (neither `x` nor `y` is NaN) and
`x` and `y` are not both `Infinity` or both `-Infinity`, the stored text is a
number of hundredths between 0 and 100, written with two decimal places. -/
theorem calculateBatteryPercentage_clamps (s : State) (x y : JSNum) (V I : Int)
    (hx : parseInt (Obj.get s.latestData "Battery voltage".toList) = x)
    (hy : parseInt (Obj.get s.latestData "Battery discharge current".toList) = y) :
    ((rawPercentage x y = posInf ∨ ∃ q, rawPercentage x y = fin q ∧ 100 < q) →
      Obj.get (calculateBatteryPercentage s).latestData "iRemaining_real".toList =
        some "100.00".toList) ∧
    ((rawPercentage x y = negInf ∨ ∃ q, rawPercentage x y = fin q ∧ q < 0) →
      Obj.get (calculateBatteryPercentage s).latestData "iRemaining_real".toList =
        some "0.00".toList) ∧
    (IsInteger x V → IsInteger y I → |V| ≤ 10 ^ 9 → |I| ≤ 10 ^ 9 → 100 < exactPercentage V I →
      Obj.get (calculateBatteryPercentage s).latestData "iRemaining_real".toList =
        some "100.00".toList) ∧
    (IsInteger x V → IsInteger y I → |V| ≤ 10 ^ 9 → |I| ≤ 10 ^ 9 → exactPercentage V I < 0 →
      Obj.get (calculateBatteryPercentage s).latestData "iRemaining_real".toList =
        some "0.00".toList) ∧
    (x ≠ nan → y ≠ nan → ¬ (x = posInf ∧ y = posInf) → ¬ (x = negInf ∧ y = negInf) →
      ∃ n, n ≤ 10000 ∧
        Obj.get (calculateBatteryPercentage s).latestData "iRemaining_real".toList =
          some (twoDecimals n)) := by
  have hclamp : ∀ r : JSNum, r = rawPercentage x y → r ≠ nan →
      ∃ p : ℚ, 0 ≤ p ∧ p ≤ 100 ∧
        Obj.get (calculateBatteryPercentage s).latestData "iRemaining_real".toList =
          some (toFixed 2 (fin p)) ∧
        ((r = posInf ∨ ∃ q, r = fin q ∧ 100 < q) → p = 100) ∧
        ((r = negInf ∨ ∃ q, r = fin q ∧ q < 0) → p = 0) := by
    intro r hr hne
    obtain ⟨p, hp, hp0, hp100, hhi, hlo⟩ := JSNum.clamp_spec r hne
    refine ⟨p, hp0, hp100, ?_, hhi, hlo⟩
    rw [get_percentage]
    unfold storedPercentage
    rw [hx, hy, ← hr, hp]
  have hexact : IsInteger x V → IsInteger y I → ∀ c : ℚ, |V| ≤ 10 ^ 9 → |I| ≤ 10 ^ 9 →
      Max.max 0 (Min.min 100 (rawPercentage x y).toRat) = c →
      Obj.get (calculateBatteryPercentage s).latestData "iRemaining_real".toList =
        some (toFixed 2 (fin c)) := by
    intro hV hI c hVb hIb hc
    rw [get_percentage]
    unfold storedPercentage
    rw [hx, hy, clamp_of_isFinite _ (rawPercentage_near x y V I hV hI hVb hIb).1, hc]
  refine ⟨fun h => ?_, fun h => ?_, fun hV hI hVb hIb h => ?_, fun hV hI hVb hIb h => ?_,
    fun hxn hyn hpos hneg => ?_⟩
  · have hne : rawPercentage x y ≠ nan := by
      rcases h with h | ⟨q, h, _⟩ <;> rw [h] <;> simp
    obtain ⟨p, _, _, hst, hhi, _⟩ := hclamp _ rfl hne
    rw [hst, hhi h]
    decide!
  · have hne : rawPercentage x y ≠ nan := by
      rcases h with h | ⟨q, h, _⟩ <;> rw [h] <;> simp
    obtain ⟨p, _, _, hst, _, hlo⟩ := hclamp _ rfl hne
    rw [hst, hlo h]
    decide!
  · obtain ⟨he1, _⟩ := abs_le.1 (rawPercentage_near x y V I hV hI hVb hIb).2
    rw [exactPercentage_eq, lt_div_iff₀ (by norm_num)] at h
    have hm : (24000 : Int) < 10 * V - I - 96000 := by
      have h2 : ((24000 : Int) : ℚ) < ((10 * V - I - 96000 : Int) : ℚ) := by
        push_cast at h ⊢
        linarith
      exact_mod_cast h2
    have hm2 : ((24001 : Int) : ℚ) ≤ ((10 * V - I - 96000 : Int) : ℚ) := by
      exact_mod_cast (by omega : (24001 : Int) ≤ 10 * V - I - 96000)
    have hq : (24001 : ℚ) / 240 ≤ ((10 * V - I - 96000 : Int) : ℚ) / 240 := by
      rw [div_le_div_iff_of_pos_right (by norm_num)]
      exact_mod_cast hm2
    have hr : (100 : ℚ) ≤ (rawPercentage x y).toRat := by
      norm_num at hq he1 ⊢
      linarith
    rw [hexact hV hI 100 hVb hIb (by rw [min_eq_left hr]; norm_num)]
    decide!
  · obtain ⟨_, he2⟩ := abs_le.1 (rawPercentage_near x y V I hV hI hVb hIb).2
    rw [exactPercentage_eq, div_lt_iff₀ (by norm_num)] at h
    have hm : 10 * V - I - 96000 < (0 : Int) := by
      have h2 : ((10 * V - I - 96000 : Int) : ℚ) < ((0 : Int) : ℚ) := by
        push_cast at h ⊢
        linarith
      exact_mod_cast h2
    have hm2 : ((10 * V - I - 96000 : Int) : ℚ) ≤ ((-1 : Int) : ℚ) := by
      exact_mod_cast (by omega : 10 * V - I - 96000 ≤ (-1 : Int))
    have hq : ((10 * V - I - 96000 : Int) : ℚ) / 240 ≤ (-1 : ℚ) / 240 := by
      rw [div_le_div_iff_of_pos_right (by norm_num)]
      exact_mod_cast hm2
    have hr : (rawPercentage x y).toRat ≤ 0 := by
      norm_num at hq he2 ⊢
      linarith
    rw [hexact hV hI 0 hVb hIb (by
      rw [min_eq_right (le_trans hr (by norm_num)), max_eq_left hr])]
    decide!
  · have hxr : InRange x := by
      rw [← hx] at hxn ⊢
      exact parseInt_inRange _ hxn
    have hyr : InRange y := by
      rw [← hy] at hyn ⊢
      exact parseInt_inRange _ hyn
    obtain ⟨p, hp0, hp100, hst, _, _⟩ :=
      hclamp _ rfl (rawPercentage_ne_nan_of_inRange x y hxr hyr hpos hneg)
    exact ⟨_, (toFixed_two_of_nonneg p hp0 hp100).2, by
      rw [hst, (toFixed_two_of_nonneg p hp0 hp100).1]⟩

/-- Witness of `calculateBatteryPercentage_clamps`: the readings `13000mV` and
`0mA`, whose percentage before clamping is above 100 in binary64 arithmetic and
in exact arithmetic; the readings `9000mV` and `0mA`, whose percentage is below
0; and a voltage of 400 digits with the reading `0mA`, where `parseInt` gives
`Infinity` and a finite number. -/
theorem calculateBatteryPercentage_clamps_witness :
    rawPercentage (fin 13000) (fin 0) = fin (2492226356292267 / 17592186044416) ∧
    Obj.get (calculateBatteryPercentage
        (readerWithReadings "13000mV".toList "0mA".toList)).latestData
      "iRemaining_real".toList = some "100.00".toList ∧
    exactPercentage 9000 0 = -25 ∧
    Obj.get (calculateBatteryPercentage
        (readerWithReadings "9000mV".toList "0mA".toList)).latestData
      "iRemaining_real".toList = some "0.00".toList ∧
    (∃ n, n ≤ 10000 ∧
      Obj.get (calculateBatteryPercentage
          (readerWithReadings (List.replicate 400 '9') "0mA".toList)).latestData
        "iRemaining_real".toList = some (twoDecimals n)) :=
  ⟨by decide!,
   (calculateBatteryPercentage_clamps
      (readerWithReadings "13000mV".toList "0mA".toList) (fin 13000) (fin 0) 13000 0
      (by decide!) (by decide!)).1
      (Or.inr ⟨2492226356292267 / 17592186044416, by decide!, by norm_num⟩),
   by rw [exactPercentage_eq]; norm_num,
   (calculateBatteryPercentage_clamps
      (readerWithReadings "9000mV".toList "0mA".toList) (fin 9000) (fin 0) 9000 0
      (by decide!) (by decide!)).2.2.2.1
      (Or.inl (by norm_num)) (Or.inl (by norm_num))
      (by norm_num) (by norm_num) (by rw [exactPercentage_eq]; norm_num),
   (calculateBatteryPercentage_clamps
      (readerWithReadings (List.replicate 400 '9') "0mA".toList) posInf (fin 0) 0 0
      (by decide!) (by decide!)).2.2.2.2
      (by decide) (by decide) (by decide) (by decide)⟩

/-! ## Claim C8: the window holds the last 60 samples -/

/-- Claim C8: starting from the empty window, after any run whose `n` ticks each
append one sample (a `Battery voltage` reading is present at every tick), the
window is the last `min n 60` appended samples in arrival order; so its length
is at most 60, and after 61 samples it holds exactly the samples 2 to 61. -/
theorem window_after_ticks (s : State) (events : List Event)
    (h0 : s.lastBatteryVoltage = []) (hall : EveryTickAppends s events) :
    (appended s events).length = tickCount events ∧
    (run s events).lastBatteryVoltage =
      (appended s events).drop (tickCount events - 60) ∧
    (run s events).lastBatteryVoltage.length = min (tickCount events) 60 ∧
    (tickCount events = 61 →
      (run s events).lastBatteryVoltage = (appended s events).tail) := by
  have hlen := appended_length events s hall
  have hrun := run_lastBatteryVoltage events s (by simp [h0])
  rw [h0, List.nil_append, hlen] at hrun
  refine ⟨hlen, hrun, ?_, ?_⟩
  · rw [hrun, List.length_drop, hlen]
    omega
  · intro h61
    rw [hrun, h61]
    cases appended s events with
    | nil => rfl
    | cons a l => rfl

/-- Witness of `window_after_ticks`: a tick, a chunk with a new reading and a
second tick, from a state with a reading and the empty window. -/
theorem window_after_ticks_witness :
    (run readerWithReading
        [Event.tick, Event.chunk "Battery voltage = 11900mV".toList,
         Event.tick]).lastBatteryVoltage = [fin 11800, fin 11900] :=
  (by decide! : (appended readerWithReading
        [Event.tick, Event.chunk "Battery voltage = 11900mV".toList, Event.tick]).drop
        (tickCount [Event.tick, Event.chunk "Battery voltage = 11900mV".toList,
         Event.tick] - 60) = [fin 11800, fin 11900]) ▸
    (window_after_ticks readerWithReading
      [Event.tick, Event.chunk "Battery voltage = 11900mV".toList, Event.tick]
      rfl (by decide!)).2.1

/-! ## Claim C9: the rolling average -/

/-- Claim C9: for every state whose window is not empty after the tick has
appended and trimmed, and holds integer samples, the tick stores under
`Battery voltage average` the arithmetic mean of all the samples of the window
(their sum from left to right divided by their number, in binary64 arithmetic)
rounded to 0 decimal places by `toFixed(0)` and followed by `mV`.  When the
samples are natural numbers with a sum below `2 ^ 52`, this is the exact mean
rounded to the nearest integer, a half rounded up.  In particular the window
11800, 11900, 12000 gives `11900mV`. -/
theorem tick_stores_average (s : State)
    (hne : (tick s).lastBatteryVoltage ≠ [])
    (_hint : ∀ x ∈ (tick s).lastBatteryVoltage, ∃ z : Int, IsInteger x z) :
    Obj.get (tick s).latestData "Battery voltage average".toList =
      some (toFixed 0
        (div ((tick s).lastBatteryVoltage.foldl add (fin 0))
          (fin (tick s).lastBatteryVoltage.length)) ++ "mV".toList) ∧
    (∀ zs : List Nat, (tick s).lastBatteryVoltage = zs.map (fun z : Nat => fin (z : ℚ)) →
      zs.length ≤ 60 → zs.sum < 2 ^ 52 →
      Obj.get (tick s).latestData "Battery voltage average".toList =
        some (natDigits ((2 * zs.sum + zs.length) / (2 * zs.length)) ++ "mV".toList)) ∧
    averageBatteryVoltage [fin 11800, fin 11900, fin 12000] = "11900mV".toList := by
  have hget : Obj.get (tick s).latestData "Battery voltage average".toList =
      some (averageBatteryVoltage (tick s).lastBatteryVoltage) := by
    rw [tick_latestData, Obj.get_set, if_pos ⟨rfl, by decide⟩]
  refine ⟨hget, ?_, by decide!⟩
  intro zs hzs hlen hsum
  have hzne : zs ≠ [] := by
    intro h
    rw [h] at hzs
    exact hne hzs
  rw [hget, hzs, averageBatteryVoltage_natCast zs hzne (by omega) hsum]

/-- Witness of `tick_stores_average`: the window 11800, 11900 and the reading
`12000mV`. -/
theorem tick_stores_average_witness :
    Obj.get (tick readerWithWindow).latestData "Battery voltage average".toList =
      some "11900mV".toList :=
  (by decide! : natDigits ((2 * [11800, 11900, 12000].sum + [11800, 11900, 12000].length) /
        (2 * [11800, 11900, 12000].length)) ++ "mV".toList = "11900mV".toList) ▸
    (tick_stores_average readerWithWindow (by decide!)
      (by
        intro x hx
        have h2 : (tick readerWithWindow).lastBatteryVoltage =
            [fin 11800, fin 11900, fin 12000] := by decide!
        rw [h2] at hx
        have h : x = fin 11800 ∨ x = fin 11900 ∨ x = fin 12000 := by simpa using hx
        rcases h with h | h | h
        · exact ⟨11800, Or.inl (by rw [h]; norm_num)⟩
        · exact ⟨11900, Or.inl (by rw [h]; norm_num)⟩
        · exact ⟨12000, Or.inl (by rw [h]; norm_num)⟩)).2.1
      [11800, 11900, 12000] (by decide!) (by decide) (by decide)

/-! ## Claim C10: the normalizer never raises -/

/-- Claim C10: `convertDataUnits` never raises.  For every state (every value of
the mapping is a string) it returns a mapping; a value without a digit, such as
the empty string, a string of symbols or a text of any length, is kept as it
is. -/
theorem convertDataUnits_never_raises (uni : Str → Str) (s : State) :
    (∃ out, convertDataUnits uni s = Except.ok out) ∧
    (∀ key, convertEntry uni key [] =
      Except.ok (replaceSpaceRuns (toLowerCase uni key), JSVal.str [])) ∧
    (∀ key, convertEntry uni key "!@#$%^&*()".toList =
      Except.ok (replaceSpaceRuns (toLowerCase uni key), JSVal.str "!@#$%^&*()".toList)) ∧
    (∀ key n, convertEntry uni key (List.replicate n 'x') =
      Except.ok (replaceSpaceRuns (toLowerCase uni key), JSVal.str (List.replicate n 'x'))) := by
  refine ⟨⟨_, convertDataUnits_eq uni s⟩, ?_, ?_, ?_⟩
  · intro key
    exact convertEntry_of_no_digit uni key [] (by simp)
  · intro key
    exact convertEntry_of_no_digit uni key _ (by decide)
  · intro key n
    apply convertEntry_of_no_digit
    intro c hc
    rw [List.eq_of_mem_replicate hc]
    decide

/-! ## Claim C11: idempotence on plain numbers -/

/-- Claim C11 refuted at the mapping `a = 0.0000001`: the key is normalized and
the value is a plain number without a unit.  The snapshot holds the number
`1e-7` under `a`; its string rendering is `1e-7`, in exponent notation, and the
second run reads the digit `1` with the unit `e`: it returns the key `a_e` with
the number 1, not the key `a` with an equal number. -/
theorem convertDataUnits_rerun_changes_key :
    isPlainNumber "0.0000001".toList = true ∧ IsNormalizedKey id "a".toList ∧
    convertDataUnits id (readerWithEntry "a".toList "0.0000001".toList) =
      Except.ok (snapshot id [("a".toList, "0.0000001".toList)]) ∧
    render (snapshot id [("a".toList, "0.0000001".toList)]) =
      [("a".toList, "1e-7".toList)] ∧
    convertDataUnits id (readerWithEntry "a".toList "1e-7".toList) =
      Except.ok [("a_e".toList, JSVal.num (fin 1))] := by
  decide!

/-- Claim C11, amended: for every state whose mapping has distinct normalized
keys (lower case, no white space) and plain numbers without a unit as values,
`convertDataUnits` returns the same keys, each with the number of its string;
and when every one of these numbers is a zero or has a magnitude of at least
`10 ^ (-6)` and below `10 ^ 21`, so that its text is in plain decimal notation,
`convertDataUnits` run again on the string rendering of that output returns the
same keys with numerically equal values. -/
theorem convertDataUnits_idempotent (uni : Str → Str) (s : State)
    (hnd : (Obj.keys s.latestData).Nodup)
    (hproto : "__proto__".toList ∉ Obj.keys s.latestData)
    (hkeys : ∀ e ∈ s.latestData, IsNormalizedKey uni e.1)
    (hvals : ∀ e ∈ s.latestData, isPlainNumber e.2 = true) :
    ∃ out : Obj JSVal, convertDataUnits uni s = Except.ok out ∧
      (∀ k, Obj.get out k =
        (Obj.get s.latestData k).map (fun v => JSVal.num (parseFloat (some v)))) ∧
      ((∀ e ∈ s.latestData, InPlainRange (parseFloat (some e.2))) →
        ∃ out2 : Obj JSVal,
          convertDataUnits uni { s with latestData := render out } = Except.ok out2 ∧
          SameNumbers out out2) := by
  have hplain : ∀ e ∈ s.latestData, ∃ sign ds frac, PlainNumeral e.2 sign ds frac :=
    fun e he => plainNumeral_of_isPlainNumber e.2 (hvals e he)
  have hget := get_snapshot_plain uni s.latestData hnd hproto hkeys hplain
  refine ⟨snapshot uni s.latestData, convertDataUnits_eq uni s, hget, ?_⟩
  intro hrange
  refine ⟨snapshot uni (render (snapshot uni s.latestData)), convertDataUnits_eq uni _, ?_⟩
  -- the keys of the first snapshot are keys of the mapping
  have hsub : ∀ k, k ∈ Obj.keys (snapshot uni s.latestData) → k ∈ Obj.keys s.latestData := by
    intro k hk
    apply mem_keys_of_get_ne_none
    intro hn
    have h1 := hget k
    rw [hn] at h1
    exact (Obj.not_mem_keys_iff _ k).2 h1 hk
  have hnd1 : (Obj.keys (snapshot uni s.latestData)).Nodup :=
    foldl_set_nodup_keys _ _ s.latestData [] List.nodup_nil
  -- the rendering is a mapping of plain numerals with normalized keys
  have hget2 := get_snapshot_plain uni (render (snapshot uni s.latestData))
    (by rw [keys_render]; exact hnd1)
    (by rw [keys_render]; exact fun h => hproto (hsub _ h))
    (by
      intro e he
      have hk : e.1 ∈ Obj.keys (render (snapshot uni s.latestData)) :=
        List.mem_map.2 ⟨e, he, rfl⟩
      rw [keys_render] at hk
      obtain ⟨e0, he0, he1⟩ := List.mem_map.1 (hsub _ hk)
      rw [← he1]
      exact hkeys e0 he0)
    (by
      intro e he
      obtain ⟨e1, he1, rfl⟩ := List.mem_map.1 he
      have hg1 := get_of_mem_nodup _ e1.1 e1.2 hnd1 he1
      rw [hget e1.1] at hg1
      rcases hd : Obj.get s.latestData e1.1 with _ | v
      · rw [hd] at hg1
        simp at hg1
      · rw [hd] at hg1
        simp only [Option.map_some', Option.some.injEq] at hg1
        have hmem := mem_of_get _ _ _ hd
        have h3 := (numberToString_parseFloat v (hplain _ hmem) (hrange _ hmem)).1
        simp only
        rw [← hg1]
        exact h3)
  intro k
  rw [hget2 k, get_render, hget k]
  rcases hd : Obj.get s.latestData k with _ | v
  · simp
  · have hmem := mem_of_get _ _ _ hd
    simp only [Option.map_some', renderValue]
    exact (numberToString_parseFloat v (hplain _ hmem) (hrange _ hmem)).2

/-- Witness of `convertDataUnits_idempotent`: the mapping
`battery_voltage = 11800`, `temp = -23.5`. -/
theorem convertDataUnits_idempotent_witness :
    ∃ out out2 : Obj JSVal,
      convertDataUnits id readerWithNumbers = Except.ok out ∧
      Obj.get out "temp".toList = some (JSVal.num (fin (-47 / 2))) ∧
      convertDataUnits id { readerWithNumbers with latestData := render out } =
        Except.ok out2 ∧
      SameNumbers out out2 :=
  match convertDataUnits_idempotent id readerWithNumbers (by decide) (by decide) (by decide)
      (by decide) with
  | ⟨out, h1, h2, h3⟩ =>
    match h3 (by decide!) with
    | ⟨out2, h4, h5⟩ => ⟨out, out2, h1, (h2 "temp".toList).trans (by decide!), h4, h5⟩

/-! ## Claim C12: text that is not a number with a unit -/

/-- Claim C12 refuted.  At the line `Status = OK123` the value is arbitrary
text, not an optional sign, digits, an optional fraction, white space and a
unit as a whole; the pattern of `convertDataUnits` is not anchored, it matches
the digits `123` inside the value, and the snapshot holds the number 123 under
`status`, not the string `OK123`.  And after the lines `st = on` and `ST = off`
both values are text, both keys are normalized to `st`, and the snapshot holds
`off` under `st`: the string `on` of the first entry is overwritten. -/
theorem convertDataUnits_coerces_text_with_digits :
    ((parseData State.init "Status = OK123".toList).latestData =
        [("Status".toList, "OK123".toList), ("iRemaining_real".toList, "NaN".toList)] ∧
      regexMatch "OK123".toList = some ["123".toList, "123".toList, []] ∧
      convertDataUnits id (parseData State.init "Status = OK123".toList) =
        Except.ok [("status".toList, JSVal.num (fin 123)),
          ("iremaining_real".toList, JSVal.str "NaN".toList)]) ∧
    ((parseData State.init "st = on\nST = off".toList).latestData =
        [("st".toList, "on".toList), ("ST".toList, "off".toList),
          ("iRemaining_real".toList, "NaN".toList)] ∧
      convertDataUnits id (parseData State.init "st = on\nST = off".toList) =
        Except.ok [("st".toList, JSVal.str "off".toList),
          ("iremaining_real".toList, JSVal.str "NaN".toList)]) := by
  decide!

/-- Claim C12, amended: for every entry `(key, value)` of `latestData` whose
value holds no ASCII decimal digit, so that the pattern matches nowhere in it,
whose normalized key is not `__proto__`, and after which no entry in property
order has the same output key, `convertDataUnits` returns the original untouched
string under the normalized key, with no coercion to a number. -/
theorem convertDataUnits_keeps_text (uni : Str → Str) (s : State) (front back : Obj Str)
    (key value : Str) (hs : s.latestData = front ++ (key, value) :: back)
    (hv : ∀ c ∈ value, isDigit c = false)
    (hp : replaceSpaceRuns (toLowerCase uni key) ≠ "__proto__".toList)
    (hlater : ∀ e ∈ back, outputKey uni e.1 e.2 ≠ replaceSpaceRuns (toLowerCase uni key)) :
    ∃ out, convertDataUnits uni s = Except.ok out ∧
      Obj.get out (replaceSpaceRuns (toLowerCase uni key)) = some (JSVal.str value) := by
  have he := convertEntry_of_no_digit uni key value hv
  rw [convertEntry_eq] at he
  simp only [Except.ok.injEq, Prod.mk.injEq] at he
  obtain ⟨hk, hval⟩ := he
  refine ⟨snapshot uni s.latestData, convertDataUnits_eq uni s, ?_⟩
  have h := foldl_set_get_last (fun e => outputKey uni e.1 e.2) (fun e => outputValue e.2)
    front back (key, value) []
    (by
      show outputKey uni key value ≠ _
      rw [hk]
      exact hp)
    (by
      intro e he
      show outputKey uni e.1 e.2 ≠ outputKey uni key value
      rw [hk]
      exact hlater e he)
  rw [← hk, ← hval, hs]
  exact h

/-- Witness of `convertDataUnits_keeps_text`: the entry `Status` = `OK` between
two entries with numbers. -/
theorem convertDataUnits_keeps_text_witness :
    ∃ out, convertDataUnits id
        { latestData := [("Battery voltage".toList, "11800mV".toList),
                         ("Status".toList, "OK".toList), ("Temp".toList, "23.5 C".toList)],
          lastBatteryVoltage := [] } = Except.ok out ∧
      Obj.get out (replaceSpaceRuns (toLowerCase id "Status".toList)) =
        some (JSVal.str "OK".toList) :=
  convertDataUnits_keeps_text id
    { latestData := [("Battery voltage".toList, "11800mV".toList),
                     ("Status".toList, "OK".toList), ("Temp".toList, "23.5 C".toList)],
      lastBatteryVoltage := [] }
    [("Battery voltage".toList, "11800mV".toList)] [("Temp".toList, "23.5 C".toList)]
    "Status".toList "OK".toList rfl (by decide) (by decide) (by decide!)

/-! ## Claim C13: the not-a-number sentinel -/

/-- Claim C13: for every state whose mapping lacks an integer under
`Battery voltage` or under `Battery discharge current` (the field is missing,
or its value does not start with an integer), `calculateBatteryPercentage`
stores the text `NaN` under `iRemaining_real`; and so does `parseData` for every
chunk after whose lines the mapping lacks one of the two integers.  Both
functions are total: no step of them raises. -/
theorem calculateBatteryPercentage_nan_sentinel (s : State) :
    ((LacksInteger s.latestData "Battery voltage".toList ∨
        LacksInteger s.latestData "Battery discharge current".toList) →
      Obj.get (calculateBatteryPercentage s).latestData "iRemaining_real".toList =
        some "NaN".toList) ∧
    (∀ chunk : Str,
      (LacksInteger ((split '\n' chunk).foldl parseLine s.latestData)
          "Battery voltage".toList ∨
        LacksInteger ((split '\n' chunk).foldl parseLine s.latestData)
          "Battery discharge current".toList) →
      Obj.get (parseData s chunk).latestData "iRemaining_real".toList =
        some "NaN".toList) := by
  refine ⟨fun h => ?_, fun chunk h => ?_⟩
  · rw [get_percentage, storedPercentage_of_lacksInteger _ h]
  · unfold parseData
    rw [get_percentage]
    exact congrArg some (storedPercentage_of_lacksInteger _ h)

/-- Witness of `calculateBatteryPercentage_nan_sentinel`: a mapping with the
voltage `11800mV` and no discharge current, and the chunk
`Battery discharge current = n/a`. -/
theorem calculateBatteryPercentage_nan_sentinel_witness :
    Obj.get (calculateBatteryPercentage readerWithReading).latestData
        "iRemaining_real".toList = some "NaN".toList ∧
    Obj.get (parseData readerWithReading "Battery discharge current = n/a".toList).latestData
        "iRemaining_real".toList = some "NaN".toList :=
  ⟨(calculateBatteryPercentage_nan_sentinel readerWithReading).1 (Or.inr (by decide)),
   (calculateBatteryPercentage_nan_sentinel readerWithReading).2
      "Battery discharge current = n/a".toList (Or.inr (by decide!))⟩

/-! ## Claim C14: a line split across two chunks -/

/-- Claim C14 refuted at the line `Battery voltage = 11800mV` delivered as the
chunks `Battery voltage = 118` and `00mV`: the first fragment has exactly one
`=`, so it is not discarded, and `parseData` stores the cut value `118` under
`Battery voltage`, a key that the mapping did not have. -/
theorem parseData_split_line_upserts_fragment :
    "Battery voltage = 118".toList ++ "00mV".toList = "Battery voltage = 11800mV".toList ∧
    Obj.get State.init.latestData "Battery voltage".toList = none ∧
    Obj.get (parseData (parseData State.init "Battery voltage = 118".toList)
      "00mV".toList).latestData "Battery voltage".toList = some "118".toList := by
  decide!

/-- Claim C14, amended: when one line `key=value` (neither part holds `=` or
a newline) is cut at any position `i` and the two fragments are delivered as two
successive chunks, the fragment that holds the `=` passes the check and is
upserted, and the other fragment is discarded.  Apart from `iRemaining_real`
the mapping ends as after one upsert: of the rest of the key with the whole
value when the cut is in the key, of the whole key with the head of the value
when the cut is after the `=`. -/
theorem parseData_split_line (s : State) (key value : Str) (i : Nat)
    (hk : ∀ c ∈ key, c ≠ '=' ∧ c ≠ '\n') (hv : ∀ c ∈ value, c ≠ '=' ∧ c ≠ '\n') :
    AgreeOffPercentage
      (parseData (parseData s ((key ++ '=' :: value).take i))
        ((key ++ '=' :: value).drop i)).latestData
      (if i ≤ key.length then Obj.set s.latestData (trim (key.drop i)) (trim value)
        else Obj.set s.latestData (trim key) (trim (value.take (i - (key.length + 1))))) := by
  have hline : ∀ c ∈ key ++ '=' :: value, c ≠ '\n' := by
    intro c hc
    rcases List.mem_append.1 hc with h | h
    · exact (hk c h).2
    · rcases List.mem_cons.1 h with h | h
      · rw [h]; decide
      · exact (hv c h).2
  have hA : split '\n' ((key ++ '=' :: value).take i) = [(key ++ '=' :: value).take i] :=
    split_of_not_mem _ _ (fun c hc => hline c (List.mem_of_mem_take hc))
  have hB : split '\n' ((key ++ '=' :: value).drop i) = [(key ++ '=' :: value).drop i] :=
    split_of_not_mem _ _ (fun c hc => hline c (List.mem_of_mem_drop hc))
  have h := foldl_parseData_agreeOff
    [(key ++ '=' :: value).take i, (key ++ '=' :: value).drop i] s
  simp only [List.foldl_cons, List.foldl_nil, List.map_cons, List.map_nil, hA, hB,
    List.flatten_cons, List.flatten_nil, List.append_nil, List.singleton_append] at h
  have hfold : parseLine (parseLine s.latestData ((key ++ '=' :: value).take i))
        ((key ++ '=' :: value).drop i) =
      (if i ≤ key.length then Obj.set s.latestData (trim (key.drop i)) (trim value)
        else Obj.set s.latestData (trim key) (trim (value.take (i - (key.length + 1))))) := by
    by_cases hi : i ≤ key.length
    · rw [if_pos hi, List.take_append_of_le_length hi, List.drop_append_of_le_length hi,
        parseLine_of_no_sep _ _ (fun c hc => (hk c (List.mem_of_mem_take hc)).1),
        parseLine_of_one_sep _ _ _ (fun c hc => (hk c (List.mem_of_mem_drop hc)).1)
          (fun c hc => (hv c hc).1)]
    · rw [if_neg hi]
      have hi2 : i = key.length + ((i - (key.length + 1)) + 1) := by omega
      have ht : (key ++ '=' :: value).take i =
          key ++ '=' :: value.take (i - (key.length + 1)) := by
        conv_lhs => rw [hi2]
        rw [List.take_append, List.take_succ_cons]
      have hd : (key ++ '=' :: value).drop i = value.drop (i - (key.length + 1)) := by
        conv_lhs => rw [hi2]
        rw [List.drop_append, List.drop_succ_cons]
      rw [ht, hd, parseLine_of_one_sep _ _ _ (fun c hc => (hk c hc).1)
          (fun c hc => (hv c (List.mem_of_mem_take hc)).1),
        parseLine_of_no_sep _ _ (fun c hc => (hv c (List.mem_of_mem_drop hc)).1)]
  rw [hfold] at h
  exact h

/-- Witness of `parseData_split_line`: the line `Battery voltage = 11800mV` cut
after 21 characters. -/
theorem parseData_split_line_witness :
    Obj.get (parseData
        (parseData State.init (List.take 21 ("Battery voltage ".toList ++ '=' :: " 11800mV".toList)))
        (List.drop 21 ("Battery voltage ".toList ++ '=' :: " 11800mV".toList))).latestData
      "Battery voltage".toList = some "118".toList :=
  (parseData_split_line State.init "Battery voltage ".toList " 11800mV".toList 21
    (by decide) (by decide) "Battery voltage".toList (by decide)).trans (by decide!)

/-! ## Claim C15: the snapshot normalizer keeps its input -/

/-- Claim C15: for every reader in a store whose mapping holds strings,
`convertDataUnits` returns a reference `ref` and leaves a reader in which
`this.latestData` is the same reference, the object behind it is the same
mapping, the window is the same, and every object that the store had before the
call is the same; the returned reference is a new object: it is no reference of
the store before the call, it is one after the call, and it differs from
`this.latestData`. -/
theorem convertDataUnits_keeps_input (uni : Str → Str) (m : Reader) (h : HoldsStrings m) :
    ∃ (ref : Nat) (m1 : Reader), convertDataUnitsIn uni m = Except.ok (ref, m1) ∧
      m1.latestData = m.latestData ∧
      m1.store.object m1.latestData = m.store.object m.latestData ∧
      m1.lastBatteryVoltage = m.lastBatteryVoltage ∧
      (∀ r, r < m.store.length → m1.store.object r = m.store.object r) ∧
      ¬ ref < m.store.length ∧ ref < m1.store.length ∧ ref ≠ m.latestData := by
  obtain ⟨σ, hrun, hlen, hobj⟩ := convertDataUnitsIn_frame uni m h
  refine ⟨m.store.length, { m with store := σ }, hrun, rfl, hobj _ h.1, rfl, hobj,
    Nat.lt_irrefl _, ?_, Nat.ne_of_gt h.1⟩
  show m.store.length < σ.length
  omega

/-- Witness of `convertDataUnits_keeps_input`: the reader with the reading
`11800mV`, in a store that holds its mapping alone. -/
theorem convertDataUnits_keeps_input_witness :
    convertDataUnitsIn id (Reader.ofState readerWithReading) =
      Except.ok (1, { store := [[("Battery voltage".toList, JSVal.str "11800mV".toList)],
                        [("battery_voltage_mv".toList, JSVal.num (fin 11800))]],
                      latestData := 0, lastBatteryVoltage := [] }) ∧
    ∃ (ref : Nat) (m1 : Reader),
      convertDataUnitsIn id (Reader.ofState readerWithReading) = Except.ok (ref, m1) ∧
      m1.store.object m1.latestData =
        [("Battery voltage".toList, JSVal.str "11800mV".toList)] ∧ ref ≠ 0 :=
  ⟨by decide!,
   match convertDataUnits_keeps_input id (Reader.ofState readerWithReading) (by decide) with
   | ⟨ref, m1, h1, _, h3, _, _, _, _, h8⟩ => ⟨ref, m1, h1, h3, h8⟩⟩

/-! ## Claim C16: the average of an empty window -/

/-- Claim C16: on a tick where the mapping has no `Battery voltage` and the
window is empty, no sample is appended (the window stays empty), the average is
`0 / 0`, which is NaN, and the tick stores the text `NaNmV` under
`Battery voltage average`.  The tick is total: no step of it raises. -/
theorem tick_empty_window (s : State)
    (hv : Obj.get s.latestData "Battery voltage".toList = none)
    (hw : s.lastBatteryVoltage = []) :
    (tick s).lastBatteryVoltage = [] ∧
    div (fin 0) (fin (([] : List JSNum).length : ℚ)) = nan ∧
    Obj.get (tick s).latestData "Battery voltage average".toList = some "NaNmV".toList := by
  have hwin : (tick s).lastBatteryVoltage = [] := by
    unfold tick
    simp only [hv, hw]
    decide
  refine ⟨hwin, by decide!, ?_⟩
  rw [tick_latestData, Obj.get_set, if_pos ⟨rfl, by decide⟩, hwin]
  decide!

/-- Witness of `tick_empty_window`: the first tick of a new reader. -/
theorem tick_empty_window_witness :
    (tick State.init).lastBatteryVoltage = [] ∧
    Obj.get (tick State.init).latestData "Battery voltage average".toList =
      some "NaNmV".toList :=
  ⟨(tick_empty_window State.init (by decide) (by decide)).1,
   (tick_empty_window State.init (by decide) (by decide)).2.2⟩

/-! ## Claim C17: keys are never deleted -/

/-- Claim C17: every key `k` that the mapping of a state has is still a key
of the mapping after `parseData` (for every chunk), after
`calculateBatteryPercentage`, after the sampling tick, and after
`convertDataUnits` (run on the reader of the state in a store, where it leaves
the value of `k` as it was). -/
theorem latestData_keys_kept (uni : Str → Str) (s : State) (k : Str)
    (h : Obj.get s.latestData k ≠ none) :
    (∀ chunk : Str, Obj.get (parseData s chunk).latestData k ≠ none) ∧
    Obj.get (calculateBatteryPercentage s).latestData k ≠ none ∧
    Obj.get (tick s).latestData k ≠ none ∧
    ∃ (ref : Nat) (m1 : Reader),
      convertDataUnitsIn uni (Reader.ofState s) = Except.ok (ref, m1) ∧
      Obj.get (m1.store.object m1.latestData) k = (Obj.get s.latestData k).map JSVal.str ∧
      Obj.get (m1.store.object m1.latestData) k ≠ none := by
  refine ⟨fun chunk => ?_, ?_, ?_, ?_⟩
  · rw [parseData_latestData]
    exact get_set_ne_none _ _ _ _ (get_foldl_parseLine_ne_none _ _ _ h)
  · rw [calculateBatteryPercentage_latestData]
    exact get_set_ne_none _ _ _ _ h
  · rw [tick_latestData]
    exact get_set_ne_none _ _ _ _ h
  · obtain ⟨σ, hrun, _, hobj⟩ :=
      convertDataUnitsIn_frame uni (Reader.ofState s) (holdsStrings_ofState s)
    have hget : Obj.get (σ.object (Reader.ofState s).latestData) k =
        (Obj.get s.latestData k).map JSVal.str := by
      rw [hobj _ (holdsStrings_ofState s).1]
      exact get_map_str s.latestData k
    refine ⟨_, _, hrun, hget, ?_⟩
    show Obj.get (σ.object (Reader.ofState s).latestData) k ≠ none
    rw [hget]
    cases hg : Obj.get s.latestData k with
    | none => exact absurd hg h
    | some v => simp

/-- Witness of `latestData_keys_kept`: the key `Battery voltage` of the reader
with the reading `11800mV`. -/
theorem latestData_keys_kept_witness :
    Obj.get (parseData readerWithReading "Battery voltage = 11900mV".toList).latestData
        "Battery voltage".toList ≠ none ∧
    Obj.get (tick readerWithReading).latestData "Battery voltage".toList ≠ none :=
  ⟨(latestData_keys_kept id readerWithReading "Battery voltage".toList (by decide)).1 _,
   (latestData_keys_kept id readerWithReading "Battery voltage".toList (by decide)).2.2.1⟩

/-! ## Claim C18: a digit anywhere in the value -/

/-- Claim C18: for every entry `(key, value)` the loop body of
`convertDataUnits` emits the original string under the normalized key if and
only if the value holds no ASCII decimal digit.  If the value holds a digit
anywhere it has a first numeral, and the emitted value is the number of the
first run of digits with the `-` immediately before it and the fraction after
it; the emitted key is the normalized key, followed by `_` and the lower-case
unit when the run of letters after the numeral and the white space is not
empty.  In particular `OK123` gives the number 123 with no unit and `abc 12 V`
gives the number 12 with the unit `v`. -/
theorem convertDataUnits_digit_anywhere (uni : Str → Str) (key value : Str) :
    (convertEntry uni key value =
        Except.ok (replaceSpaceRuns (toLowerCase uni key), JSVal.str value) ↔
      ∀ c ∈ value, isDigit c = false) ∧
    ((∃ c ∈ value, isDigit c = true) →
      ∃ pre sign ds frac ws unit rest, FirstNumeral value pre sign ds frac ws unit rest) ∧
    (∀ pre sign ds frac ws unit rest : Str, FirstNumeral value pre sign ds frac ws unit rest →
      convertEntry uni key value = Except.ok
        (if unit = [] then replaceSpaceRuns (toLowerCase uni key)
          else replaceSpaceRuns (toLowerCase uni key) ++ '_' :: toLowerCase uni unit,
         JSVal.num (numeralNumber sign ds frac))) ∧
    (convertEntry id "Status".toList "OK123".toList =
        Except.ok ("status".toList, JSVal.num (fin 123)) ∧
      convertEntry id "Load".toList "abc 12 V".toList =
        Except.ok ("load_v".toList, JSVal.num (fin 12))) := by
  refine ⟨⟨fun h => ?_, convertEntry_of_no_digit uni key value⟩, exists_firstNumeral value,
    convertEntry_firstNumeral uni key value, by decide!⟩
  by_contra hno
  have hex : ∃ c ∈ value, isDigit c = true := by
    by_contra hne
    apply hno
    intro c hc
    cases hd : isDigit c with
    | false => rfl
    | true => exact absurd ⟨c, hc, hd⟩ hne
  obtain ⟨pre, sign, ds, frac, ws, unit, rest, hf⟩ := exists_firstNumeral value hex
  rw [convertEntry_firstNumeral uni key value pre sign ds frac ws unit rest hf] at h
  simp at h

/-- Witness of `convertDataUnits_digit_anywhere`: the value `abc -12.5 V!`, whose
first numeral is `-12.5` with the unit `V`. -/
theorem convertDataUnits_digit_anywhere_witness :
    convertEntry id "Load".toList "abc -12.5 V!".toList =
      Except.ok ("load_v".toList, JSVal.num (fin (-25 / 2))) :=
  ((convertDataUnits_digit_anywhere id "Load".toList "abc -12.5 V!".toList).2.2.1
    "abc ".toList "-".toList "12".toList ".5".toList " ".toList "V".toList "!".toList
    ⟨by decide, by decide, by decide, by decide, by decide, by decide, by decide, by decide,
      by decide, by decide, by decide⟩).trans (by decide!)

/-! ## Claim C19: the estimate is monotone -/

/-- Claim C19: the percentage estimate is monotone.  For two states whose
readings parse to the integers `V1`, `I1` and `V2`, `I2`, the texts that
`calculateBatteryPercentage` stores under `iRemaining_real` are the numerals of
`n1` and `n2` hundredths, both at most 100, and: if `V1 ≤ V2` and the currents
are the same then `n1 ≤ n2`; if `I1 ≤ I2` and the voltages are the same then
`n2 ≤ n1`. -/
theorem calculateBatteryPercentage_monotone (s1 s2 : State) (V1 V2 I1 I2 : Int)
    (hx1 : IsInteger (parseInt (Obj.get s1.latestData "Battery voltage".toList)) V1)
    (hy1 : IsInteger (parseInt (Obj.get s1.latestData "Battery discharge current".toList)) I1)
    (hx2 : IsInteger (parseInt (Obj.get s2.latestData "Battery voltage".toList)) V2)
    (hy2 : IsInteger (parseInt (Obj.get s2.latestData "Battery discharge current".toList)) I2) :
    ∃ n1 n2 : Nat,
      Obj.get (calculateBatteryPercentage s1).latestData "iRemaining_real".toList =
        some (twoDecimals n1) ∧
      Obj.get (calculateBatteryPercentage s2).latestData "iRemaining_real".toList =
        some (twoDecimals n2) ∧
      n1 ≤ 10000 ∧ n2 ≤ 10000 ∧
      (V1 ≤ V2 → I1 = I2 → n1 ≤ n2) ∧ (I1 ≤ I2 → V1 = V2 → n2 ≤ n1) := by
  obtain ⟨n1, n2, h1, h2, h3, h4, h5, h6⟩ :=
    storedPercentage_monotone s1.latestData s2.latestData V1 V2 I1 I2 hx1 hy1 hx2 hy2
  exact ⟨n1, n2, by rw [get_percentage, h1], by rw [get_percentage, h2], h3, h4, h5, h6⟩

/-- Witness of `calculateBatteryPercentage_monotone`: the voltages `11800mV` and
`11900mV` with the current `1000mA`. -/
theorem calculateBatteryPercentage_monotone_witness :
    ∃ n1 n2 : Nat,
      Obj.get (calculateBatteryPercentage
          (readerWithReadings "11800mV".toList "1000mA".toList)).latestData
        "iRemaining_real".toList = some (twoDecimals n1) ∧
      Obj.get (calculateBatteryPercentage
          (readerWithReadings "11900mV".toList "1000mA".toList)).latestData
        "iRemaining_real".toList = some (twoDecimals n2) ∧
      n1 ≤ n2 :=
  match calculateBatteryPercentage_monotone
      (readerWithReadings "11800mV".toList "1000mA".toList)
      (readerWithReadings "11900mV".toList "1000mA".toList) 11800 11900 1000 1000
      (Or.inl ((by decide! : parseInt (some "11800mV".toList) = fin 11800).trans (by norm_num)))
      (Or.inl ((by decide! : parseInt (some "1000mA".toList) = fin 1000).trans (by norm_num)))
      (Or.inl ((by decide! : parseInt (some "11900mV".toList) = fin 11900).trans (by norm_num)))
      (Or.inl ((by decide! : parseInt (some "1000mA".toList) = fin 1000).trans (by norm_num)))
    with
  | ⟨n1, n2, h1, h2, _, _, h5, _⟩ => ⟨n1, n2, h1, h2, h5 (by norm_num) rfl⟩

/-! ## Claim C20: the two readers of the voltage -/

/-- Claim C20: for every value that is a non-empty run of ASCII digits `ds`,
optionally followed by `mV`, the sample that the tick appends (`Number` of the
value with `mV` removed and trimmed) equals the number that
`calculateBatteryPercentage` reads with `parseInt`: both are the binary64 value
of the integer that `ds` denotes.  For other values the two readings may
differ: the empty string gives `0` and NaN, and `12.5mV` gives 12.5 and 12. -/
theorem sampleOf_eq_parseInt (v ds : Str) (hne : ds ≠ []) (hds : ∀ c ∈ ds, isDigit c = true)
    (hv : v = ds ∨ v = ds ++ "mV".toList) :
    sampleOf v = parseInt (some v) ∧
    sampleOf v = ofRat false (digitsValue 10 ds : ℚ) ∧
    (sampleOf [] = fin 0 ∧ parseInt (some []) = nan) ∧
    (sampleOf "12.5mV".toList = fin (25 / 2) ∧ parseInt (some "12.5mV".toList) = fin 12) := by
  have hs : sampleOf v = ofRat false (digitsValue 10 ds : ℚ) := by
    unfold sampleOf
    rcases hv with rfl | rfl
    · rw [removeFirst_digits v hds, trim_digits v hds, toNumber_digits v hne hds]
    · rw [removeFirst_digits_mV ds hds, trim_digits ds hds, toNumber_digits ds hne hds]
  have hp : parseInt (some v) = ofRat false (digitsValue 10 ds : ℚ) := by
    rcases hv with rfl | rfl
    · have h := parseInt_digits v [] hne hds (by simp)
      rwa [List.append_nil] at h
    · exact parseInt_digits ds "mV".toList hne hds (by
        intro c hc
        have : c = 'm' := by simpa using hc.symm
        rw [this]
        decide)
  exact ⟨by rw [hs, hp], hs, by decide!, by decide!⟩

/-- Witness of `sampleOf_eq_parseInt`: the value `11800mV`. -/
theorem sampleOf_eq_parseInt_witness :
    sampleOf "11800mV".toList = parseInt (some "11800mV".toList) ∧
    sampleOf "11800mV".toList = fin 11800 :=
  have h := sampleOf_eq_parseInt "11800mV".toList "11800".toList (by decide) (by decide)
    (Or.inr (by decide))
  ⟨h.1, h.2.1.trans (by decide!)⟩

end ArduinoReader
